import Mathlib

/-!
Verification of the backgammon engine core (`backgammon/core` and
`backgammon/players`): a shallow embedding of the board state, the stone
mutation primitives with incremental Zobrist hashing, the rule engine, the
turn-move generator with its memoized depth-first search, and the
Monte-Carlo move selector, together with proofs about the specification's
claims.

Conventions of the embedding:
* Python unbounded nonnegative ints used as bitmasks become `Nat`; the
  complement-based operation `m & ~r` is written `m &&& (m ^^^ r)`, which
  agrees with it bit-for-bit on nonnegative ints.
* The board is a `List Int` of length 26 (indices 0..25), exactly the
  `np.int8` array of the source; int8 overflow is not modelled (counts stay
  within 0..15 in every situation the claims quantify over).
* The random 64-bit Zobrist tables are a parameter `ZTable`: the source
  fills them with `random.getrandbits(64)` at import time, so theorems
  quantify over the table (or hypothesize properties such as injectivity
  of the resulting position hash).
* Stateful methods become functions `State → State`; fallible construction
  returns `Option State`.
-/

namespace BG

/-! ## Bitmask utilities (`utils/bitmask.py`) -/

/-- Model of `mask | (1 << idx)` (`set_bit`). -/
def set_bit (idx : Nat) (mask : Nat := 0) : Nat := mask ||| (1 <<< idx)

/-- Model of `mask & ~remove` (`remove_from_mask`) for nonnegative ints,
written complement-free: a bit survives iff it is set in `mask` and not in
`remove`. -/
def remove_from_mask (mask remove : Nat) : Nat := mask &&& (mask ^^^ remove)

/-- Model of `mask & ~(1 << idx)` (`clear_bit`). -/
def clear_bit (idx mask : Nat) : Nat := remove_from_mask mask (1 <<< idx)

/-- Model of `(mask & (1 << idx)) != 0` (`is_bit_set`). -/
def is_bit_set (idx mask : Nat) : Bool := (mask &&& (1 <<< idx)) != 0

/-- Model of `((1 << (end+1)) - 1) & ~((1 << start) - 1)` (`set_all_bits`). -/
def set_all_bits (s e : Nat) : Nat := remove_from_mask ((1 <<< (e + 1)) - 1) ((1 <<< s) - 1)

/-- Model of `shift_mask`: left shift for nonnegative steps, right shift
otherwise. -/
def shift_mask (mask : Nat) (steps : Int) : Nat :=
  if 0 ≤ steps then mask <<< steps.toNat else mask >>> (-steps).toNat

/-- Model of `bits_from_indices`: or together `1 << i` over the list. -/
def bits_from_indices (indices : List Nat) : Nat :=
  indices.foldl (fun mask i => mask ||| (1 <<< i)) 0

/-- Model of `indices_from_bits`: the source peels least-significant bits
off in a loop, producing the set bit positions in ascending order. Board
masks only use bits 0..25, so we enumerate that range. -/
def indices_from_bits (mask : Nat) : List Nat :=
  (List.range 26).filter (fun i => mask.testBit i)

/-! ## Board constants (`core/board.py`) -/

def BOARD_START : Nat := 1
def BOARD_END : Nat := 24

/-- `BAR_FIELD = [25, 0]`. -/
def BAR_FIELD (player : Nat) : Nat := if player = 0 then 25 else 0

/-- `BEAR_OFF_ANCHOR = [0, 25]`. -/
def BEAR_OFF_ANCHOR (player : Nat) : Nat := if player = 0 then 0 else 25

/-- `HOME_START = [1, 19]`. -/
def HOME_START (player : Nat) : Nat := if player = 0 then 1 else 19

/-- `HOME_END = [6, 24]`. -/
def HOME_END (player : Nat) : Nat := if player = 0 then 6 else 24

def FULL_BOARD_MASK : Nat := set_all_bits BOARD_START BOARD_END

def HOME_MASK (player : Nat) : Nat := set_all_bits (HOME_START player) (HOME_END player)

def OUTSIDE_HOME_MASK (player : Nat) : Nat := HOME_MASK player ^^^ FULL_BOARD_MASK

def NUM_OF_ALL_STONES : Int := 15

/-- `STONE = (-1, 1)`. -/
def STONE (player : Nat) : Int := if player = 0 then -1 else 1

/-- `DIRECTION = (-1, 1)`. -/
def DIRECTION (player : Nat) : Int := if player = 0 then -1 else 1

/-- `DEFAULT_POSITIONS`, per player a list of `(point, count)` pairs. -/
def DEFAULT_POSITIONS : List (List (Int × Int)) :=
  [[(24, 2), (13, 5), (8, 3), (6, 5)], [(1, 2), (12, 5), (17, 3), (19, 5)]]

/-! ## Move records (`core/moves.py`) -/

inductive SingleMoveType where
  | NORMAL
  | HIT
  | BEAR_OFF
deriving DecidableEq, Repr, Inhabited

/-- Frozen dataclass `SingleMove`. Points are board indices 0..25 (the
generator only ever produces indices in that range). -/
structure SingleMove where
  player : Nat
  from_point : Nat
  to_point : Nat
  move_type : SingleMoveType
  die : Nat
deriving DecidableEq, Repr, Inhabited

/-- Frozen dataclass `TurnMove`: the ordered list of single moves of one
turn. -/
structure TurnMove where
  single_moves : List SingleMove
deriving DecidableEq, Repr

/-! ## Zobrist tables (`core/state.py` module level)

`ZOBRIST_TABLE` is a 28 × 2 × 16 array of fresh 64-bit random values
(`t point player count`; rows 26 and 27 key the two bear-off counters) and
`ZOBRIST_PLAYER` a pair of 64-bit random values (`zp player`). -/

structure ZTable where
  t : Nat → Nat → Nat → Nat
  zp : Nat → Nat

/-! ## Game state (`core/state.py`) -/

/-- Mutable game state: `board` (26 signed counts), `bear_off_stones`
(2 counters), the per-player occupancy and blocked masks, the active
player and the incrementally maintained Zobrist hash. -/
structure State where
  board : List Int
  bearOff : List Int
  occMask : List Nat
  blockedMask : List Nat
  turn : Nat
  zhash : Nat
deriving DecidableEq, Repr

/-- `num_of_stones(point, player)`: the player's nonnegative count at a
point (`val if val > 0 else 0` with `val = board[point] * STONE[player]`). -/
def num_of_stones (s : State) (point player : Nat) : Int :=
  let val := (s.board.getD point 0) * STONE player
  if 0 < val then val else 0

/-- `_update_occupied(point)`: refresh both players' occupancy bit at one
point from the board. -/
def updateOccupied (point : Nat) (s : State) : State :=
  let upd := fun (s : State) (player : Nat) =>
    let m := s.occMask.getD player 0
    let m2 := if 0 < num_of_stones s point player then set_bit point m else clear_bit point m
    { s with occMask := s.occMask.set player m2 }
  upd (upd s 0) 1

/-- `_update_blocked(point)`: refresh both players' blocked bit at one
point from the board (blocked for `player` iff the opponent has ≥ 2). -/
def updateBlocked (point : Nat) (s : State) : State :=
  let upd := fun (s : State) (player : Nat) =>
    let opp := 1 - player
    let m := s.blockedMask.getD player 0
    let m2 := if 2 ≤ num_of_stones s point opp then set_bit point m else clear_bit point m
    { s with blockedMask := s.blockedMask.set player m2 }
  upd (upd s 0) 1

/-- `_recompute_masks`: rebuild both masks of both players from the board
(`np.flatnonzero` scans all 26 entries in ascending order). -/
def recomputeMasks (s : State) : State :=
  let occ := fun (player : Nat) =>
    bits_from_indices ((List.range 26).filter
      (fun i => 0 < (s.board.getD i 0) * STONE player))
  let blocked := fun (player : Nat) =>
    bits_from_indices ((List.range 26).filter
      (fun i => 2 ≤ (s.board.getD i 0) * STONE (1 - player)))
  { s with occMask := [occ 0, occ 1], blockedMask := [blocked 0, blocked 1] }

/-- `_add_stone(point, player)`: bump the board, XOR the old and new count
keys into the hash, refresh the masks at the point. -/
def addStone (Z : ZTable) (point player : Nat) (s : State) : State :=
  let old := (num_of_stones s point player).toNat
  let s1 := { s with board := s.board.set point (s.board.getD point 0 + STONE player) }
  let new := (num_of_stones s1 point player).toNat
  let s2 := { s1 with zhash := s1.zhash ^^^ Z.t point player old ^^^ Z.t point player new }
  updateBlocked point (updateOccupied point s2)

/-- `_remove_stone(point, player)`: no-op when the player has no stone at
the point, otherwise the inverse bump with the same hash/mask updates. -/
def removeStone (Z : ZTable) (point player : Nat) (s : State) : State :=
  let old := (num_of_stones s point player).toNat
  if old = 0 then s
  else
    let s1 := { s with board := s.board.set point (s.board.getD point 0 - STONE player) }
    let new := (num_of_stones s1 point player).toNat
    let s2 := { s1 with zhash := s1.zhash ^^^ Z.t point player old ^^^ Z.t point player new }
    updateBlocked point (updateOccupied point s2)

/-- `move_stone(start, target, player)` (debug assertions are off by
default and do nothing). -/
def moveStone (Z : ZTable) (start target player : Nat) (s : State) : State :=
  addStone Z target player (removeStone Z start player s)

/-- `undo_stone_move(start, target, player)` = `move_stone(target, start)`. -/
def undoStoneMove (Z : ZTable) (start target player : Nat) (s : State) : State :=
  moveStone Z target start player s

/-- `hit_stone`: send the opponent's stone at `target` to its bar, then
move the player's stone from `start` to `target`. -/
def hitStone (Z : ZTable) (start target player : Nat) (s : State) : State :=
  let opp := 1 - player
  moveStone Z start target player (moveStone Z target (BAR_FIELD opp) opp s)

/-- `undo_hit_stone`: un-move the mover first, then restore the opponent
from the bar. -/
def undoHitStone (Z : ZTable) (start target player : Nat) (s : State) : State :=
  let opp := 1 - player
  undoStoneMove Z target (BAR_FIELD opp) opp (undoStoneMove Z start target player s)

/-- `bear_off(point, player)`: remove the stone, bump the counter, XOR the
old and new bear-off counter keys (table rows 26 and 27). -/
def bearOff (Z : ZTable) (point player : Nat) (s : State) : State :=
  let old := s.bearOff.getD player 0
  let s1 := removeStone Z point player s
  let s2 := { s1 with bearOff := s1.bearOff.set player (old + 1) }
  { s2 with zhash := s2.zhash ^^^ Z.t (26 + player) player old.toNat
      ^^^ Z.t (26 + player) player (old + 1).toNat }

/-- `undo_bear_off(point, player)`: decrement the counter, put the stone
back, XOR the same two counter keys. -/
def undoBearOff (Z : ZTable) (point player : Nat) (s : State) : State :=
  let old := s.bearOff.getD player 0
  let s1 := { s with bearOff := s.bearOff.set player (old - 1) }
  let s2 := addStone Z point player s1
  { s2 with zhash := s2.zhash ^^^ Z.t (26 + player) player old.toNat
      ^^^ Z.t (26 + player) player (old - 1).toNat }

/-- `apply_move(move)`: `False` and no change for `None`, otherwise
dispatch on the move type and return `True`. -/
def applyMove (Z : ZTable) (move : Option SingleMove) (s : State) : Bool × State :=
  match move with
  | none => (false, s)
  | some m =>
    (true,
      match m.move_type with
      | .NORMAL => moveStone Z m.from_point m.to_point m.player s
      | .HIT => hitStone Z m.from_point m.to_point m.player s
      | .BEAR_OFF => bearOff Z m.from_point m.player s)

/-- The state after applying a (non-`None`) single move. -/
def applySM (Z : ZTable) (m : SingleMove) (s : State) : State :=
  (applyMove Z (some m) s).2

/-- `undo_move(move)`: symmetric dispatch. -/
def undoSM (Z : ZTable) (m : SingleMove) (s : State) : State :=
  match m.move_type with
  | .NORMAL => undoStoneMove Z m.from_point m.to_point m.player s
  | .HIT => undoHitStone Z m.from_point m.to_point m.player s
  | .BEAR_OFF => undoBearOff Z m.from_point m.player s

/-- `switch_turn`: flip the active player. The hash is not touched. -/
def switchTurn (s : State) : State := { s with turn := 1 - s.turn }

/-- `update_zobrist_hash`: the from-scratch recomputation — XOR the key of
every positive point count, of every positive bear-off counter, and the
active player's key. -/
def scratchHash (Z : ZTable) (s : State) : Nat :=
  let h := (List.range 26).foldl (fun h point =>
    [0, 1].foldl (fun h player =>
      let count := (num_of_stones s point player).toNat
      if 0 < count then h ^^^ Z.t point player count else h) h) 0
  let h := [0, 1].foldl (fun h player =>
    let count := s.bearOff.getD player 0
    if 0 < count then h ^^^ Z.t (26 + player) player count.toNat else h) h
  h ^^^ Z.zp s.turn

/-! ## Construction and serialization (`core/state.py`) -/

/-- The state produced by `reset_board` inside `__init__`/`start_game`
(zero board, zero counters, empty masks, hash 0). -/
def emptyState : State :=
  { board := List.replicate 26 0, bearOff := [0, 0], occMask := [0, 0],
    blockedMask := [0, 0], turn := 0, zhash := 0 }

/-- One player's loop body of `place_stones_from_list`: fold the entries,
sending `(-1, count)` to the bear-off counter and `(point, count)` to the
board, accumulating `total` over the board entries. -/
def placeEntries (player : Nat) (entries : List (Int × Int)) (s : State) : State × Int :=
  entries.foldl (fun (p : State × Int) e =>
    if e.1 = -1 then
      ({ p.1 with bearOff := p.1.bearOff.set player (p.1.bearOff.getD player 0 + e.2) }, p.2)
    else
      ({ p.1 with board := p.1.board.set e.1.toNat (e.2 * STONE player) }, p.2 + e.2))
    (s, 0)

/-- `place_stones_from_list`: place player 0's entries, validate that
player's total, then the same for player 1, then recompute the masks.
`none` models the raised `ValueError`. (Entry points are assumed ≥ -1;
Python's negative indexing of points below -1 is not modelled.) -/
def placeStonesFromList (positions : List (List (Int × Int))) (s : State) : Option State :=
  let p0 := placeEntries 0 (positions.getD 0 []) s
  if p0.2 + p0.1.bearOff.getD 0 0 ≠ NUM_OF_ALL_STONES then none
  else
    let p1 := placeEntries 1 (positions.getD 1 []) p0.1
    if p1.2 + p1.1.bearOff.getD 1 0 ≠ NUM_OF_ALL_STONES then none
    else some (recomputeMasks p1.1)

/-- `BackgammonState(positions, start_player)`: reset, set the turn, place
the stones (masks included), then set the hash by `update_zobrist_hash`. -/
def mkState (Z : ZTable) (positions : List (List (Int × Int))) (startPlayer : Nat) :
    Option State :=
  (placeStonesFromList positions { emptyState with turn := startPlayer }).map
    (fun s => { s with zhash := scratchHash Z s })

/-- `state_to_list`: negative board entries become player 0's
`(point, -stones)` pairs, positive ones player 1's `(point, stones)`
pairs, and a positive bear-off counter appends `(-1, count)`. -/
def stateToList (s : State) : List (List (Int × Int)) :=
  let pos0 := s.board.enum.filterMap
    (fun pe => if pe.2 < 0 then some ((pe.1 : Int), -pe.2) else none)
  let pos1 := s.board.enum.filterMap
    (fun pe => if 0 < pe.2 then some ((pe.1 : Int), pe.2) else none)
  let pos0 := if 0 < s.bearOff.getD 0 0 then pos0 ++ [(-1, s.bearOff.getD 0 0)] else pos0
  let pos1 := if 0 < s.bearOff.getD 1 0 then pos1 ++ [(-1, s.bearOff.getD 1 0)] else pos1
  [pos0, pos1]

/-! ## Rule engine (`core/rules.py`) -/

/-- `state.masks['occupied']` for the active player. -/
def occupiedMask (s : State) : Nat := s.occMask.getD s.turn 0

/-- `state.masks['blocked']` for the active player. -/
def blockedMaskOf (s : State) : Nat := s.blockedMask.getD s.turn 0

/-- R1 `BarPriorityRule.check`: the bar point alone while the active
player has bar stones, otherwise all occupied points. -/
def allowedStartMask (s : State) : Nat :=
  let barIndex := BAR_FIELD s.turn
  if 0 < num_of_stones s barIndex s.turn then set_bit barIndex else occupiedMask s

/-- R2 `BearingOffEligibilityRule.check`: no occupied point outside the
active player's home. -/
def bearingOffAllowed (s : State) : Bool :=
  OUTSIDE_HOME_MASK s.turn &&& occupiedMask s == 0

/-- The list of home-board points `range(HOME_START, HOME_END + 1)` of a
player. -/
def homeRange (player : Nat) : List Nat :=
  List.range' (HOME_START player) (HOME_END player + 1 - HOME_START player)

/-- R3 helper `_no_stone_behind`: no occupied home point strictly on the
far side of `start` (away from the bear-off anchor). -/
def noStoneBehind (start : Nat) (s : State) : Bool :=
  let player := s.turn
  let homeMask := HOME_MASK player
  let maskBehind :=
    if player = 0 then remove_from_mask homeMask (set_all_bits (HOME_START player) start)
    else remove_from_mask homeMask (set_all_bits start (HOME_END player))
  occupiedMask s &&& maskBehind == 0

/-- R3 `BearOffTargetRule.check`: exact landing on the anchor always bears
off; an overshooting die bears off iff no stone sits behind `start` and no
occupied home point reaches the anchor exactly with this die. -/
def bearOffTarget (s : State) (start : Nat) (target : Int) (die : Nat) : Bool :=
  let player := s.turn
  if target = (BEAR_OFF_ANCHOR player : Int) then true
  else
    let overshoot := (player = 0 && target < (BEAR_OFF_ANCHOR player : Int))
      || (player = 1 && (BEAR_OFF_ANCHOR player : Int) < target)
    if overshoot then
      if noStoneBehind start s then
        if (homeRange player).any
            (fun p => 0 < num_of_stones s p player
              && (p : Int) + (die : Int) * DIRECTION player = (BEAR_OFF_ANCHOR player : Int))
        then false else true
      else false
    else false

/-- R4 `SingleHitRule.check`: exactly one opponent stone at the point. -/
def hittableTarget (s : State) (point : Nat) : Bool :=
  num_of_stones s point (1 - s.turn) == 1

/-- R5 `LegalMaskRule.check`: shift the allowed starts by the die in the
active player's direction, clip to the board, drop blocked points. -/
def generateLegalMask (s : State) (die : Nat) : Nat :=
  let sm := allowedStartMask s
  let shifted := shift_mask sm ((die : Int) * DIRECTION s.turn)
  let shifted := shifted &&& FULL_BOARD_MASK
  remove_from_mask shifted (blockedMaskOf s)

/-- R6 `DiceHelperRule.check`: a double expands to four dice. -/
def processDice (dice : List Nat) : List Nat :=
  match dice with
  | [a, b] => if a = b then [a, a, a, a] else dice
  | _ => dice

/-- R7 `FilterTurnMovesRule.check`: keep only maximal-length sequences;
when that length is 1, keep only those whose (single) move uses the
largest die occurring among the kept sequences. -/
def filterTurnMoves (turnMoves : List TurnMove) : List TurnMove :=
  match turnMoves with
  | [] => []
  | _ =>
    let maxLen := (turnMoves.map (fun tm => tm.single_moves.length)).foldl Nat.max 0
    let turnMoves := turnMoves.filter (fun tm => tm.single_moves.length = maxLen)
    if maxLen = 1 then
      let big := (turnMoves.foldl (fun acc tm =>
        tm.single_moves.foldl (fun acc sm => acc.max sm.die) acc) 0)
      turnMoves.filter (fun tm =>
        !tm.single_moves.isEmpty && (tm.single_moves.headD default).die = big)
    else turnMoves

/-- Frozen dataclass `GameResult`. -/
structure GameResult where
  winner : Nat
  points : Int
  cube_value : Int
  type : String
deriving DecidableEq, Repr

/-- The body of R8 `GameOverRule.check` for one candidate winner. -/
def gameOverFor (s : State) (cube : Int) (player : Nat) : Option GameResult :=
  if s.bearOff.getD player 0 = NUM_OF_ALL_STONES then
    let opponent := 1 - player
    let gammon := s.bearOff.getD opponent 0 = 0
    let occ := s.occMask.getD opponent 0
    let additional := 0 < num_of_stones s (BAR_FIELD opponent) opponent
      ∨ occ &&& HOME_MASK player ≠ 0
    let backgammon := gammon ∧ additional
    let mult : Int := if backgammon then 3 else if gammon then 2 else 1
    let kind := if backgammon then "BACKGAMMON" else if gammon then "GAMMON" else "WIN"
    some ⟨player, mult * cube, cube, kind⟩
  else none

/-- R8 `GameOverRule.check`: try player 0 then player 1. -/
def gameOver (s : State) (cube : Int) : Option GameResult :=
  match gameOverFor s cube 0 with
  | some r => some r
  | none => gameOverFor s cube 1

/-! ## Single and turn move generation (`core/generator.py`) -/

/-- `is_on_board(point)`. -/
def isOnBoard (point : Int) : Bool := (BOARD_START : Int) ≤ point && point ≤ (BOARD_END : Int)

/-- `SingleMovesGenerator._single_move`: a NORMAL/HIT move when the
shifted target is on the board and in the legal mask, otherwise a
BEAR_OFF move when bearing off is allowed and the bear-off-target rule
accepts; `none` otherwise. -/
def singleMoveAt (s : State) (start die : Nat) : Option SingleMove :=
  let target : Int := (start : Int) + (die : Int) * DIRECTION s.turn
  let onBoardMove : Option SingleMove :=
    if isOnBoard target && is_bit_set target.toNat (generateLegalMask s die) then
      some ⟨s.turn, start, target.toNat,
        if hittableTarget s target.toNat then .HIT else .NORMAL, die⟩
    else none
  match onBoardMove with
  | some mv => some mv
  | none =>
    if bearingOffAllowed s && bearOffTarget s start target die then
      some ⟨s.turn, start, BEAR_OFF_ANCHOR s.turn, .BEAR_OFF, die⟩
    else none

/-- `SingleMovesGenerator.generate_moves`: one candidate per allowed start
point, in ascending point order. -/
def generateMoves (s : State) (die : Nat) : List SingleMove :=
  (indices_from_bits (allowedStartMask s)).filterMap (fun start => singleMoveAt s start die)

/-- `TurnMoveGenerator.any_move_left`: some remaining die has a legal
single move (the source iterates `set(dice)`; existence is order- and
multiplicity-independent). -/
def anyMoveLeft (s : State) (dice : List Nat) : Bool :=
  dice.any (fun die => !(generateMoves s die).isEmpty)

/-- Ascending sort, modelling Python's `sorted`. -/
def sortNat (l : List Nat) : List Nat := l.insertionSort (· ≤ ·)

/-- The DFS body of `for smove in single_moves`: apply the move, recurse
with it appended to the path, undo it. -/
def dfsChild (Z : ZTable)
    (rec : State → List Nat → List SingleMove →
      List (Nat × List Nat) × List TurnMove → List (Nat × List Nat) × List TurnMove)
    (remaining : List Nat) (path : List SingleMove)
    (acc : State × (List (Nat × List Nat) × List TurnMove)) (sm : SingleMove) :
    State × (List (Nat × List Nat) × List TurnMove) :=
  let s1 := applySM Z sm acc.1
  let VA1 := rec s1 remaining (path ++ [sm]) acc.2
  (undoSM Z sm s1, VA1)

/-- The DFS body of `for idx, die in enumerate(dice_left)`: generate the
die's single moves and explore each of them (an empty list just skips, as
the source's `continue` does). -/
def dfsDie (Z : ZTable)
    (rec : State → List Nat → List SingleMove →
      List (Nat × List Nat) × List TurnMove → List (Nat × List Nat) × List TurnMove)
    (diceLeft : List Nat) (path : List SingleMove)
    (acc : State × (List (Nat × List Nat) × List TurnMove)) (idxDie : Nat × Nat) :
    State × (List (Nat × List Nat) × List TurnMove) :=
  let sms := generateMoves acc.1 idxDie.2
  let remaining := diceLeft.eraseIdx idxDie.1
  sms.foldl (dfsChild Z rec remaining path) acc

/-- One level of the DFS of `generate_all_turn_moves`, parametrized by the
recursive call `rec` for the next level. Mirrors the source: a node with
no move left records its (non-empty) path; a node whose
(hash, sorted-remaining-dice) key is already visited is pruned; otherwise
the key is added and for each die index with legal single moves, each move
is applied, explored recursively, and undone. -/
def dfsStep (Z : ZTable)
    (rec : State → List Nat → List SingleMove →
      List (Nat × List Nat) × List TurnMove → List (Nat × List Nat) × List TurnMove)
    (s : State) (diceLeft : List Nat) (path : List SingleMove)
    (VA : List (Nat × List Nat) × List TurnMove) :
    List (Nat × List Nat) × List TurnMove :=
  if !anyMoveLeft s diceLeft then
    (VA.1, if path.isEmpty then VA.2 else VA.2 ++ [⟨path⟩])
  else
    let key := (s.zhash, sortNat diceLeft)
    if key ∈ VA.1 then VA
    else
      (diceLeft.enum.foldl (dfsDie Z rec diceLeft path) (s, (key :: VA.1, VA.2))).2

/-- The fuelled DFS; `generate_all_turn_moves` runs it with fuel larger
than the dice count, which the recursion (one die per level) never
exhausts. -/
def dfs (Z : ZTable) : Nat → State → List Nat → List SingleMove →
    List (Nat × List Nat) × List TurnMove → List (Nat × List Nat) × List TurnMove
  | 0 => fun _ _ _ VA => VA
  | fuel + 1 => dfsStep Z (dfs Z fuel)

/-- `generate_all_turn_moves`: run the DFS from the empty path with fresh
visited set and accumulator. -/
def generateAllTurnMoves (Z : ZTable) (s : State) (dice : List Nat) : List TurnMove :=
  (dfs Z (dice.length + 1) s dice [] ([], [])).2

/-- `generate_legal_moves`: the DFS output passed through R7. -/
def generateLegalMoves (Z : ZTable) (s : State) (dice : List Nat) : List TurnMove :=
  filterTurnMoves (generateAllTurnMoves Z s dice)

/-! ## Monte-Carlo move selector (`players/computer.py`)

`GammonBot.select_move` and `rollout` pick candidates by UCB1 scores over
floats and random rollouts; neither the scores nor the randomness affect
how the state is mutated, so the embedding abstracts every choice into
oracle data that the theorems quantify over: which candidate an iteration
applies, and per rollout ply the two dice and the index of the randomly
chosen turn move. -/

/-- Oracle data for one simulated rollout ply: the two rolled dice and the
`random.choice` pick among the legal turn moves. -/
structure RollPly where
  d1 : Nat
  d2 : Nat
  choice : Nat
deriving Repr

/-- Apply a turn move's single moves in order. -/
def applyTM (Z : ZTable) (mv : TurnMove) (s : State) : State :=
  mv.single_moves.foldl (fun st sm => applySM Z sm st) s

/-- Undo a turn move's single moves in reverse order (the LIFO
`applied_moves` stack). -/
def undoTM (Z : ZTable) (mv : TurnMove) (s : State) : State :=
  mv.single_moves.reverse.foldl (fun st sm => undoSM Z sm st) s

/-- One iteration of the `while count < depth` loop of `rollout`: roll,
expand doubles, generate legal moves; with none, just switch the turn;
otherwise apply the chosen move's single moves (recording them on the
applied stack) and switch the turn. -/
def rolloutPly (Z : ZTable) (ply : RollPly) (p : State × List SingleMove) :
    State × List SingleMove :=
  let dice := processDice [ply.d1, ply.d2]
  let moves := generateLegalMoves Z p.1 dice
  if moves.isEmpty then (switchTurn p.1, p.2)
  else
    let mv := moves.getD (ply.choice % moves.length) ⟨[]⟩
    let p2 := mv.single_moves.foldl
      (fun (q : State × List SingleMove) sm => (applySM Z sm q.1, q.2 ++ [sm])) p
    (switchTurn p2.1, p2.2)

/-- `GammonBot.rollout`, state effects only: an immediate game-over
returns without touching the state; otherwise simulate the plies, undo
every applied move in reverse order, and restore the saved turn. -/
def rollout (Z : ZTable) (plies : List RollPly) (s : State) : State :=
  if (gameOver s 1).isSome then s
  else
    let t0 := s.turn
    let p := plies.foldl (fun p ply => rolloutPly Z ply p) (s, [])
    let s2 := p.2.reverse.foldl (fun st sm => undoSM Z sm st) p.1
    { s2 with turn := t0 }

/-- Oracle data for one UCB1 iteration: the candidate index the float
argmax selects, and the rollout's randomness (its length is the rollout
depth). -/
structure IterChoice where
  pick : Nat
  rolls : List RollPly
deriving Repr

/-- The initialization loop of `select_move`: each candidate is applied,
evaluated (pure) and undone via the applied stack. -/
def selectInit (Z : ZTable) (legalMoves : List TurnMove) (s : State) : State :=
  legalMoves.foldl (fun st mv => undoTM Z mv (applyTM Z mv st)) s

/-- One UCB1 iteration of `select_move`: apply the selected candidate,
roll out, undo the candidate's moves from the applied stack. -/
def selectIter (Z : ZTable) (legalMoves : List TurnMove) (s : State) (it : IterChoice) :
    State :=
  let mv := legalMoves.getD (it.pick % legalMoves.length) ⟨[]⟩
  let s1 := applyTM Z mv s
  let s2 := rollout Z it.rolls s1
  undoTM Z mv s2

/-- `GammonBot.select_move`, state effects only: the initialization pass
followed by the UCB1 iterations. -/
def selectMoveState (Z : ZTable) (legalMoves : List TurnMove) (iters : List IterChoice)
    (s : State) : State :=
  iters.foldl (selectIter Z legalMoves) (selectInit Z legalMoves s)

/-! ## State invariants (`core/state_invariants.py`) -/

/-- The per-player total of `assert_stone_invariant`: board points 1..24
plus the absolute bar count plus the borne-off counter. -/
def stoneTotal (s : State) (player : Nat) : Int :=
  ((List.range' BOARD_START (BOARD_END + 1 - BOARD_START)).foldl
    (fun acc i => acc + num_of_stones s i player) 0)
    + |s.board.getD (BAR_FIELD player) 0| + s.bearOff.getD player 0

/-- The canonical occupancy mask of `assert_mask_invariant` /
`_recompute_masks`. -/
def canonOcc (s : State) (player : Nat) : Nat :=
  bits_from_indices ((List.range 26).filter
    (fun i => 0 < (s.board.getD i 0) * STONE player))

/-- The canonical blocked mask of `assert_mask_invariant` /
`_recompute_masks`. -/
def canonBlocked (s : State) (player : Nat) : Nat :=
  bits_from_indices ((List.range 26).filter
    (fun i => 2 ≤ (s.board.getD i 0) * STONE (1 - player)))

/-- `assert_stone_invariant`: both players hold 15 stones in total. -/
def StoneInv (s : State) : Prop := ∀ p < 2, stoneTotal s p = NUM_OF_ALL_STONES

/-- `assert_mask_invariant`: both masks of both players match the board. -/
def MaskInv (s : State) : Prop :=
  ∀ p < 2, s.occMask.getD p 0 = canonOcc s p ∧ s.blockedMask.getD p 0 = canonBlocked s p

/-- Well-formed field shapes: the `np.zeros(26)` board, the two-element
counter and mask arrays. -/
def WF (s : State) : Prop :=
  s.board.length = 26 ∧ s.bearOff.length = 2 ∧ s.occMask.length = 2 ∧ s.blockedMask.length = 2

/-- Bar anchors hold only their owner's sign (point 25 only player 0's
negative stones, point 0 only player 1's positive stones). -/
def SignInv (s : State) : Prop := 0 ≤ s.board.getD 0 0 ∧ s.board.getD 25 0 ≤ 0

/-- Bear-off counters are nonnegative. -/
def BearInv (s : State) : Prop := 0 ≤ s.bearOff.getD 0 0 ∧ 0 ≤ s.bearOff.getD 1 0

/-- The combined state invariant maintained by legal play. -/
def Inv (s : State) : Prop :=
  WF s ∧ s.turn < 2 ∧ StoneInv s ∧ SignInv s ∧ BearInv s ∧ MaskInv s

instance (s : State) : Decidable (StoneInv s) := Nat.decidableBallLT 2 _
instance (s : State) : Decidable (MaskInv s) := Nat.decidableBallLT 2 _
instance (s : State) : Decidable (WF s) := by unfold WF; infer_instance
instance (s : State) : Decidable (SignInv s) := by unfold SignInv; infer_instance
instance (s : State) : Decidable (BearInv s) := by unfold BearInv; infer_instance
instance (s : State) : Decidable (Inv s) := by unfold Inv; infer_instance

/-- Preconditions under which a single move's mutation is exactly
invertible: the mover owns a stone at the source (which is a board point
or the mover's bar), and the target data matches the move type. Every
move produced by the generator in an `Inv` state satisfies this
(`generateMoves_applicable`). -/
def Applicable (s : State) (m : SingleMove) : Prop :=
  m.player < 2 ∧
  (BOARD_START ≤ m.from_point ∧ m.from_point ≤ BOARD_END ∨ m.from_point = BAR_FIELD m.player) ∧
  1 ≤ num_of_stones s m.from_point m.player ∧
  (m.move_type = .NORMAL → BOARD_START ≤ m.to_point ∧ m.to_point ≤ BOARD_END ∧
      0 ≤ (s.board.getD m.to_point 0) * STONE m.player) ∧
  (m.move_type = .HIT → BOARD_START ≤ m.to_point ∧ m.to_point ≤ BOARD_END ∧
      num_of_stones s m.to_point (1 - m.player) = 1)

instance (s : State) (m : SingleMove) : Decidable (Applicable s m) := by
  unfold Applicable; infer_instance

/-! ## Python equality and hashing semantics of the move records
(`core/moves.py`)

`SingleMove` and `TurnMove` are `@dataclass(frozen=True)`. CPython
generates `__eq__` comparing the tuple of fields, and (since `eq` and
`frozen` are both true) a `__hash__` evaluating `hash` of the tuple of
fields. Every `SingleMove` field is an int or an enum member, so its hash
is a pure function of the field values. The single field of `TurnMove` is
a `list`, and CPython raises `TypeError` when hashing a `list`, so
`hash(turn_move)` fails; hashability is modelled as an `Option`. -/

/-- Generated dataclass `__eq__` of `SingleMove`: field-wise comparison. -/
def SingleMove.pyEq (a b : SingleMove) : Bool :=
  a.player == b.player && a.from_point == b.from_point && a.to_point == b.to_point
    && a.move_type == b.move_type && a.die == b.die

/-- Generated dataclass `__eq__` of `TurnMove`: Python list equality is
element-wise value equality. -/
def TurnMove.pyEq (a b : TurnMove) : Bool :=
  a.single_moves.length == b.single_moves.length
    && (a.single_moves.zip b.single_moves).all (fun q => q.1.pyEq q.2)

/-- Generated dataclass `__hash__` of `SingleMove`: defined (a `Nat`), and
a function of the field values only. The concrete combination stands in
for CPython's tuple hash. -/
def SingleMove.pyHash (m : SingleMove) : Option Nat :=
  some ((((m.player * 31 + m.from_point) * 31 + m.to_point) * 31 +
    (match m.move_type with | .NORMAL => 1 | .HIT => 2 | .BEAR_OFF => 3)) * 31 + m.die)

/-- Generated dataclass `__hash__` of `TurnMove`: it evaluates the hash of
a tuple containing `self.single_moves`, a `list`; CPython raises
`TypeError: unhashable type: 'list'`, modelled as `none`. -/
def TurnMove.pyHash (_ : TurnMove) : Option Nat := none

/-! ## Relational specification of legal turn sequences

A legal turn sequence plays one rule-engine-legal single move per die
from the remaining dice multiset; it is complete (a full "legal turn
move") when no remaining die has any legal single move at the end. -/

/-- `Seq Z s D p s2 D2`: playing the moves `p` from state `s` with dice
multiset `D` is legal step by step and ends in state `s2` with remaining
dice `D2`. -/
inductive Seq (Z : ZTable) : State → Multiset Nat → List SingleMove → State → Multiset Nat → Prop where
  | nil : ∀ s D, Seq Z s D [] s D
  | cons : ∀ s D die sm p s2 D2, die ∈ D → sm ∈ generateMoves s die →
      Seq Z (applySM Z sm s) (D.erase die) p s2 D2 → Seq Z s D (sm :: p) s2 D2

/-- No remaining die has a legal single move. -/
def DeadEnd (s : State) (D : Multiset Nat) : Prop := ∀ die ∈ D, generateMoves s die = []

/-- A maximal (non-extendable, non-empty) legal turn sequence for the
dice multiset `D` — the specification's "legal turn move". -/
def LegalTurnSeq (Z : ZTable) (s : State) (D : Multiset Nat) (p : List SingleMove) : Prop :=
  p ≠ [] ∧ ∃ s2 D2, Seq Z s D p s2 D2 ∧ DeadEnd s2 D2

/-- All states the turn-move search can reach from `s` with the dice list
 `dice` (proof-side enumeration used to phrase hash-injectivity
hypotheses decidably). -/
def reachStates (Z : ZTable) : Nat → State → List Nat → List State
  | 0, s, _ => [s]
  | fuel + 1, s, dice =>
    s :: (List.range dice.length).flatMap (fun idx =>
      (generateMoves s (dice.getD idx 0)).flatMap (fun sm =>
        reachStates Z fuel (applySM Z sm s) (dice.eraseIdx idx)))

/-- Pairwise injectivity of the maintained position hash on a list of
states (decidable; used as the no-hash-collision hypothesis for the
memoized search). -/
def HashInjOn (l : List State) : Prop :=
  ∀ a ∈ l, ∀ b ∈ l, a.zhash = b.zhash → a = b

instance (l : List State) : Decidable (HashInjOn l) :=
  List.decidableBAll _ l

/-! ## Structural validity of a supplied starting position

`place_stones_from_list` itself validates only the per-player totals; a
valid starting position in the sense of the specification additionally
lists distinct points (board points 1..24, the player's own bar, or `-1`
for borne off) with no point shared between the players. -/

/-- One entry of a valid position list. -/
def ValidEntry (player : Nat) (e : Int × Int) : Prop :=
  (e.1 = -1 ∧ 0 ≤ e.2) ∨
    (((BOARD_START : Int) ≤ e.1 ∧ e.1 ≤ (BOARD_END : Int) ∨ e.1 = (BAR_FIELD player : Int))
      ∧ 0 < e.2)

/-- Board points (everything except `-1` entries) of one player's list. -/
def boardPoints (entries : List (Int × Int)) : List Int :=
  (entries.filter (fun e => !(e.1 == -1))).map Prod.fst

/-- A structurally valid supplied starting position. -/
def ValidPositions (pos : List (List (Int × Int))) : Prop :=
  pos.length = 2 ∧
  (∀ pl < 2, ∀ e ∈ pos.getD pl [], ValidEntry pl e) ∧
  (boardPoints (pos.getD 0 [])).Nodup ∧ (boardPoints (pos.getD 1 [])).Nodup ∧
  ∀ q ∈ boardPoints (pos.getD 0 []), q ∉ boardPoints (pos.getD 1 [])

instance (player : Nat) (e : Int × Int) : Decidable (ValidEntry player e) := by
  unfold ValidEntry; infer_instance

instance (pos : List (List (Int × Int))) : Decidable (ValidPositions pos) := by
  unfold ValidPositions; infer_instance

/-- States reachable from a valid starting position by legal moves
(single moves produced by the rule engine / generator) and turn flips. -/
inductive Reachable (Z : ZTable) : State → Prop where
  | start : ∀ pos sp s, ValidPositions pos → sp < 2 → mkState Z pos sp = some s →
      Reachable Z s
  | step : ∀ s die sm, Reachable Z s → sm ∈ generateMoves s die →
      Reachable Z (applySM Z sm s)
  | flip : ∀ s, Reachable Z s → Reachable Z (switchTurn s)

/-! ## Bit-level lemmas about the mask utilities -/

theorem testBit_one_shiftLeft (idx i : Nat) :
    (1 <<< idx).testBit i = decide (idx = i) := by
  rw [Nat.shiftLeft_eq, one_mul]
  rcases eq_or_ne idx i with h | h
  · simp [h, Nat.testBit_two_pow_self]
  · simp [h, Nat.testBit_two_pow_of_ne h]

theorem testBit_set_bit (idx mask i : Nat) :
    (set_bit idx mask).testBit i = (mask.testBit i || decide (idx = i)) := by
  simp only [set_bit, Nat.testBit_or, testBit_one_shiftLeft]

theorem testBit_remove_from_mask (m r i : Nat) :
    (remove_from_mask m r).testBit i = (m.testBit i && !(r.testBit i)) := by
  simp only [remove_from_mask, Nat.testBit_and, Nat.testBit_xor]
  cases m.testBit i <;> cases r.testBit i <;> rfl

theorem testBit_clear_bit (idx mask i : Nat) :
    (clear_bit idx mask).testBit i = (mask.testBit i && !(decide (idx = i))) := by
  simp only [clear_bit, testBit_remove_from_mask, testBit_one_shiftLeft]

theorem testBit_shiftLeft_sub_one (n i : Nat) :
    ((1 <<< n) - 1).testBit i = decide (i < n) := by
  rw [Nat.shiftLeft_eq, one_mul, Nat.testBit_two_pow_sub_one]

theorem testBit_set_all_bits (a b i : Nat) :
    (set_all_bits a b).testBit i = (decide (a ≤ i) && decide (i ≤ b)) := by
  simp only [set_all_bits, testBit_remove_from_mask, testBit_shiftLeft_sub_one]
  rcases Nat.lt_or_ge i a with h | h <;> rcases Nat.lt_or_ge b i with h2 | h2 <;>
    simp [h, h2, Nat.lt_succ_iff]


theorem testBit_bits_from_indices (l : List Nat) (i : Nat) :
    (bits_from_indices l).testBit i = decide (i ∈ l) := by
  suffices h : ∀ m0 : Nat, (l.foldl (fun mask j => mask ||| (1 <<< j)) m0).testBit i
      = (m0.testBit i || decide (i ∈ l)) by
    simpa [bits_from_indices] using h 0
  induction l with
  | nil => intro m0; simp
  | cons a l ih =>
    intro m0
    simp only [List.foldl_cons, ih, Nat.testBit_or, testBit_one_shiftLeft, List.mem_cons]
    rcases eq_or_ne i a with h | h
    · simp [h]
    · simp [h, Ne.symm h]

theorem and_eq_zero_iff_testBit (a b : Nat) :
    a &&& b = 0 ↔ ∀ i, !(a.testBit i) || !(b.testBit i) := by
  constructor
  · intro h i
    have := congrArg (fun n => n.testBit i) h
    simp only [Nat.testBit_and, Nat.zero_testBit] at this
    cases ha : a.testBit i <;> cases hb : b.testBit i <;> simp_all
  · intro h
    refine Nat.eq_of_testBit_eq (fun i => ?_)
    have := h i
    simp only [Nat.testBit_and, Nat.zero_testBit]
    cases ha : a.testBit i <;> cases hb : b.testBit i <;> simp_all

theorem mem_indices_from_bits (mask i : Nat) :
    i ∈ indices_from_bits mask ↔ i < 26 ∧ mask.testBit i := by
  simp [indices_from_bits, List.mem_filter, List.mem_range]

/-! ## Small unfolding lemmas for the stone primitives -/

theorem updateOccupied_board (pt : Nat) (s : State) : (updateOccupied pt s).board = s.board := rfl

theorem updateBlocked_board (pt : Nat) (s : State) : (updateBlocked pt s).board = s.board := rfl

theorem addStone_board (Z : ZTable) (pt pl : Nat) (s : State) :
    (addStone Z pt pl s).board = s.board.set pt (s.board.getD pt 0 + STONE pl) := rfl

theorem removeStone_of_empty (Z : ZTable) (pt pl : Nat) (s : State)
    (h : num_of_stones s pt pl = 0) : removeStone Z pt pl s = s := by
  unfold removeStone
  simp [h]

/-! ## C10: `apply_move` returns `False` only for `None` and performs no
legality check -/

/-- A fixed concrete table for closed, fully evaluated statements: entry
`(point, player, count)` maps to the power of two `2^((point*2+player)*16+count)`,
so every table entry is a distinct bit and XOR accumulations never
collide; the two player keys get bits 950 and 951. -/
def Ztwo : ZTable := ⟨fun p pl c => 2 ^ ((p * 2 + pl) * 16 + c), fun pl => 2 ^ (950 + pl)⟩

/-- The all-zero table (degenerate hashing). -/
def Zzero : ZTable := ⟨fun _ _ _ => 0, fun _ => 0⟩

/-- C10: `apply_move(m)` returns `False` and leaves the state unchanged
exactly when `m` is `None`; any non-`None` move returns `True` and
mutates by type with no legality check — in particular a NORMAL move from
a point where the mover has no stone still adds a stone at `to_point`
(the removal half is a silent no-op), so the board changes exactly by the
`set` at `to_point`. -/
theorem apply_move_no_legality_check (Z : ZTable) (s : State) (m : SingleMove) :
    applyMove Z none s = (false, s) ∧
    (applyMove Z (some m) s).1 = true ∧
    (m.move_type = .NORMAL → num_of_stones s m.from_point m.player = 0 →
      (applySM Z m s).board
        = s.board.set m.to_point (s.board.getD m.to_point 0 + STONE m.player)) := by
  refine ⟨rfl, rfl, fun hty hempty => ?_⟩
  rcases m with ⟨pl, f, t, mt, d⟩
  simp only at hty hempty ⊢
  subst hty
  show (moveStone Z f t pl s).board = _
  unfold moveStone
  rw [removeStone_of_empty Z _ _ _ hempty, addStone_board]

/-- The start-of-game state under the all-zero table. -/
def zeroStart : State := (mkState Zzero DEFAULT_POSITIONS 0).getD emptyState

/-- Witness for C10 at a concrete input: the start-of-game state has no
player-0 stone on point 20, yet applying the NORMAL move 20 → 19 reports
success and deposits a stone on point 19. -/
theorem apply_move_no_legality_check_witness :
    applyMove Zzero none zeroStart = (false, zeroStart) ∧
    (applyMove Zzero (some ⟨0, 20, 19, .NORMAL, 1⟩) zeroStart).1 = true ∧
    (applySM Zzero ⟨0, 20, 19, .NORMAL, 1⟩ zeroStart).board
      = zeroStart.board.set 19 (zeroStart.board.getD 19 0 + STONE 0) :=
  ⟨(apply_move_no_legality_check Zzero zeroStart ⟨0, 20, 19, .NORMAL, 1⟩).1,
   (apply_move_no_legality_check Zzero zeroStart ⟨0, 20, 19, .NORMAL, 1⟩).2.1,
   (apply_move_no_legality_check Zzero zeroStart ⟨0, 20, 19, .NORMAL, 1⟩).2.2 rfl (by decide)⟩

/-! ## C9: value semantics and hashability of the move records -/

theorem singleMove_pyEq_iff (a b : SingleMove) : a.pyEq b = true ↔ a = b := by
  cases a; cases b
  simp [SingleMove.pyEq, SingleMove.mk.injEq, and_assoc]

theorem pyEq_list_iff (l1 l2 : List SingleMove) :
    (l1.length == l2.length && (l1.zip l2).all (fun q => q.1.pyEq q.2)) = true ↔ l1 = l2 := by
  induction l1 generalizing l2 with
  | nil => cases l2 <;> simp
  | cons a l ih =>
    cases l2 with
    | nil => simp
    | cons b l2 =>
      have h := ih l2
      simp only [List.length_cons, List.zip_cons_cons, List.all_cons, Bool.and_eq_true,
        beq_iff_eq, add_left_inj, List.cons.injEq] at *
      constructor
      · rintro ⟨h1, h2, h3⟩
        exact ⟨(singleMove_pyEq_iff a b).mp h2, h.mp ⟨h1, h3⟩⟩
      · rintro ⟨h1, h2⟩
        rcases h.mpr h2 with ⟨hl, ha⟩
        exact ⟨hl, (singleMove_pyEq_iff a b).mpr h1, ha⟩

/-- C9 counterexample: the generated `__hash__` of `TurnMove` evaluates the
hash of its single field, a Python `list`, which raises `TypeError` —
hashing a concrete `TurnMove` does not succeed. -/
theorem turnMove_hash_fails :
    (TurnMove.pyHash ⟨[⟨0, 24, 23, .NORMAL, 1⟩]⟩).isSome = false := rfl

/-- C9 (amended): `SingleMove` and `TurnMove` compare by value (equal iff
their field values, resp. ordered move sequences, are equal); `SingleMove`
hashes by value (hashing succeeds and depends only on the field values);
but hashing a `TurnMove` always fails (`TypeError`), because its field is
a Python list. -/
theorem move_value_semantics :
    (∀ a b : SingleMove, a.pyEq b = true ↔ a = b) ∧
    (∀ a b : TurnMove, a.pyEq b = true ↔ a.single_moves = b.single_moves) ∧
    (∀ a b : TurnMove, a.single_moves = b.single_moves ↔ a = b) ∧
    (∀ a b : SingleMove, a = b → a.pyHash = b.pyHash ∧ a.pyHash.isSome = true) ∧
    (∀ tm : TurnMove, tm.pyHash = none) := by
  refine ⟨singleMove_pyEq_iff, ?_, ?_, ?_, fun _ => rfl⟩
  · intro a b
    exact pyEq_list_iff a.single_moves b.single_moves
  · intro a b
    cases a; cases b; simp
  · rintro a b rfl
    exact ⟨rfl, rfl⟩

/-- Witness for C9's amended statement at concrete inputs. -/
theorem move_value_semantics_witness :
    ((⟨0, 8, 5, .NORMAL, 3⟩ : SingleMove).pyEq ⟨0, 8, 5, .NORMAL, 3⟩ = true) ∧
    ((⟨[⟨0, 8, 5, .NORMAL, 3⟩]⟩ : TurnMove).pyEq ⟨[⟨0, 8, 5, .NORMAL, 3⟩]⟩ = true) ∧
    ((⟨0, 8, 5, .NORMAL, 3⟩ : SingleMove).pyHash.isSome = true) ∧
    ((⟨[⟨0, 8, 5, .NORMAL, 3⟩]⟩ : TurnMove).pyHash = none) :=
  ⟨(move_value_semantics.1 _ _).mpr rfl,
   (move_value_semantics.2.1 _ _).mpr rfl,
   (move_value_semantics.2.2.2.1 _ _ rfl).2,
   move_value_semantics.2.2.2.2 _⟩

/-! ## C1: the incrementally maintained Zobrist hash versus recomputation -/

/-- The start-of-game state under the power-of-two table. -/
def startState : State := (mkState Ztwo DEFAULT_POSITIONS 0).getD emptyState

/-- C1 (code bug): at construction the incremental hash equals the
recomputation, but `switch_turn` flips the turn without XORing the
`ZOBRIST_PLAYER` keys, and a legal NORMAL move onto an empty point XORs
the count-0 table entry that `update_zobrist_hash` skips — after either
mutation the incrementally maintained hash differs from the from-scratch
recomputation (shown for the power-of-two table; the discrepancies are
`zp 0 ^^^ zp 1`, resp. `t 23 0 0`, so they vanish only for degenerate
random draws). -/
theorem zobrist_desync_on_mutation :
    (startState.zhash = scratchHash Ztwo startState) ∧
    ((switchTurn startState).zhash ≠ scratchHash Ztwo (switchTurn startState)) ∧
    ((⟨0, 24, 23, .NORMAL, 1⟩ : SingleMove) ∈ generateMoves startState 1) ∧
    ((applySM Ztwo ⟨0, 24, 23, .NORMAL, 1⟩ startState).zhash
      ≠ scratchHash Ztwo (applySM Ztwo ⟨0, 24, 23, .NORMAL, 1⟩ startState)) := by
  refine ⟨by decide, by decide, by decide, by decide⟩

/-! ## C6: the bear-off target / overshoot rule -/

theorem num_pos_iff (s : State) (p pl : Nat) :
    0 < num_of_stones s p pl ↔ 0 < s.board.getD p 0 * STONE pl := by
  show 0 < (if 0 < s.board.getD p 0 * STONE pl then s.board.getD p 0 * STONE pl else 0) ↔ _
  by_cases h : 0 < s.board.getD p 0 * STONE pl
  · rw [if_pos h]
  · rw [if_neg h]
    exact iff_of_false (lt_irrefl 0) h

theorem testBit_canonOcc_iff (s : State) (pl i : Nat) :
    (canonOcc s pl).testBit i = true ↔ i < 26 ∧ 0 < s.board.getD i 0 * STONE pl := by
  rw [canonOcc, testBit_bits_from_indices, decide_eq_true_eq]
  simp only [List.mem_filter, List.mem_range, decide_eq_true_eq]

theorem testBit_maskBehind0 (start i : Nat) :
    (remove_from_mask (HOME_MASK 0) (set_all_bits (HOME_START 0) start)).testBit i = true
      ↔ 1 ≤ i ∧ i ≤ 6 ∧ start < i := by
  rw [testBit_remove_from_mask, show HOME_MASK 0 = set_all_bits 1 6 from rfl,
    show HOME_START 0 = 1 from rfl, testBit_set_all_bits, testBit_set_all_bits]
  simp only [Bool.and_eq_true, Bool.not_eq_true', Bool.and_eq_false_iff,
    decide_eq_true_eq, decide_eq_false_iff_not]
  omega

theorem testBit_maskBehind1 (start i : Nat) :
    (remove_from_mask (HOME_MASK 1) (set_all_bits start (HOME_END 1))).testBit i = true
      ↔ 19 ≤ i ∧ i ≤ 24 ∧ i < start := by
  rw [testBit_remove_from_mask, show HOME_MASK 1 = set_all_bits 19 24 from rfl,
    show HOME_END 1 = 24 from rfl, testBit_set_all_bits, testBit_set_all_bits]
  simp only [Bool.and_eq_true, Bool.not_eq_true', Bool.and_eq_false_iff,
    decide_eq_true_eq, decide_eq_false_iff_not]
  omega

/-- The claim's reading of the rule, word for word, with "strictly behind
`start`" glossed by the spec's parenthetical as *closer to the bear-off
anchor* (for player 0, home points below `start`; for player 1, above):
exact landing always accepted; an overshooting die accepted iff no stone
of the active player occupies a home point strictly behind `start`
(closer to the anchor) and no occupied home point reaches the anchor
exactly with this die; everything else rejected. -/
def bearOffClaimC6 (s : State) (start : Nat) (target : Int) (die : Nat) : Bool :=
  let player := s.turn
  if target = (BEAR_OFF_ANCHOR player : Int) then true
  else
    let overshoot := (player = 0 && target < (BEAR_OFF_ANCHOR player : Int))
      || (player = 1 && (BEAR_OFF_ANCHOR player : Int) < target)
    if overshoot then
      (!(homeRange player).any (fun p =>
        (if player = 0 then decide (p < start) else decide (start < p))
          && decide (0 < num_of_stones s p player)))
      && !((homeRange player).any (fun p => 0 < num_of_stones s p player
        && (p : Int) + (die : Int) * DIRECTION player = (BEAR_OFF_ANCHOR player : Int)))
    else false

/-- The amended reading: "strictly behind `start`" means *farther from
the bear-off anchor* (for player 0, home points above `start`; for
player 1, below), which is the standard backgammon overshoot condition. -/
def bearOffSpecC6 (s : State) (start : Nat) (target : Int) (die : Nat) : Bool :=
  let player := s.turn
  if target = (BEAR_OFF_ANCHOR player : Int) then true
  else
    let overshoot := (player = 0 && target < (BEAR_OFF_ANCHOR player : Int))
      || (player = 1 && (BEAR_OFF_ANCHOR player : Int) < target)
    if overshoot then
      (!(homeRange player).any (fun p =>
        (if player = 0 then decide (start < p) else decide (p < start))
          && decide (0 < num_of_stones s p player)))
      && !((homeRange player).any (fun p => 0 < num_of_stones s p player
        && (p : Int) + (die : Int) * DIRECTION player = (BEAR_OFF_ANCHOR player : Int)))
    else false

theorem noStoneBehind_eq0 (s : State) (start : Nat) (hm : MaskInv s) (hp0 : s.turn = 0) :
    noStoneBehind start s
      = !((homeRange 0).any (fun p =>
          decide (start < p) && decide (0 < num_of_stones s p 0))) := by
  have hocc : occupiedMask s = canonOcc s 0 := by
    have := (hm 0 (by omega)).1
    rw [occupiedMask, hp0]
    exact this
  rw [Bool.eq_iff_iff]
  unfold noStoneBehind
  rw [hocc, hp0]
  show ((canonOcc s 0 &&& remove_from_mask (HOME_MASK 0) (set_all_bits (HOME_START 0) start)
      == 0) = true)
    ↔ ((!(homeRange 0).any (fun p =>
        decide (start < p) && decide (0 < num_of_stones s p 0))) = true)
  rw [beq_iff_eq, and_eq_zero_iff_testBit]
  rw [Bool.not_eq_true', List.any_eq_false]
  constructor
  · intro hall p hp
    intro hX
    rw [Bool.and_eq_true, decide_eq_true_eq, decide_eq_true_eq] at hX
    obtain ⟨h1, h2⟩ := hX
    have hpmem : 1 ≤ p ∧ p < 1 + 6 :=
      List.mem_range'_1.mp (by rw [show homeRange 0 = List.range' 1 6 from rfl] at hp; exact hp)
    have := hall p
    rw [Bool.or_eq_true, Bool.not_eq_true', Bool.not_eq_true'] at this
    rcases this with h | h
    · rw [Bool.eq_false_iff] at h
      exact h ((testBit_canonOcc_iff s 0 p).mpr ⟨by omega, (num_pos_iff s p 0).mp h2⟩)
    · rw [Bool.eq_false_iff] at h
      exact h ((testBit_maskBehind0 start p).mpr ⟨by omega, by omega, h1⟩)
  · intro hall i
    rw [Bool.or_eq_true, Bool.not_eq_true', Bool.not_eq_true']
    by_cases hb : (remove_from_mask (HOME_MASK 0) (set_all_bits (HOME_START 0) start)).testBit i
        = true
    · rcases (testBit_maskBehind0 start i).mp hb with ⟨h1, h2, h3⟩
      left
      have hmem : i ∈ homeRange 0 := by
        rw [show homeRange 0 = List.range' 1 6 from rfl]
        exact List.mem_range'_1.mpr ⟨h1, by omega⟩
      have hni := hall i hmem
      rw [Bool.eq_false_iff]
      intro hocc2
      apply hni
      rw [Bool.and_eq_true, decide_eq_true_eq, decide_eq_true_eq]
      exact ⟨h3, (num_pos_iff s i 0).mpr ((testBit_canonOcc_iff s 0 i).mp hocc2).2⟩
    · right
      exact Bool.eq_false_iff.mpr (fun hc => hb hc)

theorem noStoneBehind_eq1 (s : State) (start : Nat) (hm : MaskInv s) (hp1 : s.turn = 1) :
    noStoneBehind start s
      = !((homeRange 1).any (fun p =>
          decide (p < start) && decide (0 < num_of_stones s p 1))) := by
  have hocc : occupiedMask s = canonOcc s 1 := by
    have := (hm 1 (by omega)).1
    rw [occupiedMask, hp1]
    exact this
  rw [Bool.eq_iff_iff]
  unfold noStoneBehind
  rw [hocc, hp1]
  show ((canonOcc s 1 &&& remove_from_mask (HOME_MASK 1) (set_all_bits start (HOME_END 1))
      == 0) = true)
    ↔ ((!(homeRange 1).any (fun p =>
        decide (p < start) && decide (0 < num_of_stones s p 1))) = true)
  rw [beq_iff_eq, and_eq_zero_iff_testBit]
  rw [Bool.not_eq_true', List.any_eq_false]
  constructor
  · intro hall p hp
    intro hX
    rw [Bool.and_eq_true, decide_eq_true_eq, decide_eq_true_eq] at hX
    obtain ⟨h1, h2⟩ := hX
    have hpmem : 19 ≤ p ∧ p < 19 + 6 :=
      List.mem_range'_1.mp (by rw [show homeRange 1 = List.range' 19 6 from rfl] at hp; exact hp)
    have := hall p
    rw [Bool.or_eq_true, Bool.not_eq_true', Bool.not_eq_true'] at this
    rcases this with h | h
    · rw [Bool.eq_false_iff] at h
      exact h ((testBit_canonOcc_iff s 1 p).mpr ⟨by omega, (num_pos_iff s p 1).mp h2⟩)
    · rw [Bool.eq_false_iff] at h
      exact h ((testBit_maskBehind1 start p).mpr ⟨by omega, by omega, h1⟩)
  · intro hall i
    rw [Bool.or_eq_true, Bool.not_eq_true', Bool.not_eq_true']
    by_cases hb : (remove_from_mask (HOME_MASK 1) (set_all_bits start (HOME_END 1))).testBit i
        = true
    · rcases (testBit_maskBehind1 start i).mp hb with ⟨h1, h2, h3⟩
      left
      have hmem : i ∈ homeRange 1 := by
        rw [show homeRange 1 = List.range' 19 6 from rfl]
        exact List.mem_range'_1.mpr ⟨h1, by omega⟩
      have hni := hall i hmem
      rw [Bool.eq_false_iff]
      intro hocc2
      apply hni
      rw [Bool.and_eq_true, decide_eq_true_eq, decide_eq_true_eq]
      exact ⟨h3, (num_pos_iff s i 1).mpr ((testBit_canonOcc_iff s 1 i).mp hocc2).2⟩
    · right
      exact Bool.eq_false_iff.mpr (fun hc => hb hc)

theorem noStoneBehind_eq_spec (s : State) (start : Nat) (hm : MaskInv s) (ht : s.turn < 2) :
    noStoneBehind start s
      = !((homeRange s.turn).any (fun p =>
          (if s.turn = 0 then decide (start < p) else decide (p < start))
            && decide (0 < num_of_stones s p s.turn))) := by
  rcases (by omega : s.turn = 0 ∨ s.turn = 1) with hτ | hτ
  · rw [hτ]
    show noStoneBehind start s = !((homeRange 0).any (fun p =>
        decide (start < p) && decide (0 < num_of_stones s p 0)))
    exact noStoneBehind_eq0 s start hm hτ
  · rw [hτ]
    show noStoneBehind start s = !((homeRange 1).any (fun p =>
        decide (p < start) && decide (0 < num_of_stones s p 1)))
    exact noStoneBehind_eq1 s start hm hτ

/-- C6 (amended): for every state with consistent masks, the bear-off
target rule accepts exactly per the amended reading — exact landing on
the anchor, or overshoot with no stone on a home point strictly behind
`start` in the sense of *farther from the anchor*, and no exact reach of
the anchor from an occupied home point with this die; every other move is
rejected. -/
theorem bearOffTarget_eq_spec (s : State) (start : Nat) (target : Int) (die : Nat)
    (hm : MaskInv s) (ht : s.turn < 2) :
    bearOffTarget s start target die = bearOffSpecC6 s start target die := by
  unfold bearOffTarget bearOffSpecC6
  rcases eq_or_ne target (BEAR_OFF_ANCHOR s.turn : Int) with h | h
  · rw [if_pos h, if_pos h]
  · rw [if_neg h, if_neg h]
    rw [noStoneBehind_eq_spec s start hm ht]
    cases ((homeRange s.turn).any (fun p =>
        (if s.turn = 0 then decide (start < p) else decide (p < start))
          && decide (0 < num_of_stones s p s.turn))) <;>
      cases ((homeRange s.turn).any (fun p => 0 < num_of_stones s p s.turn
        && (p : Int) + (die : Int) * DIRECTION s.turn = (BEAR_OFF_ANCHOR s.turn : Int))) <;>
      simp

/-- Player 0 to move, own stones on points 2 and 5 (13 on the bar), all
opponent stones stacked on 19. -/
def c6state : State :=
  (mkState Ztwo [[(2, 1), (5, 1), (25, 13)], [(19, 15)]] 0).getD emptyState

/-- C6 counterexample: in `c6state` (a position satisfying all state
invariants), bearing off from point 5 with die 6 (target -1, an
overshoot) is accepted by the code although player 0 still has a stone on
point 2 — a home point strictly behind `start` in the claim's sense of
*closer to the anchor* — so the claim's reading demands rejection. -/
theorem bearoff_overshoot_claim_false :
    Inv c6state ∧
    bearOffTarget c6state 5 (-1) 6 = true ∧
    bearOffClaimC6 c6state 5 (-1) 6 = false :=
  ⟨by decide, by decide, by decide⟩

/-- Witness for C6's amended theorem at the concrete counterexample
state. -/
theorem bearOffTarget_eq_spec_witness :
    bearOffTarget c6state 5 (-1) 6 = bearOffSpecC6 c6state 5 (-1) 6 :=
  bearOffTarget_eq_spec c6state 5 (-1) 6 (by decide) (by decide)

/-! ## C5: game over and scoring -/

theorem and_ne_zero_iff_testBit (a b : Nat) :
    a &&& b ≠ 0 ↔ ∃ i, a.testBit i = true ∧ b.testBit i = true := by
  rw [Ne, and_eq_zero_iff_testBit, not_forall]
  constructor
  · rintro ⟨i, hi⟩
    refine ⟨i, ?_⟩
    cases ha : a.testBit i <;> cases hb : b.testBit i <;> simp [ha, hb] at hi ⊢
  · rintro ⟨i, h1, h2⟩
    exact ⟨i, by simp [h1, h2]⟩

/-- The claim's "the opponent still has a stone on the bar or on a point
in the winner's home range". -/
def OppBack (s : State) (winner : Nat) : Prop :=
  0 < num_of_stones s (BAR_FIELD (1 - winner)) (1 - winner) ∨
  ∃ p, HOME_START winner ≤ p ∧ p ≤ HOME_END winner ∧ 0 < num_of_stones s p (1 - winner)

theorem HOME_END_le (pl : Nat) : HOME_END pl ≤ 24 := by
  unfold HOME_END; split <;> omega

theorem additional_iff (s : State) (pl : Nat) (hpl : pl < 2) (hm : MaskInv s) :
    (0 < num_of_stones s (BAR_FIELD (1 - pl)) (1 - pl) ∨
      s.occMask.getD (1 - pl) 0 &&& HOME_MASK pl ≠ 0) ↔ OppBack s pl := by
  unfold OppBack
  refine or_congr Iff.rfl ?_
  rw [(hm (1 - pl) (by omega)).1, and_ne_zero_iff_testBit]
  constructor
  · rintro ⟨i, h1, h2⟩
    rcases (testBit_canonOcc_iff s (1 - pl) i).mp h1 with ⟨-, hpos⟩
    rw [HOME_MASK, testBit_set_all_bits, Bool.and_eq_true, decide_eq_true_eq,
      decide_eq_true_eq] at h2
    exact ⟨i, h2.1, h2.2, (num_pos_iff s i (1 - pl)).mpr hpos⟩
  · rintro ⟨p, h1, h2, h3⟩
    refine ⟨p, (testBit_canonOcc_iff s (1 - pl) p).mpr
      ⟨by have := HOME_END_le pl; omega, (num_pos_iff s p (1 - pl)).mp h3⟩, ?_⟩
    rw [HOME_MASK, testBit_set_all_bits, Bool.and_eq_true, decide_eq_true_eq,
      decide_eq_true_eq]
    exact ⟨h1, h2⟩

theorem gameOverFor_none (s : State) (cube : Int) (pl : Nat)
    (h : s.bearOff.getD pl 0 ≠ 15) : gameOverFor s cube pl = none := by
  unfold gameOverFor
  rw [if_neg (show ¬ s.bearOff.getD pl 0 = NUM_OF_ALL_STONES from h)]

theorem gameOverFor_isSome (s : State) (cube : Int) (pl : Nat)
    (h : s.bearOff.getD pl 0 = 15) : (gameOverFor s cube pl).isSome = true := by
  unfold gameOverFor
  rw [if_pos (show s.bearOff.getD pl 0 = NUM_OF_ALL_STONES from h)]
  rfl

theorem gameOverFor_characterization (s : State) (cube : Int) (pl : Nat) (hpl : pl < 2)
    (hm : MaskInv s) (h : s.bearOff.getD pl 0 = 15) :
    ∀ r, gameOverFor s cube pl = some r →
      r.winner = pl ∧ r.cube_value = cube ∧
      ((s.bearOff.getD (1 - pl) 0 = 0 ∧ OppBack s pl →
          r.type = "BACKGAMMON" ∧ r.points = 3 * cube) ∧
       (s.bearOff.getD (1 - pl) 0 = 0 ∧ ¬ OppBack s pl →
          r.type = "GAMMON" ∧ r.points = 2 * cube) ∧
       (s.bearOff.getD (1 - pl) 0 ≠ 0 → r.type = "WIN" ∧ r.points = 1 * cube)) := by
  intro r hr
  unfold gameOverFor at hr
  rw [if_pos (show s.bearOff.getD pl 0 = NUM_OF_ALL_STONES from h)] at hr
  simp only [] at hr
  by_cases hg : s.bearOff.getD (1 - pl) 0 = 0
  · by_cases ha : (0 < num_of_stones s (BAR_FIELD (1 - pl)) (1 - pl) ∨
        s.occMask.getD (1 - pl) 0 &&& HOME_MASK pl ≠ 0)
    · rw [if_pos ⟨hg, ha⟩, if_pos ⟨hg, ha⟩] at hr
      cases hr
      refine ⟨rfl, rfl, fun _ => ⟨rfl, rfl⟩, fun hcon => ?_, fun hcon => ?_⟩
      · exact absurd ((additional_iff s pl hpl hm).mp ha) hcon.2
      · exact absurd hg hcon
    · rw [if_neg (fun hc => ha hc.2), if_pos hg, if_neg (fun hc => ha hc.2), if_pos hg] at hr
      cases hr
      refine ⟨rfl, rfl, fun hcon => ?_, fun _ => ⟨rfl, rfl⟩, fun hcon => ?_⟩
      · exact absurd ((additional_iff s pl hpl hm).mpr hcon.2) ha
      · exact absurd hg hcon
  · rw [if_neg (fun hc => hg hc.1), if_neg hg, if_neg (fun hc => hg hc.1), if_neg hg] at hr
    cases hr
    exact ⟨rfl, rfl, fun hcon => absurd hcon.1 hg, fun hcon => absurd hcon.1 hg,
      fun _ => ⟨rfl, rfl⟩⟩

/-- C5: `game_over` returns a result exactly when some player's borne-off
counter equals 15; the result names that player as winner, the kind is
BACKGAMMON (×3) when the opponent has borne off zero stones and still has
a stone on the bar or in the winner's home range, else GAMMON (×2) when
the opponent has borne off zero, else WIN (×1), and points equal the
multiplier times the cube value. -/
theorem game_over_spec (s : State) (cube : Int) (hm : MaskInv s) :
    ((gameOver s cube).isSome ↔ (s.bearOff.getD 0 0 = 15 ∨ s.bearOff.getD 1 0 = 15)) ∧
    ∀ r, gameOver s cube = some r →
      r.winner < 2 ∧ s.bearOff.getD r.winner 0 = 15 ∧ r.cube_value = cube ∧
      ((s.bearOff.getD (1 - r.winner) 0 = 0 ∧ OppBack s r.winner →
          r.type = "BACKGAMMON" ∧ r.points = 3 * cube) ∧
       (s.bearOff.getD (1 - r.winner) 0 = 0 ∧ ¬ OppBack s r.winner →
          r.type = "GAMMON" ∧ r.points = 2 * cube) ∧
       (s.bearOff.getD (1 - r.winner) 0 ≠ 0 → r.type = "WIN" ∧ r.points = 1 * cube)) := by
  by_cases h0 : s.bearOff.getD 0 0 = 15
  · obtain ⟨r0, hr0⟩ := Option.isSome_iff_exists.mp (gameOverFor_isSome s cube 0 h0)
    have hgo : gameOver s cube = some r0 := by
      unfold gameOver
      rw [hr0]
    refine ⟨⟨fun _ => Or.inl h0, fun _ => by rw [hgo]; rfl⟩, ?_⟩
    intro r hr
    rw [hgo] at hr
    cases hr
    rcases gameOverFor_characterization s cube 0 (by omega) hm h0 r0 hr0 with ⟨hw, hc, hrest⟩
    rw [hw]
    exact ⟨by omega, h0, hc, hrest⟩
  · have hnone0 : gameOverFor s cube 0 = none := gameOverFor_none s cube 0 h0
    have hred : gameOver s cube = gameOverFor s cube 1 := by
      unfold gameOver
      rw [hnone0]
    by_cases h1 : s.bearOff.getD 1 0 = 15
    · obtain ⟨r1, hr1⟩ := Option.isSome_iff_exists.mp (gameOverFor_isSome s cube 1 h1)
      have hgo : gameOver s cube = some r1 := by rw [hred, hr1]
      refine ⟨⟨fun _ => Or.inr h1, fun _ => by rw [hgo]; rfl⟩, ?_⟩
      intro r hr
      rw [hgo] at hr
      cases hr
      rcases gameOverFor_characterization s cube 1 (by omega) hm h1 r1 hr1 with ⟨hw, hc, hrest⟩
      rw [hw]
      exact ⟨by omega, h1, hc, hrest⟩
    · have hnone1 : gameOverFor s cube 1 = none := gameOverFor_none s cube 1 h1
      have hgo : gameOver s cube = none := by rw [hred, hnone1]
      refine ⟨⟨fun hx => ?_, fun hx => ?_⟩, ?_⟩
      · rw [hgo] at hx
        exact absurd hx (by simp)
      · rcases hx with hx | hx
        · exact absurd hx h0
        · exact absurd hx h1
      · intro r hr
        rw [hgo] at hr
        exact absurd hr (by simp)

/-- Player 0 has borne off all 15 stones; player 1 has borne off none and
still has a stone on point 3, inside player 0's home. -/
def c5state : State :=
  (mkState Ztwo [[(-1, 15)], [(3, 1), (19, 14)]] 0).getD emptyState

/-- Witness for C5 at a concrete input (a backgammon worth 3 × cube). -/
theorem game_over_spec_witness :
    ((gameOver c5state 2).isSome ↔
      (c5state.bearOff.getD 0 0 = 15 ∨ c5state.bearOff.getD 1 0 = 15)) ∧
    ∀ r, gameOver c5state 2 = some r →
      r.winner < 2 ∧ c5state.bearOff.getD r.winner 0 = 15 ∧ r.cube_value = 2 ∧
      ((c5state.bearOff.getD (1 - r.winner) 0 = 0 ∧ OppBack c5state r.winner →
          r.type = "BACKGAMMON" ∧ r.points = 3 * 2) ∧
       (c5state.bearOff.getD (1 - r.winner) 0 = 0 ∧ ¬ OppBack c5state r.winner →
          r.type = "GAMMON" ∧ r.points = 2 * 2) ∧
       (c5state.bearOff.getD (1 - r.winner) 0 ≠ 0 → r.type = "WIN" ∧ r.points = 1 * 2)) :=
  game_over_spec c5state 2 (by decide)

/-! ## List and count helper lemmas -/

theorem getD_set_self {α : Type} (l : List α) (v d : α) :
    ∀ i, i < l.length → (l.set i v).getD i d = v := by
  induction l with
  | nil => intro i h; exact absurd h (by simp)
  | cons a l ih =>
    intro i h
    cases i with
    | zero => rfl
    | succ i => exact ih i (by simpa using h)

theorem getD_set_ne {α : Type} (l : List α) (v d : α) :
    ∀ i j, i ≠ j → (l.set i v).getD j d = l.getD j d := by
  induction l with
  | nil => intro i j _; rfl
  | cons a l ih =>
    intro i j h
    cases i with
    | zero =>
      cases j with
      | zero => exact absurd rfl h
      | succ j => rfl
    | succ i =>
      cases j with
      | zero => rfl
      | succ j => exact ih i j (fun hc => h (by rw [hc]))

theorem set_getD_self {α : Type} (l : List α) (d : α) :
    ∀ i, l.set i (l.getD i d) = l := by
  induction l with
  | nil => intro i; rfl
  | cons a l ih =>
    intro i
    cases i with
    | zero => rfl
    | succ i => show a :: l.set i (l.getD i d) = a :: l; rw [ih i]

theorem exists_pair {α : Type} (l : List α) (h : l.length = 2) : ∃ a b, l = [a, b] := by
  match l, h with
  | [a, b], _ => exact ⟨a, b, rfl⟩

theorem length_set_eq {α : Type} (l : List α) (i : Nat) (v : α) :
    (l.set i v).length = l.length := List.length_set ..

/-- The canonical nonnegative count: `num_of_stones` as a `Nat`. -/
theorem num_toNat (s : State) (pt pl : Nat) :
    (num_of_stones s pt pl).toNat = (s.board.getD pt 0 * STONE pl).toNat := by
  show (if 0 < s.board.getD pt 0 * STONE pl then s.board.getD pt 0 * STONE pl else 0).toNat = _
  split
  · rfl
  · next h => omega

theorem num_ge_two_iff (s : State) (p pl : Nat) :
    2 ≤ num_of_stones s p pl ↔ 2 ≤ s.board.getD p 0 * STONE pl := by
  show (2 ≤ if 0 < s.board.getD p 0 * STONE pl then s.board.getD p 0 * STONE pl else 0) ↔ _
  split
  · exact Iff.rfl
  · next h => constructor <;> intro h2 <;> omega

theorem num_of_stones_congr (s1 s2 : State) (h : s1.board = s2.board) (pt pl : Nat) :
    num_of_stones s1 pt pl = num_of_stones s2 pt pl := by
  unfold num_of_stones
  rw [h]

theorem canonOcc_congr (s1 s2 : State) (h : s1.board = s2.board) (pl : Nat) :
    canonOcc s1 pl = canonOcc s2 pl := by
  unfold canonOcc
  rw [h]

theorem canonBlocked_congr (s1 s2 : State) (h : s1.board = s2.board) (pl : Nat) :
    canonBlocked s1 pl = canonBlocked s2 pl := by
  unfold canonBlocked
  rw [h]

theorem testBit_canonBlocked_iff (s : State) (pl i : Nat) :
    (canonBlocked s pl).testBit i = true ↔ i < 26 ∧ 2 ≤ s.board.getD i 0 * STONE (1 - pl) := by
  rw [canonBlocked, testBit_bits_from_indices, decide_eq_true_eq]
  simp only [List.mem_filter, List.mem_range, decide_eq_true_eq]

/-! ## Projection lemmas for the stone primitives -/

theorem updateOccupied_fields (pt : Nat) (s : State) :
    (updateOccupied pt s).board = s.board ∧ (updateOccupied pt s).bearOff = s.bearOff ∧
    (updateOccupied pt s).blockedMask = s.blockedMask ∧
    (updateOccupied pt s).turn = s.turn ∧ (updateOccupied pt s).zhash = s.zhash :=
  ⟨rfl, rfl, rfl, rfl, rfl⟩

theorem updateBlocked_fields (pt : Nat) (s : State) :
    (updateBlocked pt s).board = s.board ∧ (updateBlocked pt s).bearOff = s.bearOff ∧
    (updateBlocked pt s).occMask = s.occMask ∧
    (updateBlocked pt s).turn = s.turn ∧ (updateBlocked pt s).zhash = s.zhash :=
  ⟨rfl, rfl, rfl, rfl, rfl⟩

theorem addStone_fields (Z : ZTable) (pt pl : Nat) (s : State) (hpt : pt < s.board.length) :
    (addStone Z pt pl s).board = s.board.set pt (s.board.getD pt 0 + STONE pl) ∧
    (addStone Z pt pl s).bearOff = s.bearOff ∧
    (addStone Z pt pl s).turn = s.turn ∧
    (addStone Z pt pl s).zhash = s.zhash
      ^^^ Z.t pt pl (s.board.getD pt 0 * STONE pl).toNat
      ^^^ Z.t pt pl ((s.board.getD pt 0 + STONE pl) * STONE pl).toNat := by
  refine ⟨rfl, rfl, rfl, ?_⟩
  show s.zhash ^^^ Z.t pt pl (num_of_stones s pt pl).toNat
      ^^^ Z.t pt pl (num_of_stones { s with
        board := s.board.set pt (s.board.getD pt 0 + STONE pl) } pt pl).toNat = _
  rw [num_toNat, num_toNat]
  have hb : ({ s with board := s.board.set pt (s.board.getD pt 0 + STONE pl) } :
      State).board.getD pt 0 = s.board.getD pt 0 + STONE pl :=
    getD_set_self s.board _ 0 pt hpt
  rw [hb]

theorem removeStone_real (Z : ZTable) (pt pl : Nat) (s : State)
    (h : 1 ≤ num_of_stones s pt pl) :
    removeStone Z pt pl s = updateBlocked pt (updateOccupied pt
      { s with board := s.board.set pt (s.board.getD pt 0 - STONE pl),
               zhash := s.zhash ^^^ Z.t pt pl (num_of_stones s pt pl).toNat
                 ^^^ Z.t pt pl (num_of_stones { s with
                   board := s.board.set pt (s.board.getD pt 0 - STONE pl) } pt pl).toNat }) := by
  unfold removeStone
  rw [if_neg (by omega : ¬ (num_of_stones s pt pl).toNat = 0)]

/-! ## Mask canonicality is preserved by the per-point updates -/

theorem updateOccupied_list (pt : Nat) (s : State) (a b : Nat) (hab : s.occMask = [a, b]) :
    (updateOccupied pt s).occMask
      = [if 0 < num_of_stones s pt 0 then set_bit pt a else clear_bit pt a,
         if 0 < num_of_stones s pt 1 then set_bit pt b else clear_bit pt b] := by
  have h1 : (updateOccupied pt s).occMask
      = (s.occMask.set 0 (if 0 < num_of_stones s pt 0 then set_bit pt (s.occMask.getD 0 0)
          else clear_bit pt (s.occMask.getD 0 0))).set 1
        (if 0 < num_of_stones s pt 1
          then set_bit pt ((s.occMask.set 0 (if 0 < num_of_stones s pt 0
            then set_bit pt (s.occMask.getD 0 0)
            else clear_bit pt (s.occMask.getD 0 0))).getD 1 0)
          else clear_bit pt ((s.occMask.set 0 (if 0 < num_of_stones s pt 0
            then set_bit pt (s.occMask.getD 0 0)
            else clear_bit pt (s.occMask.getD 0 0))).getD 1 0)) := rfl
  rw [h1, hab]
  rfl

theorem updateBlocked_list (pt : Nat) (s : State) (c d : Nat) (hcd : s.blockedMask = [c, d]) :
    (updateBlocked pt s).blockedMask
      = [if 2 ≤ num_of_stones s pt 1 then set_bit pt c else clear_bit pt c,
         if 2 ≤ num_of_stones s pt 0 then set_bit pt d else clear_bit pt d] := by
  have h1 : (updateBlocked pt s).blockedMask
      = (s.blockedMask.set 0 (if 2 ≤ num_of_stones s pt 1 then set_bit pt (s.blockedMask.getD 0 0)
          else clear_bit pt (s.blockedMask.getD 0 0))).set 1
        (if 2 ≤ num_of_stones s pt 0
          then set_bit pt ((s.blockedMask.set 0 (if 2 ≤ num_of_stones s pt 1
            then set_bit pt (s.blockedMask.getD 0 0)
            else clear_bit pt (s.blockedMask.getD 0 0))).getD 1 0)
          else clear_bit pt ((s.blockedMask.set 0 (if 2 ≤ num_of_stones s pt 1
            then set_bit pt (s.blockedMask.getD 0 0)
            else clear_bit pt (s.blockedMask.getD 0 0))).getD 1 0)) := rfl
  rw [h1, hcd]
  rfl

theorem set_clear_canonical (pt : Nat) (m canonNew : Nat) (cond : Prop) [Decidable cond]
    (hbit : ∀ i, i ≠ pt → m.testBit i = canonNew.testBit i)
    (hpt2 : canonNew.testBit pt = true ↔ cond) :
    (if cond then set_bit pt m else clear_bit pt m) = canonNew := by
  apply Nat.eq_of_testBit_eq
  intro i
  by_cases hipt : i = pt
  · subst hipt
    by_cases hc : cond
    · rw [if_pos hc, testBit_set_bit, hpt2.mpr hc]
      simp
    · rw [if_neg hc, testBit_clear_bit]
      have hfalse : canonNew.testBit i = false := by
        cases h : canonNew.testBit i
        · rfl
        · exact absurd (hpt2.mp h) hc
      rw [hfalse]
      simp
  · have hne : decide (pt = i) = false := by
      simp only [decide_eq_false_iff_not]
      exact fun hc => hipt hc.symm
    by_cases hc : cond
    · rw [if_pos hc, testBit_set_bit, hbit i hipt, hne]
      simp
    · rw [if_neg hc, testBit_clear_bit, hbit i hipt, hne]
      simp

theorem canonOcc_testBit_congr (s1 s2 : State) (p i : Nat)
    (h : s1.board.getD i 0 = s2.board.getD i 0) :
    (canonOcc s1 p).testBit i = (canonOcc s2 p).testBit i := by
  rw [Bool.eq_iff_iff, testBit_canonOcc_iff, testBit_canonOcc_iff, h]

theorem canonBlocked_testBit_congr (s1 s2 : State) (p i : Nat)
    (h : s1.board.getD i 0 = s2.board.getD i 0) :
    (canonBlocked s1 p).testBit i = (canonBlocked s2 p).testBit i := by
  rw [Bool.eq_iff_iff, testBit_canonBlocked_iff, testBit_canonBlocked_iff, h]

theorem maskInv_after_updates (pt : Nat) (hpt : pt < 26) (s2 base : State)
    (hocc : s2.occMask = base.occMask) (hbl : s2.blockedMask = base.blockedMask)
    (hlocc : base.occMask.length = 2) (hlbl : base.blockedMask.length = 2)
    (hb : ∀ i, i ≠ pt → s2.board.getD i 0 = base.board.getD i 0)
    (hm : MaskInv base) :
    MaskInv (updateBlocked pt (updateOccupied pt s2)) := by
  obtain ⟨a, b, hab⟩ := exists_pair base.occMask hlocc
  obtain ⟨c, d, hcd⟩ := exists_pair base.blockedMask hlbl
  have hoccL := updateOccupied_list pt s2 a b (hocc.trans hab)
  have hblL0 : (updateOccupied pt s2).blockedMask = [c, d] :=
    (show (updateOccupied pt s2).blockedMask = s2.blockedMask from rfl).trans (hbl.trans hcd)
  have hblL := updateBlocked_list pt (updateOccupied pt s2) c d hblL0
  rw [num_of_stones_congr (updateOccupied pt s2) s2 rfl,
    num_of_stones_congr (updateOccupied pt s2) s2 rfl] at hblL
  have hFocc : (updateBlocked pt (updateOccupied pt s2)).occMask
      = [if 0 < num_of_stones s2 pt 0 then set_bit pt a else clear_bit pt a,
         if 0 < num_of_stones s2 pt 1 then set_bit pt b else clear_bit pt b] :=
    (show (updateBlocked pt (updateOccupied pt s2)).occMask
      = (updateOccupied pt s2).occMask from rfl).trans hoccL
  have hFboard : (updateBlocked pt (updateOccupied pt s2)).board = s2.board := rfl
  have hOccEntry : ∀ p, p < 2 →
      (if 0 < num_of_stones s2 pt p then set_bit pt (base.occMask.getD p 0)
        else clear_bit pt (base.occMask.getD p 0))
        = canonOcc (updateBlocked pt (updateOccupied pt s2)) p := by
    intro p hp
    apply set_clear_canonical
    · intro i hipt
      rw [(hm p hp).1]
      rw [canonOcc_testBit_congr base s2 p i (hb i hipt).symm]
      exact canonOcc_testBit_congr s2 _ p i rfl
    · rw [testBit_canonOcc_iff]
      rw [show (updateBlocked pt (updateOccupied pt s2)).board = s2.board from rfl]
      rw [← num_pos_iff]
      exact ⟨fun h => h.2, fun h => ⟨hpt, h⟩⟩
  have hBlEntry : ∀ p, p < 2 →
      (if 2 ≤ num_of_stones s2 pt (1 - p) then set_bit pt (base.blockedMask.getD p 0)
        else clear_bit pt (base.blockedMask.getD p 0))
        = canonBlocked (updateBlocked pt (updateOccupied pt s2)) p := by
    intro p hp
    apply set_clear_canonical
    · intro i hipt
      rw [(hm p hp).2]
      rw [canonBlocked_testBit_congr base s2 p i (hb i hipt).symm]
      exact canonBlocked_testBit_congr s2 _ p i rfl
    · rw [testBit_canonBlocked_iff]
      rw [show (updateBlocked pt (updateOccupied pt s2)).board = s2.board from rfl]
      rw [← num_ge_two_iff]
      exact ⟨fun h => h.2, fun h => ⟨hpt, h⟩⟩
  intro p hp
  rcases (by omega : p = 0 ∨ p = 1) with hp0 | hp1
  · subst hp0
    constructor
    · rw [hFocc]
      show (if 0 < num_of_stones s2 pt 0 then set_bit pt a else clear_bit pt a) = _
      have := hOccEntry 0 (by omega)
      rw [hab] at this
      exact this
    · rw [hblL]
      show (if 2 ≤ num_of_stones s2 pt 1 then set_bit pt c else clear_bit pt c) = _
      have := hBlEntry 0 (by omega)
      rw [hcd] at this
      exact this
  · subst hp1
    constructor
    · rw [hFocc]
      show (if 0 < num_of_stones s2 pt 1 then set_bit pt b else clear_bit pt b) = _
      have := hOccEntry 1 (by omega)
      rw [hab] at this
      exact this
    · rw [hblL]
      show (if 2 ≤ num_of_stones s2 pt 0 then set_bit pt d else clear_bit pt d) = _
      have := hBlEntry 1 (by omega)
      rw [hcd] at this
      exact this

/-! ## Stone-total accounting -/

theorem foldl_add_eq_sum (f : Nat → Int) (l : List Nat) :
    ∀ a : Int, l.foldl (fun acc i => acc + f i) a = a + (l.map f).sum := by
  induction l with
  | nil => intro a; simp
  | cons x l ih =>
    intro a
    rw [List.foldl_cons, ih (a + f x), List.map_cons, List.sum_cons]
    ring

theorem sum_update_except (l : List Nat) (hnd : l.Nodup) (f g : Nat → Int) (q : Nat)
    (h : ∀ i, i ≠ q → f i = g i) :
    (l.map f).sum = (l.map g).sum + (if q ∈ l then f q - g q else 0) := by
  induction l with
  | nil => simp
  | cons x l ih =>
    rw [List.nodup_cons] at hnd
    rw [List.map_cons, List.map_cons, List.sum_cons, List.sum_cons]
    by_cases hxq : x = q
    · subst hxq
      have hmap : l.map f = l.map g :=
        List.map_congr_left (fun i hi => h i (fun hc => hnd.1 (hc ▸ hi)))
      rw [hmap, if_pos (List.mem_cons_self x l)]
      ring
    · rw [h x hxq, ih hnd.2]
      by_cases hql : q ∈ l
      · rw [if_pos hql, if_pos (List.mem_cons_of_mem x hql)]
        ring
      · rw [if_neg hql, if_neg (fun hc => by
          rcases List.mem_cons.mp hc with hc | hc
          · exact hxq hc.symm
          · exact hql hc)]
        ring

theorem stoneTotal_eq_sum (s : State) (p : Nat) :
    stoneTotal s p = ((List.range' 1 24).map (fun i => num_of_stones s i p)).sum
      + |s.board.getD (BAR_FIELD p) 0| + s.bearOff.getD p 0 := by
  unfold stoneTotal
  rw [show BOARD_END + 1 - BOARD_START = 24 from rfl, show BOARD_START = 1 from rfl]
  rw [foldl_add_eq_sum (fun i => num_of_stones s i p) (List.range' 1 24) 0]
  ring

theorem BAR_FIELD_lt (p : Nat) : BAR_FIELD p < 26 := by
  unfold BAR_FIELD; split <;> omega

theorem stoneTotal_set (s : State) (q : Nat) (v : Int) (p : Nat)
    (hWFb : s.board.length = 26) (hq : q < 26) :
    stoneTotal { s with board := s.board.set q v } p
      = stoneTotal s p
        + (if 1 ≤ q ∧ q ≤ 24 then
            num_of_stones { s with board := s.board.set q v } q p - num_of_stones s q p
          else 0)
        + (if q = BAR_FIELD p then |v| - |s.board.getD q 0| else 0) := by
  rw [stoneTotal_eq_sum, stoneTotal_eq_sum]
  have hsum := sum_update_except (List.range' 1 24) (List.nodup_range' 1 24)
    (fun i => num_of_stones { s with board := s.board.set q v } i p)
    (fun i => num_of_stones s i p) q
    (fun i hiq => by
      show num_of_stones { s with board := s.board.set q v } i p = num_of_stones s i p
      unfold num_of_stones
      rw [show ({ s with board := s.board.set q v } : State).board = s.board.set q v from rfl,
        getD_set_ne s.board v 0 q i (fun hc => hiq hc.symm)])
  rw [hsum]
  have hmem : q ∈ List.range' 1 24 ↔ 1 ≤ q ∧ q ≤ 24 := by
    rw [List.mem_range'_1]
    omega
  have hbar : ({ s with board := s.board.set q v } : State).board.getD (BAR_FIELD p) 0
      = if q = BAR_FIELD p then v else s.board.getD (BAR_FIELD p) 0 := by
    by_cases hqb : q = BAR_FIELD p
    · rw [if_pos hqb, show ({ s with board := s.board.set q v } : State).board
        = s.board.set q v from rfl, hqb]
      exact getD_set_self s.board v 0 (BAR_FIELD p) (by rw [hWFb]; exact hqb ▸ hq)
    · rw [if_neg hqb, show ({ s with board := s.board.set q v } : State).board
        = s.board.set q v from rfl]
      exact getD_set_ne s.board v 0 q (BAR_FIELD p) hqb
  rw [hbar]
  simp only [hmem]
  by_cases h1 : 1 ≤ q ∧ q ≤ 24 <;> by_cases h2 : q = BAR_FIELD p
  · exfalso
    have hb : BAR_FIELD p = 25 ∨ BAR_FIELD p = 0 := by
      unfold BAR_FIELD
      split
      · exact Or.inl rfl
      · exact Or.inr rfl
    rcases hb with hb | hb <;> rw [hb] at h2 <;> omega
  · rw [if_pos h1, if_neg h2, if_neg h2]
    ring
  · rw [if_neg h1, if_pos h2, if_pos h2, h2]
    ring
  · rw [if_neg h1, if_neg h2, if_neg h2]
    ring

/-! ## Field-level machinery for the primitives -/

theorem state_eq_of_fields (s1 s2 : State) (hb : s1.board = s2.board)
    (hbe : s1.bearOff = s2.bearOff) (ho : s1.occMask = s2.occMask)
    (hbl : s1.blockedMask = s2.blockedMask) (ht : s1.turn = s2.turn)
    (hz : s1.zhash = s2.zhash) : s1 = s2 := by
  cases s1; cases s2
  cases hb; cases hbe; cases ho; cases hbl; cases ht; cases hz
  rfl

theorem masks_eq_of_maskInv (s1 s2 : State) (h1 : MaskInv s1) (h2 : MaskInv s2)
    (hb : s1.board = s2.board) (l1 : s1.occMask.length = 2) (l2 : s2.occMask.length = 2)
    (m1 : s1.blockedMask.length = 2) (m2 : s2.blockedMask.length = 2) :
    s1.occMask = s2.occMask ∧ s1.blockedMask = s2.blockedMask := by
  obtain ⟨a1, b1, hab1⟩ := exists_pair s1.occMask l1
  obtain ⟨a2, b2, hab2⟩ := exists_pair s2.occMask l2
  obtain ⟨c1, d1, hcd1⟩ := exists_pair s1.blockedMask m1
  obtain ⟨c2, d2, hcd2⟩ := exists_pair s2.blockedMask m2
  have hocc : ∀ p, p < 2 → s1.occMask.getD p 0 = s2.occMask.getD p 0 := by
    intro p hp
    rw [(h1 p hp).1, (h2 p hp).1, canonOcc_congr s1 s2 hb]
  have hblk : ∀ p, p < 2 → s1.blockedMask.getD p 0 = s2.blockedMask.getD p 0 := by
    intro p hp
    rw [(h1 p hp).2, (h2 p hp).2, canonBlocked_congr s1 s2 hb]
  constructor
  · rw [hab1, hab2]
    have e0 := hocc 0 (by omega)
    have e1 := hocc 1 (by omega)
    rw [hab1, hab2] at e0 e1
    rw [show ([a1, b1].getD 0 0) = a1 from rfl, show ([a2, b2].getD 0 0) = a2 from rfl] at e0
    rw [show ([a1, b1].getD 1 0) = b1 from rfl, show ([a2, b2].getD 1 0) = b2 from rfl] at e1
    rw [e0, e1]
  · rw [hcd1, hcd2]
    have e0 := hblk 0 (by omega)
    have e1 := hblk 1 (by omega)
    rw [hcd1, hcd2] at e0 e1
    rw [show ([c1, d1].getD 0 0) = c1 from rfl, show ([c2, d2].getD 0 0) = c2 from rfl] at e0
    rw [show ([c1, d1].getD 1 0) = d1 from rfl, show ([c2, d2].getD 1 0) = d2 from rfl] at e1
    rw [e0, e1]

theorem xor_cancel (a b : Nat) : a ^^^ b ^^^ b = a := by
  rw [Nat.xor_assoc, Nat.xor_self, Nat.xor_zero]

theorem num_nonneg (s : State) (pt pl : Nat) : 0 ≤ num_of_stones s pt pl := by
  show 0 ≤ (if 0 < s.board.getD pt 0 * STONE pl then s.board.getD pt 0 * STONE pl else 0)
  split <;> omega

theorem num_ge_one_iff (s : State) (p pl : Nat) :
    1 ≤ num_of_stones s p pl ↔ 1 ≤ s.board.getD p 0 * STONE pl := by
  have := num_pos_iff s p pl
  constructor <;> intro h <;> omega

/-- The intermediate record built by `_add_stone` before the mask
updates. -/
def addStoneCore (Z : ZTable) (pt pl : Nat) (s : State) : State :=
  { s with board := s.board.set pt (s.board.getD pt 0 + STONE pl),
           zhash := s.zhash ^^^ Z.t pt pl (num_of_stones s pt pl).toNat
             ^^^ Z.t pt pl (num_of_stones { s with
               board := s.board.set pt (s.board.getD pt 0 + STONE pl) } pt pl).toNat }

/-- The intermediate record built by `_remove_stone` (in its real branch)
before the mask updates. -/
def removeStoneCore (Z : ZTable) (pt pl : Nat) (s : State) : State :=
  { s with board := s.board.set pt (s.board.getD pt 0 - STONE pl),
           zhash := s.zhash ^^^ Z.t pt pl (num_of_stones s pt pl).toNat
             ^^^ Z.t pt pl (num_of_stones { s with
               board := s.board.set pt (s.board.getD pt 0 - STONE pl) } pt pl).toNat }

theorem addStone_eq (Z : ZTable) (pt pl : Nat) (s : State) :
    addStone Z pt pl s = updateBlocked pt (updateOccupied pt (addStoneCore Z pt pl s)) := rfl

theorem removeStone_eq (Z : ZTable) (pt pl : Nat) (s : State)
    (h : 1 ≤ num_of_stones s pt pl) :
    removeStone Z pt pl s
      = updateBlocked pt (updateOccupied pt (removeStoneCore Z pt pl s)) := by
  unfold removeStone removeStoneCore
  rw [if_neg (by omega : ¬ (num_of_stones s pt pl).toNat = 0)]

theorem updates_WF (pt : Nat) (s : State) (h : WF s) :
    WF (updateBlocked pt (updateOccupied pt s)) := by
  obtain ⟨hb, hbe, ho, hbl⟩ := h
  obtain ⟨a, b, hab⟩ := exists_pair s.occMask ho
  obtain ⟨c, d, hcd⟩ := exists_pair s.blockedMask hbl
  have h1 := updateOccupied_list pt s a b hab
  have h2 := updateBlocked_list pt (updateOccupied pt s) c d
    ((show (updateOccupied pt s).blockedMask = s.blockedMask from rfl).trans hcd)
  refine ⟨hb, hbe, ?_, ?_⟩
  · rw [show (updateBlocked pt (updateOccupied pt s)).occMask
      = (updateOccupied pt s).occMask from rfl, h1]
    rfl
  · rw [h2]
    rfl

theorem addStoneCore_WF (Z : ZTable) (pt pl : Nat) (s : State) (h : WF s) :
    WF (addStoneCore Z pt pl s) := by
  obtain ⟨hb, hbe, ho, hbl⟩ := h
  refine ⟨?_, hbe, ho, hbl⟩
  show (s.board.set pt _).length = 26
  rw [List.length_set]
  exact hb

theorem removeStoneCore_WF (Z : ZTable) (pt pl : Nat) (s : State) (h : WF s) :
    WF (removeStoneCore Z pt pl s) := by
  obtain ⟨hb, hbe, ho, hbl⟩ := h
  refine ⟨?_, hbe, ho, hbl⟩
  show (s.board.set pt _).length = 26
  rw [List.length_set]
  exact hb

theorem addStone_WF (Z : ZTable) (pt pl : Nat) (s : State) (h : WF s) :
    WF (addStone Z pt pl s) := by
  rw [addStone_eq]
  exact updates_WF pt _ (addStoneCore_WF Z pt pl s h)

theorem removeStone_WF (Z : ZTable) (pt pl : Nat) (s : State) (h : WF s) :
    WF (removeStone Z pt pl s) := by
  by_cases hn : 1 ≤ num_of_stones s pt pl
  · rw [removeStone_eq Z pt pl s hn]
    exact updates_WF pt _ (removeStoneCore_WF Z pt pl s h)
  · rw [removeStone_of_empty Z pt pl s (by have := num_nonneg s pt pl; omega)]
    exact h

theorem addStone_maskInv (Z : ZTable) (pt pl : Nat) (s : State) (hpt : pt < 26)
    (hWF : WF s) (hm : MaskInv s) : MaskInv (addStone Z pt pl s) := by
  rw [addStone_eq]
  refine maskInv_after_updates pt hpt _ s rfl rfl hWF.2.2.1 hWF.2.2.2 (fun i hipt => ?_) hm
  show (s.board.set pt _).getD i 0 = s.board.getD i 0
  exact getD_set_ne s.board _ 0 pt i (fun hc => hipt hc.symm)

theorem removeStone_maskInv (Z : ZTable) (pt pl : Nat) (s : State) (hpt : pt < 26)
    (hWF : WF s) (hm : MaskInv s) : MaskInv (removeStone Z pt pl s) := by
  by_cases hn : 1 ≤ num_of_stones s pt pl
  · rw [removeStone_eq Z pt pl s hn]
    refine maskInv_after_updates pt hpt _ s rfl rfl hWF.2.2.1 hWF.2.2.2 (fun i hipt => ?_) hm
    show (s.board.set pt _).getD i 0 = s.board.getD i 0
    exact getD_set_ne s.board _ 0 pt i (fun hc => hipt hc.symm)
  · rw [removeStone_of_empty Z pt pl s (by have := num_nonneg s pt pl; omega)]
    exact hm

theorem removeStone_fields (Z : ZTable) (pt pl : Nat) (s : State)
    (h : 1 ≤ num_of_stones s pt pl) (hlen : pt < s.board.length) :
    (removeStone Z pt pl s).board = s.board.set pt (s.board.getD pt 0 - STONE pl) ∧
    (removeStone Z pt pl s).bearOff = s.bearOff ∧
    (removeStone Z pt pl s).turn = s.turn ∧
    (removeStone Z pt pl s).zhash = s.zhash
      ^^^ Z.t pt pl (s.board.getD pt 0 * STONE pl).toNat
      ^^^ Z.t pt pl ((s.board.getD pt 0 - STONE pl) * STONE pl).toNat := by
  rw [removeStone_eq Z pt pl s h]
  refine ⟨rfl, rfl, rfl, ?_⟩
  show s.zhash ^^^ Z.t pt pl (num_of_stones s pt pl).toNat
      ^^^ Z.t pt pl (num_of_stones { s with
        board := s.board.set pt (s.board.getD pt 0 - STONE pl) } pt pl).toNat = _
  rw [num_toNat, num_toNat]
  have hb : ({ s with board := s.board.set pt (s.board.getD pt 0 - STONE pl) } :
      State).board.getD pt 0 = s.board.getD pt 0 - STONE pl :=
    getD_set_self s.board _ 0 pt hlen
  rw [hb]

/-! ## Round-trip of `move_stone` / `undo_stone_move` -/

theorem STONE_cases (pl : Nat) : STONE pl = -1 ∨ STONE pl = 1 := by
  unfold STONE
  split
  · exact Or.inl rfl
  · exact Or.inr rfl

theorem sub_mul_self (x st : Int) (hst : st = -1 ∨ st = 1) : (x - st) * st = x * st - 1 := by
  rcases hst with h | h <;> rw [h] <;> ring

theorem add_mul_self (x st : Int) (hst : st = -1 ∨ st = 1) : (x + st) * st = x * st + 1 := by
  rcases hst with h | h <;> rw [h] <;> ring

theorem moveStone_WF (Z : ZTable) (f t pl : Nat) (s : State) (h : WF s) :
    WF (moveStone Z f t pl s) :=
  addStone_WF Z t pl _ (removeStone_WF Z f pl s h)

theorem moveStone_maskInv (Z : ZTable) (f t pl : Nat) (s : State) (hf : f < 26) (ht : t < 26)
    (hWF : WF s) (hm : MaskInv s) : MaskInv (moveStone Z f t pl s) :=
  addStone_maskInv Z t pl _ ht (removeStone_WF Z f pl s hWF)
    (removeStone_maskInv Z f pl s hf hWF hm)

theorem moveStone_roundtrip (Z : ZTable) (f t pl : Nat) (s : State)
    (hWF : WF s) (hm : MaskInv s) (hf : f < 26) (ht : t < 26)
    (hc : 1 ≤ s.board.getD f 0 * STONE pl)
    (hd : 0 ≤ s.board.getD t 0 * STONE pl) :
    moveStone Z t f pl (moveStone Z f t pl s) = s := by
  have hstc := STONE_cases pl
  have hflen : f < s.board.length := by rw [hWF.1]; exact hf
  have htlen : t < s.board.length := by rw [hWF.1]; exact ht
  have hnum1 : 1 ≤ num_of_stones s f pl := (num_ge_one_iff s f pl).mpr hc
  obtain ⟨hb1, he1, ht1, hz1⟩ := removeStone_fields Z f pl s hnum1 hflen
  have hlen1 : (removeStone Z f pl s).board.length = s.board.length := by
    rw [hb1, List.length_set]
  have hget1f : (removeStone Z f pl s).board.getD f 0 = s.board.getD f 0 - STONE pl := by
    rw [hb1]
    exact getD_set_self s.board _ 0 f hflen
  have hget1t : (removeStone Z f pl s).board.getD t 0
      = if f = t then s.board.getD f 0 - STONE pl else s.board.getD t 0 := by
    by_cases hft : f = t
    · rw [if_pos hft, ← hft]
      exact hget1f
    · rw [if_neg hft, hb1]
      exact getD_set_ne s.board _ 0 f t hft
  have hd1 : 0 ≤ (removeStone Z f pl s).board.getD t 0 * STONE pl := by
    rw [hget1t]
    by_cases hft : f = t
    · rw [if_pos hft, sub_mul_self _ _ hstc]
      omega
    · rw [if_neg hft]
      exact hd
  obtain ⟨hb2, he2, ht2, hz2⟩ := addStone_fields Z t pl (removeStone Z f pl s)
    (by rw [hlen1]; exact htlen)
  have hlen2 : (addStone Z t pl (removeStone Z f pl s)).board.length = s.board.length := by
    rw [hb2, List.length_set, hlen1]
  have hget2t : (addStone Z t pl (removeStone Z f pl s)).board.getD t 0
      = (removeStone Z f pl s).board.getD t 0 + STONE pl := by
    rw [hb2]
    exact getD_set_self _ _ 0 t (by rw [hlen1]; exact htlen)
  have hget2f : (addStone Z t pl (removeStone Z f pl s)).board.getD f 0
      = s.board.getD f 0 - STONE pl + (if f = t then STONE pl else 0) := by
    by_cases hft : f = t
    · rw [if_pos hft]
      subst hft
      rw [hget2t, hget1f]
    · rw [if_neg hft, hb2, getD_set_ne _ _ 0 t f (fun hc2 => hft hc2.symm), hget1f]
      ring
  have hnum3 : 1 ≤ num_of_stones (addStone Z t pl (removeStone Z f pl s)) t pl := by
    rw [num_ge_one_iff, hget2t, add_mul_self _ _ hstc]
    omega
  obtain ⟨hb3, he3, ht3, hz3⟩ := removeStone_fields Z t pl
    (addStone Z t pl (removeStone Z f pl s)) hnum3 (by rw [hlen2]; exact htlen)
  have hlen3 : (removeStone Z t pl (addStone Z t pl (removeStone Z f pl s))).board.length
      = s.board.length := by
    rw [hb3, List.length_set, hlen2]
  have hget3f : (removeStone Z t pl (addStone Z t pl
      (removeStone Z f pl s))).board.getD f 0 = s.board.getD f 0 - STONE pl := by
    by_cases hft : f = t
    · subst hft
      rw [hb3, getD_set_self _ _ 0 f (by rw [hlen2]; exact htlen), hget2t, hget1f]
      ring
    · rw [hb3, getD_set_ne _ _ 0 t f (fun hc2 => hft hc2.symm), hget2f, if_neg hft]
      ring
  obtain ⟨hb4, he4, ht4, hz4⟩ := addStone_fields Z f pl
    (removeStone Z t pl (addStone Z t pl (removeStone Z f pl s)))
    (by rw [hlen3]; exact hflen)
  show addStone Z f pl (removeStone Z t pl (addStone Z t pl (removeStone Z f pl s))) = s
  have hboard : (addStone Z f pl (removeStone Z t pl (addStone Z t pl
      (removeStone Z f pl s)))).board = s.board := by
    rw [hb4, hget3f, show s.board.getD f 0 - STONE pl + STONE pl = s.board.getD f 0 by ring]
    rw [hb3, hget2t, show (removeStone Z f pl s).board.getD t 0 + STONE pl - STONE pl
      = (removeStone Z f pl s).board.getD t 0 by ring]
    rw [hb2, List.set_set, set_getD_self, hb1, List.set_set, set_getD_self]
  have hWF4 : WF (addStone Z f pl (removeStone Z t pl (addStone Z t pl
      (removeStone Z f pl s)))) :=
    addStone_WF Z f pl _ (removeStone_WF Z t pl _
      (addStone_WF Z t pl _ (removeStone_WF Z f pl s hWF)))
  have hm4 : MaskInv (addStone Z f pl (removeStone Z t pl (addStone Z t pl
      (removeStone Z f pl s)))) :=
    addStone_maskInv Z f pl _ hf
      (removeStone_WF Z t pl _ (addStone_WF Z t pl _ (removeStone_WF Z f pl s hWF)))
      (removeStone_maskInv Z t pl _ ht
        (addStone_WF Z t pl _ (removeStone_WF Z f pl s hWF))
        (addStone_maskInv Z t pl _ ht (removeStone_WF Z f pl s hWF)
          (removeStone_maskInv Z f pl s hf hWF hm)))
  obtain ⟨hmo, hmb⟩ := masks_eq_of_maskInv _ s hm4 hm hboard
    hWF4.2.2.1 hWF.2.2.1 hWF4.2.2.2 hWF.2.2.2
  refine state_eq_of_fields _ _ hboard ?_ hmo hmb ?_ ?_
  · rw [he4, he3, he2, he1]
  · rw [ht4, ht3, ht2, ht1]
  · rw [hz4, hget3f, show s.board.getD f 0 - STONE pl + STONE pl = s.board.getD f 0 by ring]
    rw [hz3, hget2t, show (removeStone Z f pl s).board.getD t 0 + STONE pl - STONE pl
      = (removeStone Z f pl s).board.getD t 0 by ring]
    rw [hz2, hz1]
    rw [xor_cancel, xor_cancel, xor_cancel, xor_cancel]

/-! ## Round-trip of `bear_off` / `undo_bear_off` -/

theorem maskInv_congr (s1 s2 : State) (hb : s1.board = s2.board)
    (ho : s1.occMask = s2.occMask) (hbl : s1.blockedMask = s2.blockedMask)
    (h : MaskInv s1) : MaskInv s2 := by
  intro p hp
  obtain ⟨h1, h2⟩ := h p hp
  constructor
  · rw [← ho, h1, canonOcc_congr s1 s2 hb]
  · rw [← hbl, h2, canonBlocked_congr s1 s2 hb]

theorem xor_cancel_bearoff (z a b c d : Nat) :
    z ^^^ a ^^^ b ^^^ c ^^^ d ^^^ b ^^^ a ^^^ d ^^^ c = z := by
  apply Nat.eq_of_testBit_eq
  intro i
  simp only [Nat.testBit_xor]
  generalize z.testBit i = zb
  generalize a.testBit i = ab
  generalize b.testBit i = bb
  generalize c.testBit i = cb
  generalize d.testBit i = db
  revert zb ab bb cb db
  decide

theorem bearOff_fields (Z : ZTable) (pt pl : Nat) (s : State)
    (h : 1 ≤ num_of_stones s pt pl) (hlen : pt < s.board.length) :
    (bearOff Z pt pl s).board = s.board.set pt (s.board.getD pt 0 - STONE pl) ∧
    (bearOff Z pt pl s).bearOff = s.bearOff.set pl (s.bearOff.getD pl 0 + 1) ∧
    (bearOff Z pt pl s).turn = s.turn ∧
    (bearOff Z pt pl s).zhash = s.zhash
      ^^^ Z.t pt pl (s.board.getD pt 0 * STONE pl).toNat
      ^^^ Z.t pt pl ((s.board.getD pt 0 - STONE pl) * STONE pl).toNat
      ^^^ Z.t (26 + pl) pl (s.bearOff.getD pl 0).toNat
      ^^^ Z.t (26 + pl) pl (s.bearOff.getD pl 0 + 1).toNat := by
  obtain ⟨hb1, he1, ht1, hz1⟩ := removeStone_fields Z pt pl s h hlen
  refine ⟨hb1, ?_, ht1, ?_⟩
  · show (removeStone Z pt pl s).bearOff.set pl (s.bearOff.getD pl 0 + 1) = _
    rw [he1]
  · show (removeStone Z pt pl s).zhash
        ^^^ Z.t (26 + pl) pl (s.bearOff.getD pl 0).toNat
        ^^^ Z.t (26 + pl) pl (s.bearOff.getD pl 0 + 1).toNat = _
    rw [hz1]

theorem bearOff_WF (Z : ZTable) (pt pl : Nat) (s : State) (h : WF s) :
    WF (bearOff Z pt pl s) := by
  have h1 := removeStone_WF Z pt pl s h
  refine ⟨h1.1, ?_, h1.2.2.1, h1.2.2.2⟩
  show ((removeStone Z pt pl s).bearOff.set pl (s.bearOff.getD pl 0 + 1)).length = 2
  rw [List.length_set]
  exact h1.2.1

theorem bearOff_maskInv (Z : ZTable) (pt pl : Nat) (s : State) (hpt : pt < 26)
    (hWF : WF s) (hm : MaskInv s) : MaskInv (bearOff Z pt pl s) :=
  maskInv_congr (removeStone Z pt pl s) (bearOff Z pt pl s) rfl rfl rfl
    (removeStone_maskInv Z pt pl s hpt hWF hm)

theorem undoBearOff_fields (Z : ZTable) (pt pl : Nat) (s : State)
    (hpt : pt < s.board.length) :
    (undoBearOff Z pt pl s).board = s.board.set pt (s.board.getD pt 0 + STONE pl) ∧
    (undoBearOff Z pt pl s).bearOff = s.bearOff.set pl (s.bearOff.getD pl 0 - 1) ∧
    (undoBearOff Z pt pl s).turn = s.turn ∧
    (undoBearOff Z pt pl s).zhash = s.zhash
      ^^^ Z.t pt pl (s.board.getD pt 0 * STONE pl).toNat
      ^^^ Z.t pt pl ((s.board.getD pt 0 + STONE pl) * STONE pl).toNat
      ^^^ Z.t (26 + pl) pl (s.bearOff.getD pl 0).toNat
      ^^^ Z.t (26 + pl) pl (s.bearOff.getD pl 0 - 1).toNat := by
  have h2 := addStone_fields Z pt pl
    { s with bearOff := s.bearOff.set pl (s.bearOff.getD pl 0 - 1) } hpt
  refine ⟨h2.1, h2.2.1, h2.2.2.1, ?_⟩
  show (addStone Z pt pl { s with bearOff := s.bearOff.set pl (s.bearOff.getD pl 0 - 1) }).zhash
      ^^^ Z.t (26 + pl) pl (s.bearOff.getD pl 0).toNat
      ^^^ Z.t (26 + pl) pl (s.bearOff.getD pl 0 - 1).toNat = _
  rw [h2.2.2.2]

theorem undoBearOff_WF (Z : ZTable) (pt pl : Nat) (s : State) (h : WF s) :
    WF (undoBearOff Z pt pl s) := by
  have h0 : WF { s with bearOff := s.bearOff.set pl (s.bearOff.getD pl 0 - 1) } := by
    refine ⟨h.1, ?_, h.2.2.1, h.2.2.2⟩
    show (s.bearOff.set pl (s.bearOff.getD pl 0 - 1)).length = 2
    rw [List.length_set]
    exact h.2.1
  exact addStone_WF Z pt pl _ h0

theorem undoBearOff_maskInv (Z : ZTable) (pt pl : Nat) (s : State) (hpt : pt < 26)
    (hWF : WF s) (hm : MaskInv s) : MaskInv (undoBearOff Z pt pl s) := by
  have h0 : WF { s with bearOff := s.bearOff.set pl (s.bearOff.getD pl 0 - 1) } := by
    refine ⟨hWF.1, ?_, hWF.2.2.1, hWF.2.2.2⟩
    show (s.bearOff.set pl (s.bearOff.getD pl 0 - 1)).length = 2
    rw [List.length_set]
    exact hWF.2.1
  have hm0 : MaskInv { s with bearOff := s.bearOff.set pl (s.bearOff.getD pl 0 - 1) } :=
    maskInv_congr s _ rfl rfl rfl hm
  exact maskInv_congr _ (undoBearOff Z pt pl s) rfl rfl rfl
    (addStone_maskInv Z pt pl _ hpt h0 hm0)

theorem bearOff_roundtrip (Z : ZTable) (pt pl : Nat) (s : State)
    (hWF : WF s) (hm : MaskInv s) (hpt : pt < 26) (hpl : pl < 2)
    (hc : 1 ≤ s.board.getD pt 0 * STONE pl) :
    undoBearOff Z pt pl (bearOff Z pt pl s) = s := by
  have hptlen : pt < s.board.length := by rw [hWF.1]; exact hpt
  have hpllen : pl < s.bearOff.length := by rw [hWF.2.1]; exact hpl
  have hnum : 1 ≤ num_of_stones s pt pl := (num_ge_one_iff s pt pl).mpr hc
  obtain ⟨hb1, he1, ht1, hz1⟩ := bearOff_fields Z pt pl s hnum hptlen
  have hlen1 : (bearOff Z pt pl s).board.length = s.board.length := by
    rw [hb1, List.length_set]
  obtain ⟨hb2, he2, ht2, hz2⟩ := undoBearOff_fields Z pt pl (bearOff Z pt pl s)
    (by rw [hlen1]; exact hptlen)
  have hget1 : (bearOff Z pt pl s).board.getD pt 0 = s.board.getD pt 0 - STONE pl := by
    rw [hb1]
    exact getD_set_self s.board _ 0 pt hptlen
  have hbe1 : (bearOff Z pt pl s).bearOff.getD pl 0 = s.bearOff.getD pl 0 + 1 := by
    rw [he1]
    exact getD_set_self s.bearOff _ 0 pl hpllen
  have hboard : (undoBearOff Z pt pl (bearOff Z pt pl s)).board = s.board := by
    rw [hb2, hget1,
      show s.board.getD pt 0 - STONE pl + STONE pl = s.board.getD pt 0 by ring,
      hb1, List.set_set, set_getD_self]
  have hbear : (undoBearOff Z pt pl (bearOff Z pt pl s)).bearOff = s.bearOff := by
    rw [he2, hbe1, show s.bearOff.getD pl 0 + 1 - 1 = s.bearOff.getD pl 0 by ring,
      he1, List.set_set, set_getD_self]
  have hWF2 : WF (undoBearOff Z pt pl (bearOff Z pt pl s)) :=
    undoBearOff_WF Z pt pl _ (bearOff_WF Z pt pl s hWF)
  have hm2 : MaskInv (undoBearOff Z pt pl (bearOff Z pt pl s)) :=
    undoBearOff_maskInv Z pt pl _ hpt (bearOff_WF Z pt pl s hWF)
      (bearOff_maskInv Z pt pl s hpt hWF hm)
  obtain ⟨hmo, hmb⟩ := masks_eq_of_maskInv _ s hm2 hm hboard
    hWF2.2.2.1 hWF.2.2.1 hWF2.2.2.2 hWF.2.2.2
  refine state_eq_of_fields _ _ hboard hbear hmo hmb ?_ ?_
  · rw [ht2, ht1]
  · rw [hz2, hget1,
      show s.board.getD pt 0 - STONE pl + STONE pl = s.board.getD pt 0 by ring,
      hbe1, show s.bearOff.getD pl 0 + 1 - 1 = s.bearOff.getD pl 0 by ring,
      hz1]
    exact xor_cancel_bearoff s.zhash _ _ _ _

/-! ## Round-trip of `hit_stone` / `undo_hit_stone` -/

theorem hitStone_roundtrip (Z : ZTable) (start target player : Nat) (s : State)
    (hWF : WF s) (hm : MaskInv s) (hsg : SignInv s) (hpl : player < 2)
    (hstart26 : start < 26)
    (hs : BOARD_START ≤ start ∧ start ≤ BOARD_END ∨ start = BAR_FIELD player)
    (ht1 : BOARD_START ≤ target) (ht24 : target ≤ BOARD_END)
    (hnum : 1 ≤ num_of_stones s start player)
    (htgt : num_of_stones s target (1 - player) = 1) :
    undoHitStone Z start target player (hitStone Z start target player s) = s := by
  have hpl2 : player = 0 ∨ player = 1 := by omega
  have ht1' : 1 ≤ target := ht1
  have ht24' : target ≤ 24 := ht24
  have hso : STONE (1 - player) = -STONE player := by
    rcases hpl2 with h | h <;> subst h <;> rfl
  have hbar26 : BAR_FIELD (1 - player) < 26 := by
    unfold BAR_FIELD
    split <;> omega
  have htbar : target ≠ BAR_FIELD (1 - player) := by
    unfold BAR_FIELD
    split <;> omega
  have hsbar : start ≠ BAR_FIELD (1 - player) := by
    rcases hs with ⟨ha, hb⟩ | hc
    · have ha' : 1 ≤ start := ha
      have hb' : start ≤ 24 := hb
      unfold BAR_FIELD
      split <;> omega
    · rcases hpl2 with h | h <;> subst h <;> rw [hc] <;> decide
  have hc1 : 1 ≤ s.board.getD target 0 * STONE (1 - player) :=
    (num_ge_one_iff s target (1 - player)).mp (le_of_eq htgt.symm)
  have hbt : s.board.getD target 0 * STONE (1 - player) = 1 := by
    by_cases hv : 0 < s.board.getD target 0 * STONE (1 - player)
    · have heq : num_of_stones s target (1 - player)
          = s.board.getD target 0 * STONE (1 - player) := by
        show (if 0 < _ then _ else _) = _
        rw [if_pos hv]
      omega
    · have heq : num_of_stones s target (1 - player) = 0 := by
        show (if 0 < _ then _ else _) = (0 : Int)
        rw [if_neg hv]
      omega
  have hst : start ≠ target := by
    intro h
    subst h
    have h1 := (num_ge_one_iff s start player).mp hnum
    rw [hso, mul_neg] at hbt
    omega
  have hd1 : 0 ≤ s.board.getD (BAR_FIELD (1 - player)) 0 * STONE (1 - player) := by
    rcases hpl2 with h | h <;> subst h
    · show 0 ≤ s.board.getD 0 0 * STONE 1
      show 0 ≤ s.board.getD 0 0 * 1
      rw [mul_one]
      exact hsg.1
    · show 0 ≤ s.board.getD 25 0 * STONE 0
      show 0 ≤ s.board.getD 25 0 * (-1)
      have := hsg.2
      omega
  have houter := moveStone_roundtrip Z target (BAR_FIELD (1 - player)) (1 - player) s
    hWF hm (by omega) hbar26 hc1 hd1
  have htlen : target < s.board.length := by rw [hWF.1]; omega
  obtain ⟨hbA, heA, htA, hzA⟩ := removeStone_fields Z target (1 - player) s
    (le_of_eq htgt.symm) htlen
  have hlenA : (removeStone Z target (1 - player) s).board.length = s.board.length := by
    rw [hbA, List.length_set]
  obtain ⟨hbB, heB, htB, hzB⟩ := addStone_fields Z (BAR_FIELD (1 - player)) (1 - player)
    (removeStone Z target (1 - player) s) (by rw [hlenA, hWF.1]; exact hbar26)
  have hgetS : (moveStone Z target (BAR_FIELD (1 - player)) (1 - player) s).board.getD start 0
      = s.board.getD start 0 := by
    show (addStone Z (BAR_FIELD (1 - player)) (1 - player)
      (removeStone Z target (1 - player) s)).board.getD start 0 = _
    rw [hbB, getD_set_ne _ _ 0 _ start (fun h => hsbar h.symm), hbA,
      getD_set_ne _ _ 0 _ _ (fun h => hst h.symm)]
  have hgetT : (moveStone Z target (BAR_FIELD (1 - player)) (1 - player) s).board.getD target 0
      = s.board.getD target 0 - STONE (1 - player) := by
    show (addStone Z (BAR_FIELD (1 - player)) (1 - player)
      (removeStone Z target (1 - player) s)).board.getD target 0 = _
    rw [hbB, getD_set_ne _ _ 0 _ target (fun h => htbar h.symm), hbA,
      getD_set_self s.board _ 0 target htlen]
  have hWFs : WF (moveStone Z target (BAR_FIELD (1 - player)) (1 - player) s) :=
    moveStone_WF Z target (BAR_FIELD (1 - player)) (1 - player) s hWF
  have hms : MaskInv (moveStone Z target (BAR_FIELD (1 - player)) (1 - player) s) :=
    moveStone_maskInv Z target (BAR_FIELD (1 - player)) (1 - player) s
      (by omega) hbar26 hWF hm
  have hc2 : 1 ≤ (moveStone Z target (BAR_FIELD (1 - player)) (1 - player)
      s).board.getD start 0 * STONE player := by
    rw [hgetS]
    exact (num_ge_one_iff s start player).mp hnum
  have hd2 : 0 ≤ (moveStone Z target (BAR_FIELD (1 - player)) (1 - player)
      s).board.getD target 0 * STONE player := by
    rw [hgetT, hso]
    rw [hso, mul_neg] at hbt
    rcases STONE_cases player with h | h <;> rw [h] at hbt ⊢ <;> ring_nf at hbt ⊢ <;> omega
  have hinner := moveStone_roundtrip Z start target player
    (moveStone Z target (BAR_FIELD (1 - player)) (1 - player) s)
    hWFs hms hstart26 (by omega) hc2 hd2
  show moveStone Z (BAR_FIELD (1 - player)) target (1 - player)
      (moveStone Z target start player (moveStone Z start target player
        (moveStone Z target (BAR_FIELD (1 - player)) (1 - player) s))) = s
  rw [hinner, houter]

/-! ## Exact invertibility of `apply_move` by `undo_move` -/

theorem undoSM_applySM (Z : ZTable) (m : SingleMove) (s : State)
    (hWF : WF s) (hm : MaskInv s) (hsg : SignInv s) (hap : Applicable s m) :
    undoSM Z m (applySM Z m s) = s := by
  obtain ⟨mp, mf, mt, mty, md⟩ := m
  rcases hap with ⟨hpl, hfrom, hnum, hN, hH⟩
  have hf26 : mf < 26 := by
    rcases hfrom with ⟨ha, hb⟩ | hc
    · have hb' : mf ≤ 24 := hb
      omega
    · have hc' : mf = BAR_FIELD mp := hc
      rw [hc']
      unfold BAR_FIELD
      split <;> omega
  cases mty
  case NORMAL =>
    obtain ⟨h1, h2, h3⟩ := hN rfl
    have h2' : mt ≤ 24 := h2
    show moveStone Z mt mf mp (moveStone Z mf mt mp s) = s
    exact moveStone_roundtrip Z mf mt mp s hWF hm hf26 (by omega)
      ((num_ge_one_iff s mf mp).mp hnum) h3
  case HIT =>
    obtain ⟨h1, h2, h3⟩ := hH rfl
    show undoHitStone Z mf mt mp (hitStone Z mf mt mp s) = s
    exact hitStone_roundtrip Z mf mt mp s hWF hm hsg hpl hf26 hfrom h1 h2 hnum h3
  case BEAR_OFF =>
    show undoBearOff Z mf mp (bearOff Z mf mp s) = s
    exact bearOff_roundtrip Z mf mp s hWF hm hf26 hpl ((num_ge_one_iff s mf mp).mp hnum)

/-! ## Legal generated moves satisfy the invertibility preconditions -/

theorem is_bit_set_eq_testBit (idx m : Nat) : is_bit_set idx m = m.testBit idx := by
  unfold is_bit_set
  cases h : m.testBit idx
  · have hz : m &&& (1 <<< idx) = 0 := by
      rw [and_eq_zero_iff_testBit]
      intro i
      rcases eq_or_ne idx i with hi | hi
      · rw [← hi, h]
        rfl
      · rw [testBit_one_shiftLeft, decide_eq_false hi, Bool.not_false, Bool.or_true]
    rw [hz]
    rfl
  · have hz : m &&& (1 <<< idx) ≠ 0 := by
      intro h0
      have hb := congrArg (fun n => n.testBit idx) h0
      simp only [Nat.testBit_and, testBit_one_shiftLeft, Nat.zero_testBit, h,
        Bool.true_and] at hb
      simp at hb
    simp only [bne_iff_ne, ne_eq, hz, not_false_eq_true]

theorem num_ne_one (s : State) (p pl : Nat) (h : num_of_stones s p pl ≠ 1) :
    s.board.getD p 0 * STONE pl ≠ 1 := by
  intro hv
  apply h
  have hpos : (0 : Int) < s.board.getD p 0 * STONE pl := by omega
  show (if 0 < _ then _ else _) = 1
  rw [if_pos hpos, hv]

theorem STONE_opp (pl : Nat) (h : pl < 2) : STONE pl = -STONE (1 - pl) := by
  rcases (by omega : pl = 0 ∨ pl = 1) with h1 | h1 <;> subst h1 <;> rfl

theorem allowedStart_facts (s : State) (start : Nat)
    (hmI : MaskInv s) (hsg : SignInv s) (ht2 : s.turn < 2)
    (hsbit : (allowedStartMask s).testBit start = true) :
    (BOARD_START ≤ start ∧ start ≤ BOARD_END ∨ start = BAR_FIELD s.turn) ∧
    1 ≤ num_of_stones s start s.turn := by
  by_cases hbar : 0 < num_of_stones s (BAR_FIELD s.turn) s.turn
  · have hmask : allowedStartMask s = set_bit (BAR_FIELD s.turn) := by
      show (if 0 < num_of_stones s (BAR_FIELD s.turn) s.turn
        then set_bit (BAR_FIELD s.turn) else occupiedMask s) = _
      rw [if_pos hbar]
    rw [hmask, testBit_set_bit] at hsbit
    simp only [Nat.zero_testBit, Bool.false_or, decide_eq_true_eq] at hsbit
    refine ⟨Or.inr hsbit.symm, ?_⟩
    rw [← hsbit]
    omega
  · have hmask : allowedStartMask s = occupiedMask s := by
      show (if 0 < num_of_stones s (BAR_FIELD s.turn) s.turn
        then set_bit (BAR_FIELD s.turn) else occupiedMask s) = _
      rw [if_neg hbar]
    rw [hmask, occupiedMask, (hmI s.turn ht2).1] at hsbit
    obtain ⟨h26, hpos⟩ := (testBit_canonOcc_iff s s.turn start).mp hsbit
    have hnum : 1 ≤ num_of_stones s start s.turn := (num_ge_one_iff _ _ _).mpr (by omega)
    refine ⟨Or.inl ⟨?_, ?_⟩, hnum⟩
    · show 1 ≤ start
      by_contra h0
      have hs0 : start = 0 := by omega
      subst hs0
      rcases (by omega : s.turn = 0 ∨ s.turn = 1) with h | h
      · rw [h] at hpos
        rw [show STONE 0 = (-1 : Int) from rfl] at hpos
        have := hsg.1
        omega
      · rw [h] at hbar
        exact hbar ((num_pos_iff s 0 1).mpr (by rw [h] at hpos; exact hpos))
    · show start ≤ 24
      by_contra h0
      have hs25 : start = 25 := by omega
      subst hs25
      rcases (by omega : s.turn = 0 ∨ s.turn = 1) with h | h
      · rw [h] at hbar
        exact hbar ((num_pos_iff s 25 0).mpr (by rw [h] at hpos; exact hpos))
      · rw [h] at hpos
        rw [show STONE 1 = (1 : Int) from rfl] at hpos
        have := hsg.2
        omega

theorem generateMoves_applicable (s : State) (die : Nat) (m : SingleMove)
    (hmI : MaskInv s) (hsg : SignInv s) (ht2 : s.turn < 2)
    (hmem : m ∈ generateMoves s die) :
    Applicable s m ∧ m.player = s.turn := by
  rw [generateMoves, List.mem_filterMap] at hmem
  obtain ⟨start, hstart, hsm⟩ := hmem
  obtain ⟨hs26, hsbit⟩ := (mem_indices_from_bits _ start).mp hstart
  obtain ⟨hfrom, hnum⟩ := allowedStart_facts s start hmI hsg ht2 hsbit
  simp only [singleMoveAt] at hsm
  split at hsm
  next mv heq =>
    obtain rfl : mv = m := Option.some.inj hsm
    split at heq
    next hon =>
      obtain rfl := Option.some.inj heq
      rw [Bool.and_eq_true] at hon
      obtain ⟨hOn, hBit⟩ := hon
      simp only [isOnBoard, Bool.and_eq_true, decide_eq_true_eq] at hOn
      obtain ⟨hOn1, hOn2⟩ := hOn
      rw [show ((BOARD_START : Nat) : Int) = 1 from rfl] at hOn1
      rw [show ((BOARD_END : Nat) : Int) = 24 from rfl] at hOn2
      generalize hT : (start : Int) + (die : Int) * DIRECTION s.turn = T
        at hOn1 hOn2 hBit ⊢
      have h1T : 1 ≤ T.toNat := by omega
      have h24T : T.toNat ≤ 24 := by omega
      by_cases hhit : hittableTarget s T.toNat = true
      · rw [if_pos hhit]
        refine ⟨⟨ht2, hfrom, hnum, ?_, ?_⟩, rfl⟩
        · intro hcon
          exact SingleMoveType.noConfusion hcon
        · intro _
          simp only [hittableTarget, beq_iff_eq] at hhit
          exact ⟨h1T, h24T, hhit⟩
      · rw [if_neg hhit]
        refine ⟨⟨ht2, hfrom, hnum, ?_, ?_⟩, rfl⟩
        · intro _
          refine ⟨h1T, h24T, ?_⟩
          show 0 ≤ s.board.getD T.toNat 0 * STONE s.turn
          rw [is_bit_set_eq_testBit] at hBit
          simp only [generateLegalMask] at hBit
          rw [testBit_remove_from_mask, Bool.and_eq_true] at hBit
          have hnb : (blockedMaskOf s).testBit T.toNat = false := by
            have h2 := hBit.2
            cases hb : (blockedMaskOf s).testBit T.toNat
            · rfl
            · rw [hb] at h2
              exact absurd h2 (by decide)
          rw [blockedMaskOf, (hmI s.turn ht2).2] at hnb
          have hble : s.board.getD T.toNat 0 * STONE (1 - s.turn) ≤ 1 := by
            by_contra hgt
            have hset := (testBit_canonBlocked_iff s s.turn T.toNat).mpr
              ⟨by omega, by omega⟩
            rw [hnb] at hset
            exact Bool.noConfusion hset
          simp only [hittableTarget, beq_iff_eq] at hhit
          have hne1 := num_ne_one s T.toNat (1 - s.turn) hhit
          rw [STONE_opp s.turn ht2, mul_neg]
          omega
        · intro hcon
          exact SingleMoveType.noConfusion hcon
    next hon =>
      exact Option.noConfusion heq
  next heq =>
    split at hsm
    next hbo =>
      obtain rfl := Option.some.inj hsm
      exact ⟨⟨ht2, hfrom, hnum, fun hcon => SingleMoveType.noConfusion hcon,
        fun hcon => SingleMoveType.noConfusion hcon⟩, rfl⟩
    next hbo =>
      exact Option.noConfusion hsm

/-- C2: in a state satisfying the maintained invariants, for every single
move the generator produces (NORMAL, HIT or BEAR_OFF, for any die),
`apply_move` followed immediately by `undo_move` of the same move restores
the state exactly — board array, bear-off counters, both players'
occupancy and blocked masks, the turn and the Zobrist hash. -/
theorem apply_undo_roundtrip (Z : ZTable) (s : State) (die : Nat) (m : SingleMove)
    (hInv : Inv s) (hmem : m ∈ generateMoves s die) :
    undoSM Z m (applySM Z m s) = s := by
  obtain ⟨hWF, ht2, hstone, hsg, hbear, hmask⟩ := hInv
  exact undoSM_applySM Z m s hWF hmask hsg
    (generateMoves_applicable s die m hmask hsg ht2 hmem).1

/-- Witness for C2 at a concrete input: the opening move 24 → 23 of
player 0 with die 1 in the start position. -/
theorem apply_undo_roundtrip_witness :
    Inv startState ∧
    (⟨0, 24, 23, .NORMAL, 1⟩ : SingleMove) ∈ generateMoves startState 1 ∧
    undoSM Ztwo ⟨0, 24, 23, .NORMAL, 1⟩
      (applySM Ztwo ⟨0, 24, 23, .NORMAL, 1⟩ startState) = startState :=
  ⟨by decide, by decide,
    apply_undo_roundtrip Ztwo startState 1 ⟨0, 24, 23, .NORMAL, 1⟩ (by decide) (by decide)⟩

/-! ## Stone-count accounting of the mutation primitives (toward C3) -/

theorem stoneTotal_congr (s1 s2 : State) (hb : s1.board = s2.board)
    (he : s1.bearOff = s2.bearOff) (p : Nat) : stoneTotal s1 p = stoneTotal s2 p := by
  rw [stoneTotal_eq_sum, stoneTotal_eq_sum, hb, he]
  have hf : (fun i => num_of_stones s1 i p) = (fun i => num_of_stones s2 i p) :=
    funext (fun i => num_of_stones_congr s1 s2 hb i p)
  rw [hf]

theorem STONE_opp2 (pl : Nat) (h : pl < 2) : STONE (1 - pl) = -STONE pl := by
  rcases (by omega : pl = 0 ∨ pl = 1) with h1 | h1 <;> subst h1 <;> rfl

theorem stoneTotal_removeStone_own (Z : ZTable) (pt pl : Nat) (s : State)
    (hb26 : s.board.length = 26)
    (hsrc : 1 ≤ pt ∧ pt ≤ 24 ∨ pt = BAR_FIELD pl)
    (hnum : 1 ≤ num_of_stones s pt pl) :
    stoneTotal (removeStone Z pt pl s) pl = stoneTotal s pl - 1 := by
  have hpt26 : pt < 26 := by
    rcases hsrc with ⟨a, b⟩ | c
    · omega
    · rw [c]
      exact BAR_FIELD_lt pl
  have hlen : pt < s.board.length := by rw [hb26]; exact hpt26
  obtain ⟨hbf, hef, _, _⟩ := removeStone_fields Z pt pl s hnum hlen
  have hcong : stoneTotal (removeStone Z pt pl s) pl
      = stoneTotal { s with board := s.board.set pt (s.board.getD pt 0 - STONE pl) } pl :=
    stoneTotal_congr _ _ (by rw [hbf]) (by rw [hef]) pl
  rw [hcong, stoneTotal_set s pt _ pl hb26 hpt26]
  have hval : 1 ≤ s.board.getD pt 0 * STONE pl := (num_ge_one_iff s pt pl).mp hnum
  have hstc := STONE_cases pl
  rcases hsrc with ⟨h1, h2⟩ | hbar
  · rw [if_pos ⟨h1, h2⟩]
    have hnb : pt ≠ BAR_FIELD pl := by unfold BAR_FIELD; split <;> omega
    rw [if_neg hnb]
    have hnew : num_of_stones
        { s with board := s.board.set pt (s.board.getD pt 0 - STONE pl) } pt pl
        = s.board.getD pt 0 * STONE pl - 1 := by
      show (if 0 < (s.board.set pt (s.board.getD pt 0 - STONE pl)).getD pt 0 * STONE pl
        then (s.board.set pt (s.board.getD pt 0 - STONE pl)).getD pt 0 * STONE pl else 0) = _
      rw [getD_set_self s.board _ 0 pt hlen, sub_mul_self _ _ hstc]
      split <;> omega
    have hold : num_of_stones s pt pl = s.board.getD pt 0 * STONE pl := by
      show (if 0 < _ then _ else _) = _
      rw [if_pos (by omega)]
    rw [hnew, hold]
    ring
  · have hnb24 : ¬(1 ≤ pt ∧ pt ≤ 24) := by rw [hbar]; unfold BAR_FIELD; split <;> omega
    rw [if_neg hnb24, if_pos hbar]
    rcases hstc with h | h <;> rw [h] at hval ⊢
    · rw [abs_of_nonpos (by omega : s.board.getD pt 0 - (-1) ≤ 0),
        abs_of_nonpos (by omega : s.board.getD pt 0 ≤ 0)]
      ring
    · rw [abs_of_nonneg (by omega : (0 : Int) ≤ s.board.getD pt 0 - 1),
        abs_of_nonneg (by omega : (0 : Int) ≤ s.board.getD pt 0)]
      ring

theorem stoneTotal_addStone_own (Z : ZTable) (pt pl : Nat) (s : State)
    (hb26 : s.board.length = 26)
    (htgt : 1 ≤ pt ∧ pt ≤ 24 ∨ pt = BAR_FIELD pl)
    (hval : 0 ≤ s.board.getD pt 0 * STONE pl) :
    stoneTotal (addStone Z pt pl s) pl = stoneTotal s pl + 1 := by
  have hpt26 : pt < 26 := by
    rcases htgt with ⟨a, b⟩ | c
    · omega
    · rw [c]
      exact BAR_FIELD_lt pl
  have hlen : pt < s.board.length := by rw [hb26]; exact hpt26
  obtain ⟨hbf, hef, _, _⟩ := addStone_fields Z pt pl s hlen
  have hcong : stoneTotal (addStone Z pt pl s) pl
      = stoneTotal { s with board := s.board.set pt (s.board.getD pt 0 + STONE pl) } pl :=
    stoneTotal_congr _ _ (by rw [hbf]) (by rw [hef]) pl
  rw [hcong, stoneTotal_set s pt _ pl hb26 hpt26]
  have hstc := STONE_cases pl
  rcases htgt with ⟨h1, h2⟩ | hbar
  · rw [if_pos ⟨h1, h2⟩]
    have hnb : pt ≠ BAR_FIELD pl := by unfold BAR_FIELD; split <;> omega
    rw [if_neg hnb]
    have hnew : num_of_stones
        { s with board := s.board.set pt (s.board.getD pt 0 + STONE pl) } pt pl
        = s.board.getD pt 0 * STONE pl + 1 := by
      show (if 0 < (s.board.set pt (s.board.getD pt 0 + STONE pl)).getD pt 0 * STONE pl
        then (s.board.set pt (s.board.getD pt 0 + STONE pl)).getD pt 0 * STONE pl else 0) = _
      rw [getD_set_self s.board _ 0 pt hlen, add_mul_self _ _ hstc]
      split <;> omega
    have hold : num_of_stones s pt pl = s.board.getD pt 0 * STONE pl := by
      show (if 0 < _ then _ else _) = _
      split <;> omega
    rw [hnew, hold]
    ring
  · have hnb24 : ¬(1 ≤ pt ∧ pt ≤ 24) := by rw [hbar]; unfold BAR_FIELD; split <;> omega
    rw [if_neg hnb24, if_pos hbar]
    rcases hstc with h | h <;> rw [h] at hval ⊢
    · rw [abs_of_nonpos (by omega : s.board.getD pt 0 + -1 ≤ 0),
        abs_of_nonpos (by omega : s.board.getD pt 0 ≤ 0)]
      ring
    · rw [abs_of_nonneg (by omega : (0 : Int) ≤ s.board.getD pt 0 + 1),
        abs_of_nonneg (by omega : (0 : Int) ≤ s.board.getD pt 0)]
      ring

theorem stoneTotal_removeStone_opp (Z : ZTable) (pt pl : Nat) (s : State)
    (hb26 : s.board.length = 26) (hpl : pl < 2)
    (hsrc : 1 ≤ pt ∧ pt ≤ 24 ∨ pt = BAR_FIELD pl)
    (hnum : 1 ≤ num_of_stones s pt pl) :
    stoneTotal (removeStone Z pt pl s) (1 - pl) = stoneTotal s (1 - pl) := by
  have hpt26 : pt < 26 := by
    rcases hsrc with ⟨a, b⟩ | c
    · omega
    · rw [c]
      exact BAR_FIELD_lt pl
  have hlen : pt < s.board.length := by rw [hb26]; exact hpt26
  obtain ⟨hbf, hef, _, _⟩ := removeStone_fields Z pt pl s hnum hlen
  have hcong : stoneTotal (removeStone Z pt pl s) (1 - pl)
      = stoneTotal { s with board := s.board.set pt (s.board.getD pt 0 - STONE pl) }
        (1 - pl) :=
    stoneTotal_congr _ _ (by rw [hbf]) (by rw [hef]) (1 - pl)
  rw [hcong, stoneTotal_set s pt _ (1 - pl) hb26 hpt26]
  have hval : 1 ≤ s.board.getD pt 0 * STONE pl := (num_ge_one_iff s pt pl).mp hnum
  have hso := STONE_opp2 pl hpl
  have hstc := STONE_cases pl
  rcases hsrc with ⟨h1, h2⟩ | hbar
  · rw [if_pos ⟨h1, h2⟩]
    have hnb : pt ≠ BAR_FIELD (1 - pl) := by unfold BAR_FIELD; split <;> omega
    rw [if_neg hnb]
    have hnew : num_of_stones
        { s with board := s.board.set pt (s.board.getD pt 0 - STONE pl) } pt (1 - pl)
        = 0 := by
      show (if 0 < (s.board.set pt (s.board.getD pt 0 - STONE pl)).getD pt 0 * STONE (1 - pl)
        then _ else _) = (0 : Int)
      rw [getD_set_self s.board _ 0 pt hlen, hso, mul_neg, sub_mul_self _ _ hstc,
        if_neg (by omega)]
    have hold : num_of_stones s pt (1 - pl) = 0 := by
      show (if 0 < s.board.getD pt 0 * STONE (1 - pl) then _ else _) = (0 : Int)
      rw [hso, mul_neg, if_neg (by omega)]
    rw [hnew, hold]
    ring
  · have hnb24 : ¬(1 ≤ pt ∧ pt ≤ 24) := by rw [hbar]; unfold BAR_FIELD; split <;> omega
    have hnb : pt ≠ BAR_FIELD (1 - pl) := by
      rw [hbar]
      rcases (by omega : pl = 0 ∨ pl = 1) with h | h <;> subst h <;> decide
    rw [if_neg hnb24, if_neg hnb]
    ring

theorem stoneTotal_addStone_opp (Z : ZTable) (pt pl : Nat) (s : State)
    (hb26 : s.board.length = 26) (hpl : pl < 2)
    (htgt : 1 ≤ pt ∧ pt ≤ 24 ∨ pt = BAR_FIELD pl)
    (hval : 0 ≤ s.board.getD pt 0 * STONE pl) :
    stoneTotal (addStone Z pt pl s) (1 - pl) = stoneTotal s (1 - pl) := by
  have hpt26 : pt < 26 := by
    rcases htgt with ⟨a, b⟩ | c
    · omega
    · rw [c]
      exact BAR_FIELD_lt pl
  have hlen : pt < s.board.length := by rw [hb26]; exact hpt26
  obtain ⟨hbf, hef, _, _⟩ := addStone_fields Z pt pl s hlen
  have hcong : stoneTotal (addStone Z pt pl s) (1 - pl)
      = stoneTotal { s with board := s.board.set pt (s.board.getD pt 0 + STONE pl) }
        (1 - pl) :=
    stoneTotal_congr _ _ (by rw [hbf]) (by rw [hef]) (1 - pl)
  rw [hcong, stoneTotal_set s pt _ (1 - pl) hb26 hpt26]
  have hso := STONE_opp2 pl hpl
  have hstc := STONE_cases pl
  rcases htgt with ⟨h1, h2⟩ | hbar
  · rw [if_pos ⟨h1, h2⟩]
    have hnb : pt ≠ BAR_FIELD (1 - pl) := by unfold BAR_FIELD; split <;> omega
    rw [if_neg hnb]
    have hnew : num_of_stones
        { s with board := s.board.set pt (s.board.getD pt 0 + STONE pl) } pt (1 - pl)
        = 0 := by
      show (if 0 < (s.board.set pt (s.board.getD pt 0 + STONE pl)).getD pt 0 * STONE (1 - pl)
        then _ else _) = (0 : Int)
      rw [getD_set_self s.board _ 0 pt hlen, hso, mul_neg, add_mul_self _ _ hstc,
        if_neg (by omega)]
    have hold : num_of_stones s pt (1 - pl) = 0 := by
      show (if 0 < s.board.getD pt 0 * STONE (1 - pl) then _ else _) = (0 : Int)
      rw [hso, mul_neg, if_neg (by omega)]
    rw [hnew, hold]
    ring
  · have hnb24 : ¬(1 ≤ pt ∧ pt ≤ 24) := by rw [hbar]; unfold BAR_FIELD; split <;> omega
    have hnb : pt ≠ BAR_FIELD (1 - pl) := by
      rw [hbar]
      rcases (by omega : pl = 0 ∨ pl = 1) with h | h <;> subst h <;> decide
    rw [if_neg hnb24, if_neg hnb]
    ring

theorem signInv_removeStone (Z : ZTable) (pt pl : Nat) (s : State)
    (hb26 : s.board.length = 26) (hpl : pl < 2)
    (hsrc : 1 ≤ pt ∧ pt ≤ 24 ∨ pt = BAR_FIELD pl)
    (hnum : 1 ≤ num_of_stones s pt pl) (hsg : SignInv s) :
    SignInv (removeStone Z pt pl s) := by
  have hpt26 : pt < 26 := by
    rcases hsrc with ⟨a, b⟩ | c
    · omega
    · rw [c]
      exact BAR_FIELD_lt pl
  have hlen : pt < s.board.length := by rw [hb26]; exact hpt26
  obtain ⟨hbf, _, _, _⟩ := removeStone_fields Z pt pl s hnum hlen
  have hval := (num_ge_one_iff s pt pl).mp hnum
  constructor
  · show 0 ≤ (removeStone Z pt pl s).board.getD 0 0
    rw [hbf]
    by_cases h0 : pt = 0
    · subst h0
      rw [getD_set_self s.board _ 0 0 hlen]
      have hpl1 : pl = 1 := by
        rcases hsrc with ⟨a, _⟩ | c
        · omega
        · rcases (by omega : pl = 0 ∨ pl = 1) with h | h
          · subst h
            exact absurd c (by decide)
          · exact h
      subst hpl1
      rw [show STONE 1 = (1 : Int) from rfl] at hval ⊢
      omega
    · rw [getD_set_ne s.board _ 0 pt 0 h0]
      exact hsg.1
  · show (removeStone Z pt pl s).board.getD 25 0 ≤ 0
    rw [hbf]
    by_cases h25 : pt = 25
    · subst h25
      rw [getD_set_self s.board _ 0 25 hlen]
      have hpl0 : pl = 0 := by
        rcases hsrc with ⟨_, b⟩ | c
        · omega
        · rcases (by omega : pl = 0 ∨ pl = 1) with h | h
          · exact h
          · subst h
            exact absurd c (by decide)
      subst hpl0
      rw [show STONE 0 = (-1 : Int) from rfl] at hval ⊢
      omega
    · rw [getD_set_ne s.board _ 0 pt 25 h25]
      exact hsg.2

theorem signInv_addStone (Z : ZTable) (pt pl : Nat) (s : State)
    (hb26 : s.board.length = 26) (hpl : pl < 2)
    (htgt : 1 ≤ pt ∧ pt ≤ 24 ∨ pt = BAR_FIELD pl)
    (hval : 0 ≤ s.board.getD pt 0 * STONE pl) (hsg : SignInv s) :
    SignInv (addStone Z pt pl s) := by
  have hpt26 : pt < 26 := by
    rcases htgt with ⟨a, b⟩ | c
    · omega
    · rw [c]
      exact BAR_FIELD_lt pl
  have hlen : pt < s.board.length := by rw [hb26]; exact hpt26
  obtain ⟨hbf, _, _, _⟩ := addStone_fields Z pt pl s hlen
  constructor
  · show 0 ≤ (addStone Z pt pl s).board.getD 0 0
    rw [hbf]
    by_cases h0 : pt = 0
    · subst h0
      rw [getD_set_self s.board _ 0 0 hlen]
      have hpl1 : pl = 1 := by
        rcases htgt with ⟨a, _⟩ | c
        · omega
        · rcases (by omega : pl = 0 ∨ pl = 1) with h | h
          · subst h
            exact absurd c (by decide)
          · exact h
      subst hpl1
      rw [show STONE 1 = (1 : Int) from rfl] at hval ⊢
      omega
    · rw [getD_set_ne s.board _ 0 pt 0 h0]
      exact hsg.1
  · show (addStone Z pt pl s).board.getD 25 0 ≤ 0
    rw [hbf]
    by_cases h25 : pt = 25
    · subst h25
      rw [getD_set_self s.board _ 0 25 hlen]
      have hpl0 : pl = 0 := by
        rcases htgt with ⟨_, b⟩ | c
        · omega
        · rcases (by omega : pl = 0 ∨ pl = 1) with h | h
          · exact h
          · subst h
            exact absurd c (by decide)
      subst hpl0
      rw [show STONE 0 = (-1 : Int) from rfl] at hval ⊢
      omega
    · rw [getD_set_ne s.board _ 0 pt 25 h25]
      exact hsg.2

theorem bar_sign (s : State) (pl : Nat) (hpl : pl < 2) (hsg : SignInv s) :
    0 ≤ s.board.getD (BAR_FIELD pl) 0 * STONE pl := by
  rcases (by omega : pl = 0 ∨ pl = 1) with h | h <;> subst h
  · show 0 ≤ s.board.getD 25 0 * STONE 0
    rw [show STONE 0 = (-1 : Int) from rfl]
    have := hsg.2
    omega
  · show 0 ≤ s.board.getD 0 0 * STONE 1
    rw [show STONE 1 = (1 : Int) from rfl]
    have := hsg.1
    omega

theorem stoneTotal_bearOff_own (Z : ZTable) (pt pl : Nat) (s : State)
    (hb26 : s.board.length = 26) (hbe2 : s.bearOff.length = 2) (hpl : pl < 2)
    (hsrc : 1 ≤ pt ∧ pt ≤ 24 ∨ pt = BAR_FIELD pl)
    (hnum : 1 ≤ num_of_stones s pt pl) :
    stoneTotal (bearOff Z pt pl s) pl = stoneTotal s pl := by
  have hpt26 : pt < 26 := by
    rcases hsrc with ⟨a, b⟩ | c
    · omega
    · rw [c]
      exact BAR_FIELD_lt pl
  have hlen : pt < s.board.length := by rw [hb26]; exact hpt26
  obtain ⟨_, hef, _, _⟩ := removeStone_fields Z pt pl s hnum hlen
  have h1 : stoneTotal (bearOff Z pt pl s) pl = stoneTotal (removeStone Z pt pl s) pl + 1 := by
    rw [stoneTotal_eq_sum (bearOff Z pt pl s) pl,
      stoneTotal_eq_sum (removeStone Z pt pl s) pl]
    have hb : (bearOff Z pt pl s).board = (removeStone Z pt pl s).board := rfl
    have hfun : (fun i => num_of_stones (bearOff Z pt pl s) i pl)
        = (fun i => num_of_stones (removeStone Z pt pl s) i pl) :=
      funext fun i => num_of_stones_congr _ _ hb i pl
    have he : (bearOff Z pt pl s).bearOff
        = (removeStone Z pt pl s).bearOff.set pl (s.bearOff.getD pl 0 + 1) := rfl
    have hge : (bearOff Z pt pl s).bearOff.getD pl 0 = s.bearOff.getD pl 0 + 1 := by
      rw [he, hef]
      exact getD_set_self s.bearOff _ 0 pl (by rw [hbe2]; exact hpl)
    rw [hfun, hb, hge, hef]
    ring
  rw [h1, stoneTotal_removeStone_own Z pt pl s hb26 hsrc hnum]
  ring

theorem stoneTotal_bearOff_opp (Z : ZTable) (pt pl : Nat) (s : State)
    (hb26 : s.board.length = 26) (hpl : pl < 2)
    (hsrc : 1 ≤ pt ∧ pt ≤ 24 ∨ pt = BAR_FIELD pl)
    (hnum : 1 ≤ num_of_stones s pt pl) :
    stoneTotal (bearOff Z pt pl s) (1 - pl) = stoneTotal s (1 - pl) := by
  have hpt26 : pt < 26 := by
    rcases hsrc with ⟨a, b⟩ | c
    · omega
    · rw [c]
      exact BAR_FIELD_lt pl
  have hlen : pt < s.board.length := by rw [hb26]; exact hpt26
  obtain ⟨_, hef, _, _⟩ := removeStone_fields Z pt pl s hnum hlen
  have h1 : stoneTotal (bearOff Z pt pl s) (1 - pl)
      = stoneTotal (removeStone Z pt pl s) (1 - pl) := by
    rw [stoneTotal_eq_sum (bearOff Z pt pl s) (1 - pl),
      stoneTotal_eq_sum (removeStone Z pt pl s) (1 - pl)]
    have hb : (bearOff Z pt pl s).board = (removeStone Z pt pl s).board := rfl
    have hfun : (fun i => num_of_stones (bearOff Z pt pl s) i (1 - pl))
        = (fun i => num_of_stones (removeStone Z pt pl s) i (1 - pl)) :=
      funext fun i => num_of_stones_congr _ _ hb i (1 - pl)
    have he : (bearOff Z pt pl s).bearOff
        = (removeStone Z pt pl s).bearOff.set pl (s.bearOff.getD pl 0 + 1) := rfl
    have hge : (bearOff Z pt pl s).bearOff.getD (1 - pl) 0
        = (removeStone Z pt pl s).bearOff.getD (1 - pl) 0 := by
      rw [he]
      exact getD_set_ne _ _ 0 pl (1 - pl) (by omega)
    rw [hfun, hb, hge]
  rw [h1, stoneTotal_removeStone_opp Z pt pl s hb26 hpl hsrc hnum]

theorem moveStone_Inv (Z : ZTable) (f t pl : Nat) (s : State) (hInv : Inv s)
    (hpl : pl < 2)
    (hsrc : 1 ≤ f ∧ f ≤ 24 ∨ f = BAR_FIELD pl)
    (htgt : 1 ≤ t ∧ t ≤ 24 ∨ t = BAR_FIELD pl)
    (hnum : 1 ≤ num_of_stones s f pl)
    (hvt : t = f ∨ 0 ≤ s.board.getD t 0 * STONE pl) :
    Inv (moveStone Z f t pl s) := by
  obtain ⟨hWF, ht2, hstone, hsg, hbear, hmask⟩ := hInv
  have hf26 : f < 26 := by
    rcases hsrc with ⟨a, b⟩ | c
    · omega
    · rw [c]
      exact BAR_FIELD_lt pl
  have ht26 : t < 26 := by
    rcases htgt with ⟨a, b⟩ | c
    · omega
    · rw [c]
      exact BAR_FIELD_lt pl
  have hflen : f < s.board.length := by rw [hWF.1]; exact hf26
  obtain ⟨hbf, hef, htf, _⟩ := removeStone_fields Z f pl s hnum hflen
  have hWFr : WF (removeStone Z f pl s) := removeStone_WF Z f pl s hWF
  have hvalr : 0 ≤ (removeStone Z f pl s).board.getD t 0 * STONE pl := by
    have hstc := STONE_cases pl
    have hval := (num_ge_one_iff s f pl).mp hnum
    by_cases hft : t = f
    · subst hft
      rw [hbf, getD_set_self s.board _ 0 t hflen, sub_mul_self _ _ hstc]
      omega
    · rw [hbf, getD_set_ne s.board _ 0 f t (fun h => hft h.symm)]
      rcases hvt with h | h
      · exact absurd h hft
      · exact h
  refine ⟨moveStone_WF Z f t pl s hWF, ?_, ?_, ?_, ?_,
    moveStone_maskInv Z f t pl s hf26 ht26 hWF hmask⟩
  · have h2 : (moveStone Z f t pl s).turn = s.turn := by
      show (addStone Z t pl (removeStone Z f pl s)).turn = s.turn
      rw [(addStone_fields Z t pl _ (by rw [hWFr.1]; exact ht26)).2.2.1, htf]
    rw [h2]
    exact ht2
  · intro p hp
    rcases (by omega : p = pl ∨ p = 1 - pl) with hpp | hpp <;> rw [hpp]
    · show stoneTotal (addStone Z t pl (removeStone Z f pl s)) pl = _
      rw [stoneTotal_addStone_own Z t pl _ hWFr.1 htgt hvalr,
        stoneTotal_removeStone_own Z f pl s hWF.1 hsrc hnum]
      have := hstone pl hpl
      omega
    · show stoneTotal (addStone Z t pl (removeStone Z f pl s)) (1 - pl) = _
      rw [stoneTotal_addStone_opp Z t pl _ hWFr.1 hpl htgt hvalr,
        stoneTotal_removeStone_opp Z f pl s hWF.1 hpl hsrc hnum]
      exact hstone (1 - pl) (by omega)
  · show SignInv (addStone Z t pl (removeStone Z f pl s))
    exact signInv_addStone Z t pl _ hWFr.1 hpl htgt hvalr
      (signInv_removeStone Z f pl s hWF.1 hpl hsrc hnum hsg)
  · have he2 : (moveStone Z f t pl s).bearOff = s.bearOff := by
      show (addStone Z t pl (removeStone Z f pl s)).bearOff = s.bearOff
      rw [(addStone_fields Z t pl _ (by rw [hWFr.1]; exact ht26)).2.1, hef]
    unfold BearInv
    rw [he2]
    exact hbear

theorem bearOff_Inv (Z : ZTable) (pt pl : Nat) (s : State) (hInv : Inv s) (hpl : pl < 2)
    (hsrc : 1 ≤ pt ∧ pt ≤ 24 ∨ pt = BAR_FIELD pl)
    (hnum : 1 ≤ num_of_stones s pt pl) :
    Inv (bearOff Z pt pl s) := by
  obtain ⟨hWF, ht2, hstone, hsg, hbear, hmask⟩ := hInv
  have hpt26 : pt < 26 := by
    rcases hsrc with ⟨a, b⟩ | c
    · omega
    · rw [c]
      exact BAR_FIELD_lt pl
  have hlen : pt < s.board.length := by rw [hWF.1]; exact hpt26
  obtain ⟨hbf, hef, htf, _⟩ := removeStone_fields Z pt pl s hnum hlen
  refine ⟨bearOff_WF Z pt pl s hWF, ?_, ?_, ?_, ?_,
    bearOff_maskInv Z pt pl s hpt26 hWF hmask⟩
  · have h2 : (bearOff Z pt pl s).turn = s.turn := by
      show (removeStone Z pt pl s).turn = s.turn
      exact htf
    rw [h2]
    exact ht2
  · intro p hp
    rcases (by omega : p = pl ∨ p = 1 - pl) with hpp | hpp <;> rw [hpp]
    · rw [stoneTotal_bearOff_own Z pt pl s hWF.1 hWF.2.1 hpl hsrc hnum]
      exact hstone pl hpl
    · rw [stoneTotal_bearOff_opp Z pt pl s hWF.1 hpl hsrc hnum]
      exact hstone (1 - pl) (by omega)
  · exact signInv_removeStone Z pt pl s hWF.1 hpl hsrc hnum hsg
  · have he : (bearOff Z pt pl s).bearOff = s.bearOff.set pl (s.bearOff.getD pl 0 + 1) := by
      show (removeStone Z pt pl s).bearOff.set pl (s.bearOff.getD pl 0 + 1) = _
      rw [hef]
    unfold BearInv
    rw [he]
    have h0 := hbear.1
    have h1 := hbear.2
    constructor
    · rcases (by omega : pl = 0 ∨ pl = 1) with h | h <;> subst h
      · rw [getD_set_self s.bearOff _ 0 0 (by rw [hWF.2.1]; omega)]
        omega
      · rw [getD_set_ne s.bearOff _ 0 1 0 (by omega)]
        exact h0
    · rcases (by omega : pl = 0 ∨ pl = 1) with h | h <;> subst h
      · rw [getD_set_ne s.bearOff _ 0 0 1 (by omega)]
        exact h1
      · rw [getD_set_self s.bearOff _ 0 1 (by rw [hWF.2.1]; omega)]
        omega

theorem switchTurn_Inv (s : State) (hInv : Inv s) : Inv (switchTurn s) := by
  obtain ⟨hWF, ht2, hstone, hsg, hbear, hmask⟩ := hInv
  refine ⟨hWF, ?_, ?_, hsg, hbear, ?_⟩
  · show 1 - s.turn < 2
    omega
  · intro p hp
    rw [stoneTotal_congr (switchTurn s) s rfl rfl p]
    exact hstone p hp
  · exact maskInv_congr s (switchTurn s) rfl rfl rfl hmask

theorem applySM_Inv (Z : ZTable) (m : SingleMove) (s : State) (hInv : Inv s)
    (hap : Applicable s m) : Inv (applySM Z m s) := by
  obtain ⟨mp, mf, mt, mty, md⟩ := m
  rcases hap with ⟨hpl, hfrom, hnum, hN, hH⟩
  have hpl' : mp < 2 := hpl
  have hfrom' : 1 ≤ mf ∧ mf ≤ 24 ∨ mf = BAR_FIELD mp := hfrom
  have hnum' : 1 ≤ num_of_stones s mf mp := hnum
  cases mty
  case NORMAL =>
    obtain ⟨h1, h2, h3⟩ := hN rfl
    show Inv (moveStone Z mf mt mp s)
    exact moveStone_Inv Z mf mt mp s hInv hpl' hfrom' (Or.inl ⟨h1, h2⟩) hnum' (Or.inr h3)
  case BEAR_OFF =>
    show Inv (bearOff Z mf mp s)
    exact bearOff_Inv Z mf mp s hInv hpl' hfrom' hnum'
  case HIT =>
    obtain ⟨h1, h2, h3⟩ := hH rfl
    have h1' : 1 ≤ mt := h1
    have h2' : mt ≤ 24 := h2
    have h3' : num_of_stones s mt (1 - mp) = 1 := h3
    have hWF : WF s := hInv.1
    have hsg : SignInv s := hInv.2.2.2.1
    show Inv (moveStone Z mf mt mp (moveStone Z mt (BAR_FIELD (1 - mp)) (1 - mp) s))
    have hInv1 : Inv (moveStone Z mt (BAR_FIELD (1 - mp)) (1 - mp) s) :=
      moveStone_Inv Z mt (BAR_FIELD (1 - mp)) (1 - mp) s hInv (by omega)
        (Or.inl ⟨h1', h2'⟩) (Or.inr rfl) (le_of_eq h3'.symm)
        (Or.inr (bar_sign s (1 - mp) (by omega) hsg))
    have hstc := STONE_cases mp
    have hso := STONE_opp2 mp hpl'
    have hbar26 : BAR_FIELD (1 - mp) < 26 := BAR_FIELD_lt (1 - mp)
    have htbar : mt ≠ BAR_FIELD (1 - mp) := by
      unfold BAR_FIELD
      split <;> omega
    have hsbar : mf ≠ BAR_FIELD (1 - mp) := by
      rcases hfrom' with ⟨ha, hb⟩ | hc
      · unfold BAR_FIELD
        split <;> omega
      · rcases (by omega : mp = 0 ∨ mp = 1) with h | h <;> subst h <;> rw [hc] <;> decide
    have hc1 : 1 ≤ s.board.getD mt 0 * STONE (1 - mp) :=
      (num_ge_one_iff s mt (1 - mp)).mp (le_of_eq h3'.symm)
    have hbt : s.board.getD mt 0 * STONE (1 - mp) = 1 := by
      by_cases hv : 0 < s.board.getD mt 0 * STONE (1 - mp)
      · have heq : num_of_stones s mt (1 - mp)
            = s.board.getD mt 0 * STONE (1 - mp) := by
          show (if 0 < _ then _ else _) = _
          rw [if_pos hv]
        omega
      · omega
    have hst : mf ≠ mt := by
      intro h
      subst h
      have hx := (num_ge_one_iff s mf mp).mp hnum'
      rw [hso, mul_neg] at hbt
      omega
    have htlen : mt < s.board.length := by rw [hWF.1]; omega
    obtain ⟨hbA, _, _, _⟩ := removeStone_fields Z mt (1 - mp) s (le_of_eq h3'.symm) htlen
    have hlenA : (removeStone Z mt (1 - mp) s).board.length = s.board.length := by
      rw [hbA, List.length_set]
    obtain ⟨hbB, _, _, _⟩ := addStone_fields Z (BAR_FIELD (1 - mp)) (1 - mp)
      (removeStone Z mt (1 - mp) s) (by rw [hlenA, hWF.1]; exact hbar26)
    have hgetS : (moveStone Z mt (BAR_FIELD (1 - mp)) (1 - mp) s).board.getD mf 0
        = s.board.getD mf 0 := by
      show (addStone Z (BAR_FIELD (1 - mp)) (1 - mp)
        (removeStone Z mt (1 - mp) s)).board.getD mf 0 = _
      rw [hbB, getD_set_ne _ _ 0 _ mf (fun h => hsbar h.symm), hbA,
        getD_set_ne _ _ 0 _ _ (fun h => hst h.symm)]
    have hgetT : (moveStone Z mt (BAR_FIELD (1 - mp)) (1 - mp) s).board.getD mt 0
        = s.board.getD mt 0 - STONE (1 - mp) := by
      show (addStone Z (BAR_FIELD (1 - mp)) (1 - mp)
        (removeStone Z mt (1 - mp) s)).board.getD mt 0 = _
      rw [hbB, getD_set_ne _ _ 0 _ mt (fun h => htbar h.symm), hbA,
        getD_set_self s.board _ 0 mt htlen]
    refine moveStone_Inv Z mf mt mp _ hInv1 hpl' hfrom' (Or.inl ⟨h1', h2'⟩) ?_ (Or.inr ?_)
    · rw [num_ge_one_iff, hgetS]
      exact (num_ge_one_iff s mf mp).mp hnum'
    · rw [hgetT]
      rw [show STONE (1 - mp) = -STONE mp from STONE_opp2 mp hpl'] at hbt ⊢
      rw [mul_neg] at hbt
      rcases hstc with h | h <;> rw [h] at hbt ⊢ <;> ring_nf at hbt ⊢ <;> omega

/-! ## Construction from a position list establishes the invariants -/

/-- The loop body of `place_stones_from_list` as a named fold step. -/
def placeStep (player : Nat) (p : State × Int) (e : Int × Int) : State × Int :=
  if e.1 = -1 then
    ({ p.1 with bearOff := p.1.bearOff.set player (p.1.bearOff.getD player 0 + e.2) }, p.2)
  else
    ({ p.1 with board := p.1.board.set e.1.toNat (e.2 * STONE player) }, p.2 + e.2)

theorem placeEntries_eq_foldl (pl : Nat) (entries : List (Int × Int)) (s : State) :
    placeEntries pl entries s = entries.foldl (placeStep pl) (s, 0) := rfl

theorem boardPoints_cons (e : Int × Int) (l : List (Int × Int)) :
    boardPoints (e :: l) = if e.1 = -1 then boardPoints l else e.1 :: boardPoints l := by
  unfold boardPoints
  by_cases h : e.1 = -1 <;> simp [List.filter_cons, h]

theorem mem_boardPoints (e : Int × Int) (entries : List (Int × Int))
    (he : e ∈ entries) (hne : e.1 ≠ -1) : e.1 ∈ boardPoints entries := by
  unfold boardPoints
  rw [List.mem_map]
  exact ⟨e, List.mem_filter.mpr ⟨he, by simp [hne]⟩, rfl⟩

theorem stoneTotal_counter_set (s : State) (pl : Nat) (v : Int)
    (hpl : pl < s.bearOff.length) :
    stoneTotal { s with bearOff := s.bearOff.set pl v } pl
      = stoneTotal s pl + (v - s.bearOff.getD pl 0) := by
  rw [stoneTotal_eq_sum, stoneTotal_eq_sum]
  have hb : ({ s with bearOff := s.bearOff.set pl v } : State).board = s.board := rfl
  have hfun : (fun i => num_of_stones { s with bearOff := s.bearOff.set pl v } i pl)
      = (fun i => num_of_stones s i pl) :=
    funext fun i => num_of_stones_congr _ _ hb i pl
  have hge : ({ s with bearOff := s.bearOff.set pl v } : State).bearOff.getD pl 0 = v :=
    getD_set_self s.bearOff v 0 pl hpl
  rw [hfun, hb, hge]
  ring

theorem stoneTotal_counter_set_opp (s : State) (pl : Nat) (v : Int) (hpl : pl < 2) :
    stoneTotal { s with bearOff := s.bearOff.set pl v } (1 - pl)
      = stoneTotal s (1 - pl) := by
  rw [stoneTotal_eq_sum, stoneTotal_eq_sum]
  have hb : ({ s with bearOff := s.bearOff.set pl v } : State).board = s.board := rfl
  have hfun : (fun i => num_of_stones { s with bearOff := s.bearOff.set pl v } i (1 - pl))
      = (fun i => num_of_stones s i (1 - pl)) :=
    funext fun i => num_of_stones_congr _ _ hb i (1 - pl)
  have hge : ({ s with bearOff := s.bearOff.set pl v } : State).bearOff.getD (1 - pl) 0
      = s.bearOff.getD (1 - pl) 0 :=
    getD_set_ne s.bearOff v 0 pl (1 - pl) (by omega)
  rw [hfun, hb, hge]

theorem validEntry_board (pl : Nat) (e : Int × Int) (h : ValidEntry pl e)
    (hne : e.1 ≠ -1) :
    0 ≤ e.1 ∧ (1 ≤ e.1 ∧ e.1 ≤ 24 ∨ e.1.toNat = BAR_FIELD pl) ∧ 0 < e.2 := by
  rcases h with ⟨h1, _⟩ | ⟨hr, hp⟩
  · exact absurd h1 hne
  · rcases hr with ⟨a, b⟩ | c
    · have a' : (1 : Int) ≤ e.1 := a
      have b' : e.1 ≤ (24 : Int) := b
      exact ⟨by omega, Or.inl ⟨a', b'⟩, hp⟩
    · refine ⟨by rw [c]; omega, Or.inr (by rw [c]; omega), hp⟩

theorem placeFold_spec (pl : Nat) (hpl : pl < 2) (entries : List (Int × Int)) :
    ∀ (s : State) (t : Int),
    (∀ e ∈ entries, ValidEntry pl e) →
    (boardPoints entries).Nodup →
    (∀ e ∈ entries, e.1 ≠ -1 → s.board.getD e.1.toNat 0 = 0) →
    s.board.length = 26 →
    pl < s.bearOff.length →
    (entries.foldl (placeStep pl) (s, t)).1.board.length = 26 ∧
    (entries.foldl (placeStep pl) (s, t)).1.bearOff.length = s.bearOff.length ∧
    (entries.foldl (placeStep pl) (s, t)).1.turn = s.turn ∧
    (entries.foldl (placeStep pl) (s, t)).1.occMask = s.occMask ∧
    (entries.foldl (placeStep pl) (s, t)).1.blockedMask = s.blockedMask ∧
    stoneTotal (entries.foldl (placeStep pl) (s, t)).1 pl
      = stoneTotal s pl + ((entries.foldl (placeStep pl) (s, t)).2 - t)
        + ((entries.foldl (placeStep pl) (s, t)).1.bearOff.getD pl 0
            - s.bearOff.getD pl 0) ∧
    stoneTotal (entries.foldl (placeStep pl) (s, t)).1 (1 - pl)
      = stoneTotal s (1 - pl) ∧
    (entries.foldl (placeStep pl) (s, t)).1.bearOff.getD (1 - pl) 0
      = s.bearOff.getD (1 - pl) 0 ∧
    s.bearOff.getD pl 0 ≤ (entries.foldl (placeStep pl) (s, t)).1.bearOff.getD pl 0 ∧
    (∀ q : Nat, (q : Int) ∉ boardPoints entries →
      (entries.foldl (placeStep pl) (s, t)).1.board.getD q 0 = s.board.getD q 0) ∧
    (∀ q : Nat, 0 ≤ s.board.getD q 0 * STONE pl →
      0 ≤ (entries.foldl (placeStep pl) (s, t)).1.board.getD q 0 * STONE pl) := by
  induction entries with
  | nil =>
    intro s t _ _ _ hb26 _
    exact ⟨hb26, rfl, rfl, rfl, rfl,
      by show stoneTotal s pl = stoneTotal s pl + (t - t)
          + (s.bearOff.getD pl 0 - s.bearOff.getD pl 0); ring,
      rfl, rfl, le_refl _, fun q _ => rfl, fun q h => h⟩
  | cons e rest ih =>
    intro s t hval hnd hfresh hb26 hbe
    rw [List.foldl_cons]
    by_cases hcase : e.1 = -1
    · have hstep : placeStep pl (s, t) e
          = ({ s with bearOff := s.bearOff.set pl (s.bearOff.getD pl 0 + e.2) }, t) := by
        unfold placeStep
        rw [if_pos hcase]
      rw [hstep]
      have he2 : 0 ≤ e.2 := by
        rcases hval e (List.mem_cons_self e rest) with ⟨_, h2⟩ | ⟨h1, _⟩
        · exact h2
        · exfalso
          rcases h1 with ⟨ha, _⟩ | hc
          · have ha' : (1 : Int) ≤ e.1 := ha
            omega
          · rw [hcase] at hc
            omega
      obtain ⟨i1, i2, i3, i4, i5, i6, i7, i8, i9, i10, i11⟩ :=
        ih { s with bearOff := s.bearOff.set pl (s.bearOff.getD pl 0 + e.2) } t
          (fun e' he' => hval e' (List.mem_cons_of_mem e he'))
          (by rw [boardPoints_cons, if_pos hcase] at hnd; exact hnd)
          (fun e' he' hne' => hfresh e' (List.mem_cons_of_mem e he') hne')
          hb26
          (by show pl < (s.bearOff.set pl _).length; rw [List.length_set]; exact hbe)
      have hs'g : ({ s with bearOff := s.bearOff.set pl (s.bearOff.getD pl 0 + e.2) } :
          State).bearOff.getD pl 0 = s.bearOff.getD pl 0 + e.2 :=
        getD_set_self s.bearOff _ 0 pl hbe
      have hs'go : ({ s with bearOff := s.bearOff.set pl (s.bearOff.getD pl 0 + e.2) } :
          State).bearOff.getD (1 - pl) 0 = s.bearOff.getD (1 - pl) 0 :=
        getD_set_ne s.bearOff _ 0 pl (1 - pl) (by omega)
      refine ⟨i1, ?_, i3, i4, i5, ?_, ?_, ?_, ?_, ?_, i11⟩
      · rw [i2]
        show (s.bearOff.set pl _).length = _
        rw [List.length_set]
      · rw [i6, hs'g, stoneTotal_counter_set s pl _ hbe]
        omega
      · rw [i7, stoneTotal_counter_set_opp s pl _ hpl]
      · rw [i8, hs'go]
      · rw [hs'g] at i9
        omega
      · intro q hq
        rw [boardPoints_cons, if_pos hcase] at hq
        exact i10 q hq
    · obtain ⟨he1nn, hq0range, hpos⟩ :=
        validEntry_board pl e (hval e (List.mem_cons_self e rest)) hcase
      have hq026 : e.1.toNat < 26 := by
        rcases hq0range with ⟨a, b⟩ | c
        · omega
        · rw [c]
          exact BAR_FIELD_lt pl
      have hq0lt : e.1.toNat < s.board.length := by rw [hb26]; exact hq026
      have hfresh0 : s.board.getD e.1.toNat 0 = 0 :=
        hfresh e (List.mem_cons_self e rest) hcase
      have hstep : placeStep pl (s, t) e
          = ({ s with board := s.board.set e.1.toNat (e.2 * STONE pl) }, t + e.2) := by
        unfold placeStep
        rw [if_neg hcase]
      rw [hstep]
      rw [boardPoints_cons, if_neg hcase] at hnd
      have hnotmem : e.1 ∉ boardPoints rest := (List.nodup_cons.mp hnd).1
      have hndr : (boardPoints rest).Nodup := (List.nodup_cons.mp hnd).2
      have hstc := STONE_cases pl
      have hvst : e.2 * STONE pl * STONE pl = e.2 := by
        rcases hstc with h | h <;> rw [h] <;> ring
      obtain ⟨i1, i2, i3, i4, i5, i6, i7, i8, i9, i10, i11⟩ :=
        ih { s with board := s.board.set e.1.toNat (e.2 * STONE pl) } (t + e.2)
          (fun e' he' => hval e' (List.mem_cons_of_mem e he'))
          hndr
          (by
            intro e' he' hne'
            obtain ⟨he1nn', _, _⟩ :=
              validEntry_board pl e' (hval e' (List.mem_cons_of_mem e he')) hne'
            have hmem' : e'.1 ∈ boardPoints rest := mem_boardPoints e' rest he' hne'
            have hne : e'.1 ≠ e.1 := fun h => hnotmem (h ▸ hmem')
            have hnn : e'.1.toNat ≠ e.1.toNat := by omega
            show (s.board.set e.1.toNat (e.2 * STONE pl)).getD e'.1.toNat 0 = 0
            rw [getD_set_ne s.board _ 0 e.1.toNat _ (fun h => hnn h.symm)]
            exact hfresh e' (List.mem_cons_of_mem e he') hne')
          (by show (s.board.set _ _).length = 26; rw [List.length_set]; exact hb26)
          hbe
      refine ⟨i1, i2, i3, i4, i5, ?_, ?_, i8, i9, ?_, ?_⟩
      · have hdelta : stoneTotal
            { s with board := s.board.set e.1.toNat (e.2 * STONE pl) } pl
            = stoneTotal s pl + e.2 := by
          rw [stoneTotal_set s e.1.toNat (e.2 * STONE pl) pl hb26 hq026]
          rcases hq0range with ⟨a, b⟩ | c
          · rw [if_pos (by omega : 1 ≤ e.1.toNat ∧ e.1.toNat ≤ 24),
              if_neg (by unfold BAR_FIELD; split <;> omega)]
            have hnew : num_of_stones
                { s with board := s.board.set e.1.toNat (e.2 * STONE pl) } e.1.toNat pl
                = e.2 := by
              show (if 0 < (s.board.set e.1.toNat (e.2 * STONE pl)).getD e.1.toNat 0
                * STONE pl then _ else _) = _
              rw [getD_set_self s.board _ 0 e.1.toNat hq0lt, hvst, if_pos hpos]
            have hold : num_of_stones s e.1.toNat pl = 0 := by
              show (if 0 < s.board.getD e.1.toNat 0 * STONE pl then _ else _) = (0 : Int)
              rw [hfresh0]
              simp
            rw [hnew, hold]
            ring
          · rw [if_neg (by rw [c]; unfold BAR_FIELD; split <;> omega), if_pos c, hfresh0]
            have habs : |e.2 * STONE pl| = e.2 := by
              rcases hstc with h | h <;> rw [h]
              · rw [mul_neg_one, abs_neg, abs_of_pos hpos]
              · rw [mul_one, abs_of_pos hpos]
            rw [habs, abs_zero]
            ring
        rw [i6, hdelta]
        have hbeq : ({ s with board := s.board.set e.1.toNat (e.2 * STONE pl) } :
            State).bearOff = s.bearOff := rfl
        rw [hbeq]
        omega
      · have hdeltao : stoneTotal
            { s with board := s.board.set e.1.toNat (e.2 * STONE pl) } (1 - pl)
            = stoneTotal s (1 - pl) := by
          rw [stoneTotal_set s e.1.toNat (e.2 * STONE pl) (1 - pl) hb26 hq026]
          have hvso : e.2 * STONE pl * STONE (1 - pl) = -e.2 := by
            rw [STONE_opp2 pl hpl]
            rcases hstc with h | h <;> rw [h] <;> ring
          rcases hq0range with ⟨a, b⟩ | c
          · rw [if_pos (by omega : 1 ≤ e.1.toNat ∧ e.1.toNat ≤ 24),
              if_neg (by unfold BAR_FIELD; split <;> omega)]
            have hnew : num_of_stones
                { s with board := s.board.set e.1.toNat (e.2 * STONE pl) } e.1.toNat
                (1 - pl) = 0 := by
              show (if 0 < (s.board.set e.1.toNat (e.2 * STONE pl)).getD e.1.toNat 0
                * STONE (1 - pl) then _ else _) = (0 : Int)
              rw [getD_set_self s.board _ 0 e.1.toNat hq0lt, hvso, if_neg (by omega)]
            have hold : num_of_stones s e.1.toNat (1 - pl) = 0 := by
              show (if 0 < s.board.getD e.1.toNat 0 * STONE (1 - pl) then _ else _)
                = (0 : Int)
              rw [hfresh0]
              simp
            rw [hnew, hold]
            ring
          · rw [if_neg (by rw [c]; unfold BAR_FIELD; split <;> omega),
              if_neg (by
                rw [c]
                rcases (by omega : pl = 0 ∨ pl = 1) with h | h <;> subst h <;> decide)]
            ring
        rw [i7, hdeltao]
      · intro q hq
        rw [boardPoints_cons, if_neg hcase, List.mem_cons] at hq
        push_neg at hq
        obtain ⟨hq1, hq2⟩ := hq
        rw [i10 q hq2]
        show (s.board.set e.1.toNat (e.2 * STONE pl)).getD q 0 = s.board.getD q 0
        exact getD_set_ne s.board _ 0 e.1.toNat q (by omega)
      · intro q hsq
        apply i11 q
        show 0 ≤ (s.board.set e.1.toNat (e.2 * STONE pl)).getD q 0 * STONE pl
        by_cases hqq : q = e.1.toNat
        · subst hqq
          rw [getD_set_self s.board _ 0 e.1.toNat hq0lt, hvst]
          omega
        · rw [getD_set_ne s.board _ 0 e.1.toNat q (fun h => hqq h.symm)]
          exact hsq

theorem replicate_getD (n q : Nat) : (List.replicate n (0 : Int)).getD q 0 = 0 := by
  rcases Nat.lt_or_ge q n with h | h
  · rw [List.getD_eq_getElem?_getD, List.getElem?_replicate, if_pos h]
    rfl
  · rw [List.getD_eq_getElem?_getD, List.getElem?_replicate, if_neg (by omega)]
    rfl

theorem mem_boardPoints_inv (entries : List (Int × Int)) (q : Int)
    (h : q ∈ boardPoints entries) : ∃ e ∈ entries, e.1 = q ∧ e.1 ≠ -1 := by
  unfold boardPoints at h
  rw [List.mem_map] at h
  obtain ⟨e, hmem, hfst⟩ := h
  rw [List.mem_filter] at hmem
  refine ⟨e, hmem.1, hfst, ?_⟩
  have := hmem.2
  simp at this
  exact this

theorem boardPoints_valid_range (pl : Nat) (entries : List (Int × Int))
    (hval : ∀ e ∈ entries, ValidEntry pl e) (q : Int) (h : q ∈ boardPoints entries) :
    1 ≤ q ∧ q ≤ 24 ∨ q.toNat = BAR_FIELD pl ∧ 0 ≤ q := by
  obtain ⟨e, hmem, hfst, hne⟩ := mem_boardPoints_inv entries q h
  obtain ⟨hnn, hr, _⟩ := validEntry_board pl e (hval e hmem) hne
  rcases hr with ⟨a, b⟩ | c
  · left
    omega
  · right
    constructor <;> omega

theorem mkState_Inv (Z : ZTable) (pos : List (List (Int × Int))) (sp : Nat) (s : State)
    (hvp : ValidPositions pos) (hsp : sp < 2) (hmk : mkState Z pos sp = some s) :
    Inv s := by
  obtain ⟨hlen2, hval, hnd0, hnd1, hdisj⟩ := hvp
  have hmk' : (placeStonesFromList pos { emptyState with turn := sp }).map
      (fun s => { s with zhash := scratchHash Z s }) = some s := hmk
  rw [Option.map_eq_some'] at hmk'
  obtain ⟨a, hps, hfa⟩ := hmk'
  simp only [placeStonesFromList] at hps
  rw [placeEntries_eq_foldl, placeEntries_eq_foldl] at hps
  split at hps
  · exact Option.noConfusion hps
  next h0 =>
    split at hps
    · exact Option.noConfusion hps
    next h1 =>
      have ha := Option.some.inj hps
      subst ha
      subst hfa
      rw [not_ne_iff] at h0 h1
      have h0' : ((pos.getD 0 []).foldl (placeStep 0) ({ emptyState with turn := sp }, 0)).2
          + ((pos.getD 0 []).foldl (placeStep 0)
            ({ emptyState with turn := sp }, 0)).1.bearOff.getD 0 0
          = NUM_OF_ALL_STONES := h0
      have h1' : ((pos.getD 1 []).foldl (placeStep 1)
            (((pos.getD 0 []).foldl (placeStep 0)
              ({ emptyState with turn := sp }, 0)).1, 0)).2
          + ((pos.getD 1 []).foldl (placeStep 1)
            (((pos.getD 0 []).foldl (placeStep 0)
              ({ emptyState with turn := sp }, 0)).1, 0)).1.bearOff.getD 1 0
          = NUM_OF_ALL_STONES := h1
      clear h0 h1
      have hfresh0 : ∀ e ∈ pos.getD 0 [], e.1 ≠ -1 →
          ({ emptyState with turn := sp } : State).board.getD e.1.toNat 0 = 0 := by
        intro e _ _
        show (List.replicate 26 (0 : Int)).getD e.1.toNat 0 = 0
        exact replicate_getD 26 _
      obtain ⟨j1, j2, j3, j4, j5, j6, j7, j8, j9, j10, j11⟩ :=
        placeFold_spec 0 (by omega) (pos.getD 0 []) { emptyState with turn := sp } 0
          (hval 0 (by omega)) hnd0 hfresh0
          (by show (List.replicate 26 (0 : Int)).length = 26; simp)
          (by show 0 < ([0, 0] : List Int).length; decide)
      have hfresh1 : ∀ e ∈ pos.getD 1 [], e.1 ≠ -1 →
          ((pos.getD 0 []).foldl (placeStep 0)
            ({ emptyState with turn := sp }, 0)).1.board.getD e.1.toNat 0 = 0 := by
        intro e hmem hne
        obtain ⟨hnn, _, _⟩ := validEntry_board 1 e (hval 1 (by omega) e hmem) hne
        have hm1 : e.1 ∈ boardPoints (pos.getD 1 []) := mem_boardPoints e _ hmem hne
        have hnot0 : ((e.1.toNat : Nat) : Int) ∉ boardPoints (pos.getD 0 []) := by
          rw [show ((e.1.toNat : Nat) : Int) = e.1 by omega]
          intro hc
          exact hdisj e.1 hc hm1
        rw [j10 e.1.toNat hnot0]
        show (List.replicate 26 (0 : Int)).getD e.1.toNat 0 = 0
        exact replicate_getD 26 _
      obtain ⟨k1, k2, k3, k4, k5, k6, k7, k8, k9, k10, k11⟩ :=
        placeFold_spec 1 (by omega) (pos.getD 1 [])
          ((pos.getD 0 []).foldl (placeStep 0) ({ emptyState with turn := sp }, 0)).1 0
          (hval 1 (by omega)) hnd1 hfresh1 j1
          (by rw [j2]; show (1 : Nat) < 2; omega)
      have hge00 : ({ emptyState with turn := sp } : State).bearOff.getD 0 0 = 0 := rfl
      have hge01 : ({ emptyState with turn := sp } : State).bearOff.getD 1 0 = 0 := rfl
      have hS00 : stoneTotal { emptyState with turn := sp } 0 = 0 := by
        rw [stoneTotal_congr { emptyState with turn := sp } emptyState rfl rfl 0]
        decide
      have hS01 : stoneTotal { emptyState with turn := sp } 1 = 0 := by
        rw [stoneTotal_congr { emptyState with turn := sp } emptyState rfl rfl 1]
        decide
      refine ⟨⟨?_, ?_, rfl, rfl⟩, ?_, ?_, ?_, ?_, ?_⟩
      · show ((pos.getD 1 []).foldl (placeStep 1)
          (((pos.getD 0 []).foldl (placeStep 0)
            ({ emptyState with turn := sp }, 0)).1, 0)).1.board.length = 26
        exact k1
      · show ((pos.getD 1 []).foldl (placeStep 1)
          (((pos.getD 0 []).foldl (placeStep 0)
            ({ emptyState with turn := sp }, 0)).1, 0)).1.bearOff.length = 2
        rw [k2, j2]
        rfl
      · show ((pos.getD 1 []).foldl (placeStep 1)
          (((pos.getD 0 []).foldl (placeStep 0)
            ({ emptyState with turn := sp }, 0)).1, 0)).1.turn < 2
        rw [k3, j3]
        exact hsp
      · intro p hp
        have hcongr : stoneTotal { recomputeMasks ((pos.getD 1 []).foldl (placeStep 1)
            (((pos.getD 0 []).foldl (placeStep 0)
              ({ emptyState with turn := sp }, 0)).1, 0)).1 with
            zhash := scratchHash Z (recomputeMasks ((pos.getD 1 []).foldl (placeStep 1)
              (((pos.getD 0 []).foldl (placeStep 0)
                ({ emptyState with turn := sp }, 0)).1, 0)).1) } p
            = stoneTotal ((pos.getD 1 []).foldl (placeStep 1)
              (((pos.getD 0 []).foldl (placeStep 0)
                ({ emptyState with turn := sp }, 0)).1, 0)).1 p :=
          stoneTotal_congr _ _ rfl rfl p
        rw [hcongr]
        rcases (by omega : p = 0 ∨ p = 1) with h | h <;> subst h
        · have k7' : stoneTotal ((pos.getD 1 []).foldl (placeStep 1)
              (((pos.getD 0 []).foldl (placeStep 0)
                ({ emptyState with turn := sp }, 0)).1, 0)).1 0
              = stoneTotal ((pos.getD 0 []).foldl (placeStep 0)
                ({ emptyState with turn := sp }, 0)).1 0 := k7
          rw [k7', j6, hS00, hge00]
          omega
        · have k6' := k6
          rw [j7, hS01] at k6'
          have j8' : ((pos.getD 0 []).foldl (placeStep 0)
              ({ emptyState with turn := sp }, 0)).1.bearOff.getD 1 0 = 0 := by
            rw [show ((pos.getD 0 []).foldl (placeStep 0)
              ({ emptyState with turn := sp }, 0)).1.bearOff.getD 1 0
                = ({ emptyState with turn := sp } : State).bearOff.getD 1 0 from j8, hge01]
          rw [k6', j8']
          omega
      · constructor
        · show 0 ≤ ((pos.getD 1 []).foldl (placeStep 1)
            (((pos.getD 0 []).foldl (placeStep 0)
              ({ emptyState with turn := sp }, 0)).1, 0)).1.board.getD 0 0
          have hnot0 : ((0 : Nat) : Int) ∉ boardPoints (pos.getD 0 []) := by
            intro hc
            rcases boardPoints_valid_range 0 (pos.getD 0 []) (hval 0 (by omega)) 0 hc with
              ⟨a1, b1⟩ | ⟨c1, d1⟩
            · omega
            · have : ((0 : Int)).toNat = BAR_FIELD 0 := c1
              rw [show BAR_FIELD 0 = 25 from rfl] at this
              omega
          have hF0 : ((pos.getD 0 []).foldl (placeStep 0)
              ({ emptyState with turn := sp }, 0)).1.board.getD 0 0 = 0 := by
            rw [j10 0 hnot0]
            show (List.replicate 26 (0 : Int)).getD 0 0 = 0
            exact replicate_getD 26 0
          have hk := k11 0 (by rw [hF0]; simp)
          rw [show STONE 1 = (1 : Int) from rfl, mul_one] at hk
          exact hk
        · show ((pos.getD 1 []).foldl (placeStep 1)
            (((pos.getD 0 []).foldl (placeStep 0)
              ({ emptyState with turn := sp }, 0)).1, 0)).1.board.getD 25 0 ≤ 0
          have hnot25 : ((25 : Nat) : Int) ∉ boardPoints (pos.getD 1 []) := by
            intro hc
            rcases boardPoints_valid_range 1 (pos.getD 1 []) (hval 1 (by omega)) 25 hc with
              ⟨a1, b1⟩ | ⟨c1, d1⟩
            · omega
            · have : ((25 : Int)).toNat = BAR_FIELD 1 := c1
              rw [show BAR_FIELD 1 = 0 from rfl] at this
              omega
          have hj := j11 25 (by
            show 0 ≤ ({ emptyState with turn := sp } : State).board.getD 25 0 * STONE 0
            show 0 ≤ (List.replicate 26 (0 : Int)).getD 25 0 * STONE 0
            rw [replicate_getD 26 25]
            simp)
          rw [k10 25 hnot25]
          rw [show STONE 0 = (-1 : Int) from rfl] at hj
          omega
      · constructor
        · show 0 ≤ ((pos.getD 1 []).foldl (placeStep 1)
            (((pos.getD 0 []).foldl (placeStep 0)
              ({ emptyState with turn := sp }, 0)).1, 0)).1.bearOff.getD 0 0
          have k8' : ((pos.getD 1 []).foldl (placeStep 1)
              (((pos.getD 0 []).foldl (placeStep 0)
                ({ emptyState with turn := sp }, 0)).1, 0)).1.bearOff.getD 0 0
              = ((pos.getD 0 []).foldl (placeStep 0)
                ({ emptyState with turn := sp }, 0)).1.bearOff.getD 0 0 := k8
          rw [k8']
          have := j9
          rw [hge00] at this
          exact this
        · show 0 ≤ ((pos.getD 1 []).foldl (placeStep 1)
            (((pos.getD 0 []).foldl (placeStep 0)
              ({ emptyState with turn := sp }, 0)).1, 0)).1.bearOff.getD 1 0
          have j8' : ((pos.getD 0 []).foldl (placeStep 0)
              ({ emptyState with turn := sp }, 0)).1.bearOff.getD 1 0 = 0 := by
            rw [show ((pos.getD 0 []).foldl (placeStep 0)
              ({ emptyState with turn := sp }, 0)).1.bearOff.getD 1 0
                = ({ emptyState with turn := sp } : State).bearOff.getD 1 0 from j8, hge01]
          have := k9
          rw [j8'] at this
          exact this
      · intro p hp
        rcases (by omega : p = 0 ∨ p = 1) with h | h <;> subst h <;> exact ⟨rfl, rfl⟩

theorem reachable_Inv (Z : ZTable) (s : State) (h : Reachable Z s) : Inv s := by
  induction h with
  | start pos sp s hvp hsp hmk => exact mkState_Inv Z pos sp s hvp hsp hmk
  | step s die sm hr hmem ih =>
      exact applySM_Inv Z sm s ih
        (generateMoves_applicable s die sm ih.2.2.2.2.2 ih.2.2.2.1 ih.2.1 hmem).1
  | flip s hr ih => exact switchTurn_Inv s ih

/-- C3: every state reachable from a valid starting position by legal
moves satisfies the maintained invariant: for each player, the stones on
board points 1..24 plus the player's bar anchor plus the borne-off counter
total 15, the occupancy bit of a point is set iff the player has at least
one stone there, and the blocked bit is set iff the opponent has at least
two stones there. -/
theorem reachable_invariants (Z : ZTable) (s : State) (h : Reachable Z s) :
    ∀ p, p < 2 →
      stoneTotal s p = NUM_OF_ALL_STONES ∧
      (∀ i, (s.occMask.getD p 0).testBit i = true ↔
        i < 26 ∧ 1 ≤ num_of_stones s i p) ∧
      (∀ i, (s.blockedMask.getD p 0).testBit i = true ↔
        i < 26 ∧ 2 ≤ num_of_stones s i (1 - p)) := by
  have hInv := reachable_Inv Z s h
  intro p hp
  refine ⟨hInv.2.2.1 p hp, ?_, ?_⟩
  · intro i
    rw [(hInv.2.2.2.2.2 p hp).1, testBit_canonOcc_iff]
    constructor
    · rintro ⟨h26, hpos⟩
      exact ⟨h26, (num_ge_one_iff s i p).mpr (by omega)⟩
    · rintro ⟨h26, hone⟩
      exact ⟨h26, by have := (num_ge_one_iff s i p).mp hone; omega⟩
  · intro i
    rw [(hInv.2.2.2.2.2 p hp).2, testBit_canonBlocked_iff]
    constructor
    · rintro ⟨h26, htwo⟩
      exact ⟨h26, (num_ge_two_iff s i (1 - p)).mpr htwo⟩
    · rintro ⟨h26, htwo⟩
      exact ⟨h26, (num_ge_two_iff s i (1 - p)).mp htwo⟩

/-- Witness for C3 at a concrete input: the start-of-game state, reached
by constructing from `DEFAULT_POSITIONS`. -/
theorem reachable_invariants_witness :
    stoneTotal startState 0 = NUM_OF_ALL_STONES ∧
    (∀ i, (startState.occMask.getD 0 0).testBit i = true ↔
      i < 26 ∧ 1 ≤ num_of_stones startState i 0) ∧
    (∀ i, (startState.blockedMask.getD 0 0).testBit i = true ↔
      i < 26 ∧ 2 ≤ num_of_stones startState i (1 - 0)) :=
  reachable_invariants Ztwo startState
    (Reachable.start DEFAULT_POSITIONS 0 startState (by decide) (by omega) (by decide))
    0 (by omega)

/-! ## Pointwise reconstruction by the placement fold (toward C8) -/

theorem placeFold_fields2 (pl : Nat) (entries : List (Int × Int)) :
    ∀ (s : State) (t : Int),
    (entries.foldl (placeStep pl) (s, t)).1.board.length = s.board.length ∧
    (entries.foldl (placeStep pl) (s, t)).1.bearOff.length = s.bearOff.length ∧
    (entries.foldl (placeStep pl) (s, t)).1.turn = s.turn ∧
    (entries.foldl (placeStep pl) (s, t)).1.occMask = s.occMask ∧
    (entries.foldl (placeStep pl) (s, t)).1.blockedMask = s.blockedMask := by
  induction entries with
  | nil => intro s t; exact ⟨rfl, rfl, rfl, rfl, rfl⟩
  | cons e rest ih =>
    intro s t
    rw [List.foldl_cons]
    by_cases hcase : e.1 = -1
    · have hstep : placeStep pl (s, t) e
          = ({ s with bearOff := s.bearOff.set pl (s.bearOff.getD pl 0 + e.2) }, t) := by
        unfold placeStep
        rw [if_pos hcase]
      rw [hstep]
      obtain ⟨i1, i2, i3, i4, i5⟩ := ih
        { s with bearOff := s.bearOff.set pl (s.bearOff.getD pl 0 + e.2) } t
      exact ⟨i1, by rw [i2]; show (s.bearOff.set pl _).length = _; rw [List.length_set],
        i3, i4, i5⟩
    · have hstep : placeStep pl (s, t) e
          = ({ s with board := s.board.set e.1.toNat (e.2 * STONE pl) }, t + e.2) := by
        unfold placeStep
        rw [if_neg hcase]
      rw [hstep]
      obtain ⟨i1, i2, i3, i4, i5⟩ := ih
        { s with board := s.board.set e.1.toNat (e.2 * STONE pl) } (t + e.2)
      exact ⟨by rw [i1]; show (s.board.set _ _).length = _; rw [List.length_set],
        i2, i3, i4, i5⟩

theorem placeFold_getD_notmem (pl : Nat) (entries : List (Int × Int)) :
    ∀ (s : State) (t : Int) (q : Nat),
    (∀ e ∈ entries, e.1 ≠ -1 → 0 ≤ e.1) →
    ((q : Int) ∉ boardPoints entries) →
    (entries.foldl (placeStep pl) (s, t)).1.board.getD q 0 = s.board.getD q 0 := by
  induction entries with
  | nil => intro s t q _ _; rfl
  | cons e rest ih =>
    intro s t q hnn hq
    rw [List.foldl_cons]
    by_cases hcase : e.1 = -1
    · have hstep : placeStep pl (s, t) e
          = ({ s with bearOff := s.bearOff.set pl (s.bearOff.getD pl 0 + e.2) }, t) := by
        unfold placeStep
        rw [if_pos hcase]
      rw [hstep]
      rw [boardPoints_cons, if_pos hcase] at hq
      exact ih _ t q (fun e' he' => hnn e' (List.mem_cons_of_mem e he')) hq
    · have hstep : placeStep pl (s, t) e
          = ({ s with board := s.board.set e.1.toNat (e.2 * STONE pl) }, t + e.2) := by
        unfold placeStep
        rw [if_neg hcase]
      rw [hstep]
      rw [boardPoints_cons, if_neg hcase, List.mem_cons] at hq
      push_neg at hq
      obtain ⟨hq1, hq2⟩ := hq
      have hnn0 : 0 ≤ e.1 := hnn e (List.mem_cons_self e rest) hcase
      rw [ih _ (t + e.2) q (fun e' he' => hnn e' (List.mem_cons_of_mem e he')) hq2]
      show (s.board.set e.1.toNat (e.2 * STONE pl)).getD q 0 = s.board.getD q 0
      exact getD_set_ne s.board _ 0 e.1.toNat q (by omega)

theorem placeFold_getD_mem (pl : Nat) (entries : List (Int × Int)) :
    ∀ (s : State) (t : Int) (e : Int × Int),
    e ∈ entries → e.1 ≠ -1 →
    (∀ e' ∈ entries, e'.1 ≠ -1 → 0 ≤ e'.1) →
    (boardPoints entries).Nodup → e.1.toNat < s.board.length →
    (entries.foldl (placeStep pl) (s, t)).1.board.getD e.1.toNat 0 = e.2 * STONE pl := by
  induction entries with
  | nil => intro s t e hmem; exact absurd hmem (List.not_mem_nil e)
  | cons e' rest ih =>
    intro s t e hmem hne hnn hnd hlt
    rw [List.foldl_cons]
    rcases List.mem_cons.mp hmem with heq | hmem'
    · subst heq
      have hstep : placeStep pl (s, t) e
          = ({ s with board := s.board.set e.1.toNat (e.2 * STONE pl) }, t + e.2) := by
        unfold placeStep
        rw [if_neg hne]
      rw [hstep]
      rw [boardPoints_cons, if_neg hne] at hnd
      have hnotmem : e.1 ∉ boardPoints rest := (List.nodup_cons.mp hnd).1
      have hnn0 : 0 ≤ e.1 := hnn e (List.mem_cons_self e rest) hne
      have hnot : ((e.1.toNat : Nat) : Int) ∉ boardPoints rest := by
        rw [show ((e.1.toNat : Nat) : Int) = e.1 by omega]
        exact hnotmem
      rw [placeFold_getD_notmem pl rest _ (t + e.2) e.1.toNat
        (fun e'' he'' => hnn e'' (List.mem_cons_of_mem e he'')) hnot]
      show (s.board.set e.1.toNat (e.2 * STONE pl)).getD e.1.toNat 0 = _
      exact getD_set_self s.board _ 0 e.1.toNat hlt
    · by_cases hcase : e'.1 = -1
      · have hstep : placeStep pl (s, t) e'
            = ({ s with bearOff := s.bearOff.set pl (s.bearOff.getD pl 0 + e'.2) }, t) := by
          unfold placeStep
          rw [if_pos hcase]
        rw [hstep]
        rw [boardPoints_cons, if_pos hcase] at hnd
        exact ih _ t e hmem' hne (fun e'' he'' => hnn e'' (List.mem_cons_of_mem e' he''))
          hnd hlt
      · have hstep : placeStep pl (s, t) e'
            = ({ s with board := s.board.set e'.1.toNat (e'.2 * STONE pl) }, t + e'.2) := by
          unfold placeStep
          rw [if_neg hcase]
        rw [hstep]
        rw [boardPoints_cons, if_neg hcase] at hnd
        exact ih _ (t + e'.2) e hmem' hne
          (fun e'' he'' => hnn e'' (List.mem_cons_of_mem e' he''))
          (List.nodup_cons.mp hnd).2
          (by show e.1.toNat < (s.board.set _ _).length; rw [List.length_set]; exact hlt)

theorem placeFold_bear_own (pl : Nat) (entries : List (Int × Int)) :
    ∀ (s : State) (t : Int), pl < s.bearOff.length →
    (entries.foldl (placeStep pl) (s, t)).1.bearOff.getD pl 0
      = s.bearOff.getD pl 0
        + ((entries.filter (fun e => e.1 == -1)).map Prod.snd).sum := by
  induction entries with
  | nil => intro s t _; show s.bearOff.getD pl 0 = _ + ([] : List Int).sum; simp
  | cons e rest ih =>
    intro s t hpl
    rw [List.foldl_cons]
    by_cases hcase : e.1 = -1
    · have hstep : placeStep pl (s, t) e
          = ({ s with bearOff := s.bearOff.set pl (s.bearOff.getD pl 0 + e.2) }, t) := by
        unfold placeStep
        rw [if_pos hcase]
      rw [hstep]
      rw [ih _ t (by show pl < (s.bearOff.set pl _).length; rw [List.length_set]; exact hpl)]
      have hge : ({ s with bearOff := s.bearOff.set pl (s.bearOff.getD pl 0 + e.2) } :
          State).bearOff.getD pl 0 = s.bearOff.getD pl 0 + e.2 :=
        getD_set_self s.bearOff _ 0 pl hpl
      rw [hge, List.filter_cons, if_pos (by simp [hcase]), List.map_cons, List.sum_cons]
      ring
    · have hstep : placeStep pl (s, t) e
          = ({ s with board := s.board.set e.1.toNat (e.2 * STONE pl) }, t + e.2) := by
        unfold placeStep
        rw [if_neg hcase]
      rw [hstep]
      rw [ih { s with board := s.board.set e.1.toNat (e.2 * STONE pl) } (t + e.2) hpl]
      rw [List.filter_cons, if_neg (by simp [hcase])]

theorem placeFold_bear_other (pl p : Nat) (hne : p ≠ pl) (entries : List (Int × Int)) :
    ∀ (s : State) (t : Int),
    (entries.foldl (placeStep pl) (s, t)).1.bearOff.getD p 0 = s.bearOff.getD p 0 := by
  induction entries with
  | nil => intro s t; rfl
  | cons e rest ih =>
    intro s t
    rw [List.foldl_cons]
    by_cases hcase : e.1 = -1
    · have hstep : placeStep pl (s, t) e
          = ({ s with bearOff := s.bearOff.set pl (s.bearOff.getD pl 0 + e.2) }, t) := by
        unfold placeStep
        rw [if_pos hcase]
      rw [hstep, ih _ t]
      show (s.bearOff.set pl _).getD p 0 = _
      exact getD_set_ne s.bearOff _ 0 pl p (fun h => hne h.symm)
    · have hstep : placeStep pl (s, t) e
          = ({ s with board := s.board.set e.1.toNat (e.2 * STONE pl) }, t + e.2) := by
        unfold placeStep
        rw [if_neg hcase]
      rw [hstep, ih _ (t + e.2)]

theorem getD_eq_getElem' (l : List Int) (q : Nat) (h : q < l.length) : l.getD q 0 = l[q] := by
  rw [List.getD_eq_getElem?_getD, List.getElem?_eq_getElem h]
  rfl

theorem mem_enum_filterMap (P : Int → Prop) [DecidablePred P] (g : Int → Int)
    (l : List Int) (e : Int × Int)
    (h : e ∈ l.enum.filterMap
      (fun pe => if P pe.2 then some ((pe.1 : Int), g pe.2) else none)) :
    ∃ i : Nat, i < l.length ∧ e.1 = (i : Int) ∧ P (l.getD i 0) ∧ e.2 = g (l.getD i 0) := by
  rw [List.mem_filterMap] at h
  obtain ⟨pe, hpe, hf⟩ := h
  have h2 := List.mem_enum_iff_getElem?.mp hpe
  have hlt : pe.1 < l.length := by
    by_contra hge
    rw [List.getElem?_eq_none (by omega)] at h2
    exact Option.noConfusion h2
  have hval : l.getD pe.1 0 = pe.2 := by
    rw [List.getD_eq_getElem?_getD, h2]
    rfl
  by_cases hP : P pe.2
  · rw [if_pos hP] at hf
    obtain rfl := Option.some.inj hf
    exact ⟨pe.1, hlt, rfl, by rw [hval]; exact hP, by rw [hval]⟩
  · rw [if_neg hP] at hf
    exact Option.noConfusion hf

theorem enum_filterMap_mem (P : Int → Prop) [DecidablePred P] (g : Int → Int)
    (l : List Int) (i : Nat) (hi : i < l.length) (hP : P (l.getD i 0)) :
    ((i : Int), g (l.getD i 0)) ∈ l.enum.filterMap
      (fun pe => if P pe.2 then some ((pe.1 : Int), g pe.2) else none) := by
  rw [List.mem_filterMap]
  refine ⟨(i, l.getD i 0), ?_, ?_⟩
  · rw [List.mem_enum_iff_getElem?]
    show l[i]? = some (l.getD i 0)
    rw [getD_eq_getElem' l i hi, List.getElem?_eq_getElem hi]
  · show (if P (l.getD i 0) then some ((i : Int), g (l.getD i 0)) else none) = _
    rw [if_pos hP]

theorem enumFrom_filterMap_fst_lb (P : Int → Prop) [DecidablePred P] (g : Int → Int)
    (l : List Int) :
    ∀ (n : Nat),
    (((List.enumFrom n l).filterMap
      (fun pe => if P pe.2 then some ((pe.1 : Int), g pe.2) else none)).map
        Prod.fst).Pairwise (· < ·) ∧
    ∀ q ∈ ((List.enumFrom n l).filterMap
      (fun pe => if P pe.2 then some ((pe.1 : Int), g pe.2) else none)).map Prod.fst,
      (n : Int) ≤ q := by
  induction l with
  | nil =>
    intro n
    exact ⟨List.Pairwise.nil, fun q hq => absurd hq (List.not_mem_nil q)⟩
  | cons b rest ih =>
    intro n
    have hstep : List.enumFrom n (b :: rest) = (n, b) :: List.enumFrom (n + 1) rest := rfl
    rw [hstep, List.filterMap_cons]
    by_cases hP : P b
    · have hred : (if P (n, b).2 then some (((n, b).1 : Int), g (n, b).2) else none)
          = some ((n : Int), g b) := if_pos hP
      rw [hred, List.map_cons]
      obtain ⟨ihp, ihb⟩ := ih (n + 1)
      refine ⟨List.Pairwise.cons ?_ ihp, ?_⟩
      · intro q hq
        have := ihb q hq
        omega
      · intro q hq
        rcases List.mem_cons.mp hq with h | h
        · omega
        · have := ihb q h
          omega
    · have hred : (if P (n, b).2 then some (((n, b).1 : Int), g (n, b).2) else none)
          = none := if_neg hP
      rw [hred]
      obtain ⟨ihp, ihb⟩ := ih (n + 1)
      exact ⟨ihp, fun q hq => by have := ihb q hq; omega⟩

theorem enum_filterMap_points_nodup (P : Int → Prop) [DecidablePred P] (g : Int → Int)
    (l : List Int) :
    (boardPoints (l.enum.filterMap
      (fun pe => if P pe.2 then some ((pe.1 : Int), g pe.2) else none))).Nodup := by
  have hall : ∀ e ∈ l.enum.filterMap
      (fun pe => if P pe.2 then some ((pe.1 : Int), g pe.2) else none), ¬(e.1 == -1) := by
    intro e he
    obtain ⟨i, _, hfst, _, _⟩ := mem_enum_filterMap P g l e he
    simp only [beq_iff_eq]
    omega
  have hbp : boardPoints (l.enum.filterMap
      (fun pe => if P pe.2 then some ((pe.1 : Int), g pe.2) else none))
      = (l.enum.filterMap
        (fun pe => if P pe.2 then some ((pe.1 : Int), g pe.2) else none)).map
          Prod.fst := by
    unfold boardPoints
    rw [List.filter_eq_self.mpr (by
      intro e he
      simp only [Bool.not_eq_true']
      have := hall e he
      simp only [beq_iff_eq] at this ⊢
      exact decide_eq_false this)]
  rw [hbp]
  have h := (enumFrom_filterMap_fst_lb P g l 0).1
  have henum : l.enum = List.enumFrom 0 l := rfl
  rw [henum]
  exact h.imp (fun hlt => ne_of_lt hlt)

theorem stateToList_entries (s : State) :
    (stateToList s).getD 0 []
      = s.board.enum.filterMap
          (fun pe => if pe.2 < 0 then some ((pe.1 : Int), -pe.2) else none)
        ++ (if 0 < s.bearOff.getD 0 0 then [((-1 : Int), s.bearOff.getD 0 0)] else []) ∧
    (stateToList s).getD 1 []
      = s.board.enum.filterMap
          (fun pe => if 0 < pe.2 then some ((pe.1 : Int), pe.2) else none)
        ++ (if 0 < s.bearOff.getD 1 0 then [((-1 : Int), s.bearOff.getD 1 0)] else []) := by
  constructor
  · show (if 0 < s.bearOff.getD 0 0 then
        s.board.enum.filterMap
          (fun pe => if pe.2 < 0 then some ((pe.1 : Int), -pe.2) else none)
          ++ [((-1 : Int), s.bearOff.getD 0 0)]
      else s.board.enum.filterMap
          (fun pe => if pe.2 < 0 then some ((pe.1 : Int), -pe.2) else none)) = _
    split <;> simp
  · show (if 0 < s.bearOff.getD 1 0 then
        s.board.enum.filterMap
          (fun pe => if 0 < pe.2 then some ((pe.1 : Int), pe.2) else none)
          ++ [((-1 : Int), s.bearOff.getD 1 0)]
      else s.board.enum.filterMap
          (fun pe => if 0 < pe.2 then some ((pe.1 : Int), pe.2) else none)) = _
    split <;> simp

theorem boardPoints_append (l1 l2 : List (Int × Int)) :
    boardPoints (l1 ++ l2) = boardPoints l1 ++ boardPoints l2 := by
  unfold boardPoints
  rw [List.filter_append, List.map_append]

theorem boardPoints_bear_tail (c : Int) (b : Prop) [Decidable b] :
    boardPoints (if b then [((-1 : Int), c)] else []) = [] := by
  split <;> simp [boardPoints]

theorem sum_map_zero (l : List Nat) : (l.map (fun _ => (0 : Int))).sum = 0 := by
  induction l with
  | nil => rfl
  | cons a rest ih => simp [ih]

theorem entries0_nonneg (s : State) :
    ∀ e ∈ s.board.enum.filterMap
        (fun pe => if pe.2 < 0 then some ((pe.1 : Int), -pe.2) else none)
      ++ (if 0 < s.bearOff.getD 0 0 then [((-1 : Int), s.bearOff.getD 0 0)] else []),
      e.1 ≠ -1 → 0 ≤ e.1 := by
  intro e he hne
  rcases List.mem_append.mp he with h | h
  · obtain ⟨i, _, hfst, _, _⟩ := mem_enum_filterMap (fun v => v < 0) (fun v => -v)
      s.board e h
    rw [hfst]
    omega
  · split at h
    · rw [List.mem_singleton] at h
      rw [h] at hne
      exact absurd rfl hne
    · exact absurd h (List.not_mem_nil e)

theorem entries1_nonneg (s : State) :
    ∀ e ∈ s.board.enum.filterMap
        (fun pe => if 0 < pe.2 then some ((pe.1 : Int), pe.2) else none)
      ++ (if 0 < s.bearOff.getD 1 0 then [((-1 : Int), s.bearOff.getD 1 0)] else []),
      e.1 ≠ -1 → 0 ≤ e.1 := by
  intro e he hne
  rcases List.mem_append.mp he with h | h
  · obtain ⟨i, _, hfst, _, _⟩ := mem_enum_filterMap (fun v => 0 < v) (fun v => v)
      s.board e h
    rw [hfst]
    omega
  · split at h
    · rw [List.mem_singleton] at h
      rw [h] at hne
      exact absurd rfl hne
    · exact absurd h (List.not_mem_nil e)

theorem entries0_nodup (s : State) :
    (boardPoints (s.board.enum.filterMap
        (fun pe => if pe.2 < 0 then some ((pe.1 : Int), -pe.2) else none)
      ++ (if 0 < s.bearOff.getD 0 0 then [((-1 : Int), s.bearOff.getD 0 0)] else []))).Nodup := by
  rw [boardPoints_append, boardPoints_bear_tail, List.append_nil]
  exact enum_filterMap_points_nodup (fun v => v < 0) (fun v => -v) s.board

theorem entries1_nodup (s : State) :
    (boardPoints (s.board.enum.filterMap
        (fun pe => if 0 < pe.2 then some ((pe.1 : Int), pe.2) else none)
      ++ (if 0 < s.bearOff.getD 1 0 then [((-1 : Int), s.bearOff.getD 1 0)] else []))).Nodup := by
  rw [boardPoints_append, boardPoints_bear_tail, List.append_nil]
  exact enum_filterMap_points_nodup (fun v => 0 < v) (fun v => v) s.board

theorem entries0_valid (s : State) (hWF : WF s) (hsg : SignInv s) (hbear : BearInv s) :
    ∀ e ∈ s.board.enum.filterMap
        (fun pe => if pe.2 < 0 then some ((pe.1 : Int), -pe.2) else none)
      ++ (if 0 < s.bearOff.getD 0 0 then [((-1 : Int), s.bearOff.getD 0 0)] else []),
      ValidEntry 0 e := by
  intro e he
  rcases List.mem_append.mp he with h | h
  · obtain ⟨i, hilt, hfst, hP, hsnd⟩ := mem_enum_filterMap (fun v => v < 0) (fun v => -v)
      s.board e h
    have hi26 : i < 26 := by rw [hWF.1] at hilt; exact hilt
    have hi0 : i ≠ 0 := by
      intro hc
      rw [hc] at hP
      have := hsg.1
      omega
    right
    refine ⟨?_, by rw [hsnd]; omega⟩
    rcases (by omega : 1 ≤ i ∧ i ≤ 24 ∨ i = 25) with ⟨a, b⟩ | hc
    · left
      rw [hfst]
      constructor
      · show (1 : Int) ≤ (i : Int)
        omega
      · show (i : Int) ≤ (24 : Int)
        omega
    · right
      rw [hfst, hc]
      rfl
  · split at h
    · rw [List.mem_singleton] at h
      rw [h]
      left
      refine ⟨rfl, ?_⟩
      have := hbear.1
      omega
    · exact absurd h (List.not_mem_nil e)

theorem entries1_valid (s : State) (hWF : WF s) (hsg : SignInv s) (hbear : BearInv s) :
    ∀ e ∈ s.board.enum.filterMap
        (fun pe => if 0 < pe.2 then some ((pe.1 : Int), pe.2) else none)
      ++ (if 0 < s.bearOff.getD 1 0 then [((-1 : Int), s.bearOff.getD 1 0)] else []),
      ValidEntry 1 e := by
  intro e he
  rcases List.mem_append.mp he with h | h
  · obtain ⟨i, hilt, hfst, hP, hsnd⟩ := mem_enum_filterMap (fun v => 0 < v) (fun v => v)
      s.board e h
    have hi26 : i < 26 := by rw [hWF.1] at hilt; exact hilt
    have hi25 : i ≠ 25 := by
      intro hc
      rw [hc] at hP
      have := hsg.2
      omega
    right
    refine ⟨?_, by rw [hsnd]; omega⟩
    rcases (by omega : 1 ≤ i ∧ i ≤ 24 ∨ i = 0) with ⟨a, b⟩ | hc
    · left
      rw [hfst]
      constructor
      · show (1 : Int) ≤ (i : Int)
        omega
      · show (i : Int) ≤ (24 : Int)
        omega
    · right
      rw [hfst, hc]
      rfl
  · split at h
    · rw [List.mem_singleton] at h
      rw [h]
      left
      refine ⟨rfl, ?_⟩
      have := hbear.2
      omega
    · exact absurd h (List.not_mem_nil e)

theorem notmem_points0 (s : State) (q : Nat) (hq : ¬s.board.getD q 0 < 0) :
    (q : Int) ∉ boardPoints (s.board.enum.filterMap
        (fun pe => if pe.2 < 0 then some ((pe.1 : Int), -pe.2) else none)
      ++ (if 0 < s.bearOff.getD 0 0 then [((-1 : Int), s.bearOff.getD 0 0)] else [])) := by
  rw [boardPoints_append, boardPoints_bear_tail, List.append_nil]
  intro hc
  obtain ⟨e, hmem, hfst, _⟩ := mem_boardPoints_inv _ _ hc
  obtain ⟨i, hilt, hfst2, hP, _⟩ := mem_enum_filterMap (fun v => v < 0) (fun v => -v)
    s.board e hmem
  have hiq : i = q := by
    have : (i : Int) = (q : Int) := by rw [← hfst2, hfst]
    omega
  rw [hiq] at hP
  exact hq hP

theorem notmem_points1 (s : State) (q : Nat) (hq : ¬0 < s.board.getD q 0) :
    (q : Int) ∉ boardPoints (s.board.enum.filterMap
        (fun pe => if 0 < pe.2 then some ((pe.1 : Int), pe.2) else none)
      ++ (if 0 < s.bearOff.getD 1 0 then [((-1 : Int), s.bearOff.getD 1 0)] else [])) := by
  rw [boardPoints_append, boardPoints_bear_tail, List.append_nil]
  intro hc
  obtain ⟨e, hmem, hfst, _⟩ := mem_boardPoints_inv _ _ hc
  obtain ⟨i, hilt, hfst2, hP, _⟩ := mem_enum_filterMap (fun v => 0 < v) (fun v => v)
    s.board e hmem
  have hiq : i = q := by
    have : (i : Int) = (q : Int) := by rw [← hfst2, hfst]
    omega
  rw [hiq] at hP
  exact hq hP

theorem fold0_board (s : State) (sp : Nat) (hWF : WF s) :
    ∀ q : Nat, q < 26 →
    ((s.board.enum.filterMap
        (fun pe => if pe.2 < 0 then some ((pe.1 : Int), -pe.2) else none)
      ++ (if 0 < s.bearOff.getD 0 0 then [((-1 : Int), s.bearOff.getD 0 0)] else [])).foldl
        (placeStep 0) ({ emptyState with turn := sp }, 0)).1.board.getD q 0
      = (if s.board.getD q 0 < 0 then s.board.getD q 0 else 0) := by
  intro q hq
  by_cases hneg : s.board.getD q 0 < 0
  · rw [if_pos hneg]
    have hmem : ((q : Int), -(s.board.getD q 0)) ∈ s.board.enum.filterMap
        (fun pe => if pe.2 < 0 then some ((pe.1 : Int), -pe.2) else none) :=
      enum_filterMap_mem (fun v => v < 0) (fun v => -v) s.board q
        (by rw [hWF.1]; exact hq) hneg
    have hv := placeFold_getD_mem 0 _ { emptyState with turn := sp } 0
      ((q : Int), -(s.board.getD q 0)) (List.mem_append_left _ hmem)
      (by show (q : Int) ≠ -1; omega)
      (entries0_nonneg s) (entries0_nodup s)
      (by show ((q : Int)).toNat < (List.replicate 26 (0 : Int)).length
          rw [show ((q : Int)).toNat = q by omega]
          simp
          omega)
    rw [show ((q : Int)).toNat = q by omega] at hv
    rw [hv]
    show -s.board.getD q 0 * STONE 0 = _
    rw [show STONE 0 = (-1 : Int) from rfl]
    ring
  · rw [if_neg hneg]
    rw [placeFold_getD_notmem 0 _ { emptyState with turn := sp } 0 q
      (entries0_nonneg s) (notmem_points0 s q hneg)]
    show (List.replicate 26 (0 : Int)).getD q 0 = 0
    exact replicate_getD 26 q

theorem fold0_len (s : State) (sp : Nat) :
    ((s.board.enum.filterMap
        (fun pe => if pe.2 < 0 then some ((pe.1 : Int), -pe.2) else none)
      ++ (if 0 < s.bearOff.getD 0 0 then [((-1 : Int), s.bearOff.getD 0 0)] else [])).foldl
        (placeStep 0) ({ emptyState with turn := sp }, 0)).1.board.length = 26 := by
  rw [(placeFold_fields2 0 _ { emptyState with turn := sp } 0).1]
  show (List.replicate 26 (0 : Int)).length = 26
  simp

theorem fold1_board (s : State) (sp : Nat) (hWF : WF s) :
    ∀ q : Nat, q < 26 →
    ((s.board.enum.filterMap
        (fun pe => if 0 < pe.2 then some ((pe.1 : Int), pe.2) else none)
      ++ (if 0 < s.bearOff.getD 1 0 then [((-1 : Int), s.bearOff.getD 1 0)] else [])).foldl
        (placeStep 1)
        (((s.board.enum.filterMap
            (fun pe => if pe.2 < 0 then some ((pe.1 : Int), -pe.2) else none)
          ++ (if 0 < s.bearOff.getD 0 0 then [((-1 : Int), s.bearOff.getD 0 0)] else [])).foldl
            (placeStep 0) ({ emptyState with turn := sp }, 0)).1, 0)).1.board.getD q 0
      = s.board.getD q 0 := by
  intro q hq
  by_cases hpos : 0 < s.board.getD q 0
  · have hmem : ((q : Int), s.board.getD q 0) ∈ s.board.enum.filterMap
        (fun pe => if 0 < pe.2 then some ((pe.1 : Int), pe.2) else none) :=
      enum_filterMap_mem (fun v => 0 < v) (fun v => v) s.board q
        (by rw [hWF.1]; exact hq) hpos
    have hv := placeFold_getD_mem 1 _ _ 0
      ((q : Int), s.board.getD q 0) (List.mem_append_left _ hmem)
      (by show (q : Int) ≠ -1; omega)
      (entries1_nonneg s) (entries1_nodup s)
      (by show ((q : Int)).toNat < _
          rw [show ((q : Int)).toNat = q by omega, fold0_len s sp]
          omega)
    rw [show ((q : Int)).toNat = q by omega] at hv
    rw [hv]
    show s.board.getD q 0 * STONE 1 = _
    rw [show STONE 1 = (1 : Int) from rfl]
    ring
  · rw [placeFold_getD_notmem 1 _ _ 0 q (entries1_nonneg s) (notmem_points1 s q hpos)]
    rw [fold0_board s sp hWF q hq]
    by_cases hneg : s.board.getD q 0 < 0
    · rw [if_pos hneg]
    · rw [if_neg hneg]
      omega

theorem fold0_counter (s : State) (sp : Nat) (hbear : BearInv s) :
    ((s.board.enum.filterMap
        (fun pe => if pe.2 < 0 then some ((pe.1 : Int), -pe.2) else none)
      ++ (if 0 < s.bearOff.getD 0 0 then [((-1 : Int), s.bearOff.getD 0 0)] else [])).foldl
        (placeStep 0) ({ emptyState with turn := sp }, 0)).1.bearOff.getD 0 0
      = s.bearOff.getD 0 0 ∧
    ((s.board.enum.filterMap
        (fun pe => if pe.2 < 0 then some ((pe.1 : Int), -pe.2) else none)
      ++ (if 0 < s.bearOff.getD 0 0 then [((-1 : Int), s.bearOff.getD 0 0)] else [])).foldl
        (placeStep 0) ({ emptyState with turn := sp }, 0)).1.bearOff.getD 1 0 = 0 := by
  constructor
  · rw [placeFold_bear_own 0 _ { emptyState with turn := sp } 0
      (by show 0 < ([0, 0] : List Int).length; decide)]
    rw [List.filter_append]
    rw [List.filter_eq_nil_iff.mpr (by
      intro e he
      obtain ⟨i, _, hfst, _, _⟩ := mem_enum_filterMap (fun v => v < 0) (fun v => -v)
        s.board e he
      simp only [beq_iff_eq]
      omega)]
    rw [List.nil_append]
    show (0 : Int) + _ = _
    split
    · next hc =>
      simp only [List.filter_singleton]
      simp
    · next hc =>
      have := hbear.1
      simp only [List.filter_nil, List.map_nil, List.sum_nil]
      omega
  · rw [placeFold_bear_other 0 1 (by omega) _ { emptyState with turn := sp } 0]
    rfl

theorem fold1_counter (s : State) (sp : Nat) (hbear : BearInv s) :
    ((s.board.enum.filterMap
        (fun pe => if 0 < pe.2 then some ((pe.1 : Int), pe.2) else none)
      ++ (if 0 < s.bearOff.getD 1 0 then [((-1 : Int), s.bearOff.getD 1 0)] else [])).foldl
        (placeStep 1)
        (((s.board.enum.filterMap
            (fun pe => if pe.2 < 0 then some ((pe.1 : Int), -pe.2) else none)
          ++ (if 0 < s.bearOff.getD 0 0 then [((-1 : Int), s.bearOff.getD 0 0)] else [])).foldl
            (placeStep 0) ({ emptyState with turn := sp }, 0)).1, 0)).1.bearOff.getD 0 0
      = s.bearOff.getD 0 0 ∧
    ((s.board.enum.filterMap
        (fun pe => if 0 < pe.2 then some ((pe.1 : Int), pe.2) else none)
      ++ (if 0 < s.bearOff.getD 1 0 then [((-1 : Int), s.bearOff.getD 1 0)] else [])).foldl
        (placeStep 1)
        (((s.board.enum.filterMap
            (fun pe => if pe.2 < 0 then some ((pe.1 : Int), -pe.2) else none)
          ++ (if 0 < s.bearOff.getD 0 0 then [((-1 : Int), s.bearOff.getD 0 0)] else [])).foldl
            (placeStep 0) ({ emptyState with turn := sp }, 0)).1, 0)).1.bearOff.getD 1 0
      = s.bearOff.getD 1 0 := by
  constructor
  · rw [placeFold_bear_other 1 0 (by omega) _ _ 0]
    exact (fold0_counter s sp hbear).1
  · rw [placeFold_bear_own 1 _ _ 0 (by
      rw [(placeFold_fields2 0 _ { emptyState with turn := sp } 0).2.1]
      show 1 < ([0, 0] : List Int).length
      decide)]
    rw [(fold0_counter s sp hbear).2]
    rw [List.filter_append]
    rw [List.filter_eq_nil_iff.mpr (by
      intro e he
      obtain ⟨i, _, hfst, _, _⟩ := mem_enum_filterMap (fun v => 0 < v) (fun v => v)
        s.board e he
      simp only [beq_iff_eq]
      omega)]
    rw [List.nil_append]
    show (0 : Int) + _ = _
    split
    · next hc =>
      simp only [List.filter_singleton]
      simp
    · next hc =>
      have := hbear.2
      simp only [List.filter_nil, List.map_nil, List.sum_nil]
      omega

theorem fold0_total0 (s : State) (sp : Nat) (hWF : WF s) (hsg : SignInv s)
    (hbear : BearInv s) :
    stoneTotal ((s.board.enum.filterMap
        (fun pe => if pe.2 < 0 then some ((pe.1 : Int), -pe.2) else none)
      ++ (if 0 < s.bearOff.getD 0 0 then [((-1 : Int), s.bearOff.getD 0 0)] else [])).foldl
        (placeStep 0) ({ emptyState with turn := sp }, 0)).1 0 = stoneTotal s 0 := by
  rw [stoneTotal_eq_sum, stoneTotal_eq_sum]
  have hnum : ∀ i ∈ List.range' 1 24,
      num_of_stones ((s.board.enum.filterMap
        (fun pe => if pe.2 < 0 then some ((pe.1 : Int), -pe.2) else none)
      ++ (if 0 < s.bearOff.getD 0 0 then [((-1 : Int), s.bearOff.getD 0 0)] else [])).foldl
        (placeStep 0) ({ emptyState with turn := sp }, 0)).1 i 0
        = num_of_stones s i 0 := by
    intro i hi
    rw [List.mem_range'_1] at hi
    show (if 0 < _ * STONE 0 then _ else _) = (if 0 < s.board.getD i 0 * STONE 0 then _ else _)
    rw [fold0_board s sp hWF i (by omega)]
    by_cases h2 : s.board.getD i 0 < 0
    · rw [if_pos h2]
    · rw [if_neg h2]
      rw [show STONE 0 = (-1 : Int) from rfl]
      rw [if_neg (by omega), if_neg (by omega)]
  rw [List.map_congr_left hnum]
  have hbar : ((s.board.enum.filterMap
      (fun pe => if pe.2 < 0 then some ((pe.1 : Int), -pe.2) else none)
    ++ (if 0 < s.bearOff.getD 0 0 then [((-1 : Int), s.bearOff.getD 0 0)] else [])).foldl
      (placeStep 0) ({ emptyState with turn := sp }, 0)).1.board.getD (BAR_FIELD 0) 0
      = s.board.getD (BAR_FIELD 0) 0 := by
    rw [show BAR_FIELD 0 = 25 from rfl, fold0_board s sp hWF 25 (by omega)]
    have := hsg.2
    by_cases h2 : s.board.getD 25 0 < 0
    · rw [if_pos h2]
    · rw [if_neg h2]
      omega
  rw [hbar, (fold0_counter s sp hbear).1]

theorem fold0_total1 (s : State) (sp : Nat) (hWF : WF s) (hsg : SignInv s)
    (hbear : BearInv s) :
    stoneTotal ((s.board.enum.filterMap
        (fun pe => if pe.2 < 0 then some ((pe.1 : Int), -pe.2) else none)
      ++ (if 0 < s.bearOff.getD 0 0 then [((-1 : Int), s.bearOff.getD 0 0)] else [])).foldl
        (placeStep 0) ({ emptyState with turn := sp }, 0)).1 1 = 0 := by
  rw [stoneTotal_eq_sum]
  have hnum : ∀ i ∈ List.range' 1 24,
      num_of_stones ((s.board.enum.filterMap
        (fun pe => if pe.2 < 0 then some ((pe.1 : Int), -pe.2) else none)
      ++ (if 0 < s.bearOff.getD 0 0 then [((-1 : Int), s.bearOff.getD 0 0)] else [])).foldl
        (placeStep 0) ({ emptyState with turn := sp }, 0)).1 i 1 = (fun _ => (0 : Int)) i := by
    intro i hi
    rw [List.mem_range'_1] at hi
    show (if 0 < _ * STONE 1 then _ else _) = (0 : Int)
    rw [fold0_board s sp hWF i (by omega), show STONE 1 = (1 : Int) from rfl]
    by_cases h2 : s.board.getD i 0 < 0
    · rw [if_pos h2, if_neg (by omega)]
    · rw [if_neg h2, if_neg (by omega)]
  rw [List.map_congr_left hnum, sum_map_zero]
  rw [show BAR_FIELD 1 = 0 from rfl, fold0_board s sp hWF 0 (by omega),
    if_neg (by have := hsg.1; omega)]
  rw [(fold0_counter s sp hbear).2]
  simp

/-- C8: constructing a state from a valid state's `state_to_list` position
list reproduces the board array and both borne-off counters exactly, and
keeps each player's total of 15 stones. -/
theorem stateToList_roundtrip (Z : ZTable) (s : State) (sp : Nat) (hInv : Inv s) :
    ∃ s2, mkState Z (stateToList s) sp = some s2 ∧
      s2.board = s.board ∧ s2.bearOff = s.bearOff ∧
      ∀ p, p < 2 → stoneTotal s2 p = NUM_OF_ALL_STONES := by
  obtain ⟨hWF, ht2, hstone, hsg, hbear, hmask⟩ := hInv
  obtain ⟨hE0, hE1⟩ := stateToList_entries s
  have hlen1 : ((s.board.enum.filterMap
      (fun pe => if 0 < pe.2 then some ((pe.1 : Int), pe.2) else none)
    ++ (if 0 < s.bearOff.getD 1 0 then [((-1 : Int), s.bearOff.getD 1 0)] else [])).foldl
      (placeStep 1)
      (((s.board.enum.filterMap
          (fun pe => if pe.2 < 0 then some ((pe.1 : Int), -pe.2) else none)
        ++ (if 0 < s.bearOff.getD 0 0 then [((-1 : Int), s.bearOff.getD 0 0)] else [])).foldl
          (placeStep 0) ({ emptyState with turn := sp }, 0)).1, 0)).1.board.length = 26 := by
    rw [(placeFold_fields2 1 _ _ 0).1]
    exact fold0_len s sp
  have hbelen1 : ((s.board.enum.filterMap
      (fun pe => if 0 < pe.2 then some ((pe.1 : Int), pe.2) else none)
    ++ (if 0 < s.bearOff.getD 1 0 then [((-1 : Int), s.bearOff.getD 1 0)] else [])).foldl
      (placeStep 1)
      (((s.board.enum.filterMap
          (fun pe => if pe.2 < 0 then some ((pe.1 : Int), -pe.2) else none)
        ++ (if 0 < s.bearOff.getD 0 0 then [((-1 : Int), s.bearOff.getD 0 0)] else [])).foldl
          (placeStep 0) ({ emptyState with turn := sp }, 0)).1, 0)).1.bearOff.length = 2 := by
    rw [(placeFold_fields2 1 _ _ 0).2.1, (placeFold_fields2 0 _ _ 0).2.1]
    rfl
  have hboard : ((s.board.enum.filterMap
      (fun pe => if 0 < pe.2 then some ((pe.1 : Int), pe.2) else none)
    ++ (if 0 < s.bearOff.getD 1 0 then [((-1 : Int), s.bearOff.getD 1 0)] else [])).foldl
      (placeStep 1)
      (((s.board.enum.filterMap
          (fun pe => if pe.2 < 0 then some ((pe.1 : Int), -pe.2) else none)
        ++ (if 0 < s.bearOff.getD 0 0 then [((-1 : Int), s.bearOff.getD 0 0)] else [])).foldl
          (placeStep 0) ({ emptyState with turn := sp }, 0)).1, 0)).1.board = s.board := by
    apply List.ext_getElem (by rw [hlen1, hWF.1])
    intro i h1 h2
    have hv := fold1_board s sp hWF i (by rw [hlen1] at h1; exact h1)
    rw [getD_eq_getElem' _ i h1, getD_eq_getElem' _ i h2] at hv
    exact hv
  have hbeF1 : ((s.board.enum.filterMap
      (fun pe => if 0 < pe.2 then some ((pe.1 : Int), pe.2) else none)
    ++ (if 0 < s.bearOff.getD 1 0 then [((-1 : Int), s.bearOff.getD 1 0)] else [])).foldl
      (placeStep 1)
      (((s.board.enum.filterMap
          (fun pe => if pe.2 < 0 then some ((pe.1 : Int), -pe.2) else none)
        ++ (if 0 < s.bearOff.getD 0 0 then [((-1 : Int), s.bearOff.getD 0 0)] else [])).foldl
          (placeStep 0) ({ emptyState with turn := sp }, 0)).1, 0)).1.bearOff = s.bearOff := by
    obtain ⟨a1, b1, hab1⟩ := exists_pair _ hbelen1
    obtain ⟨a2, b2, hab2⟩ := exists_pair s.bearOff hWF.2.1
    have h00 := (fold1_counter s sp hbear).1
    have h11 := (fold1_counter s sp hbear).2
    rw [hab1, hab2] at h00 h11
    have e0 : a1 = a2 := h00
    have e1 : b1 = b2 := h11
    rw [hab1, hab2, e0, e1]
  have hfresh0 : ∀ e ∈ s.board.enum.filterMap
      (fun pe => if pe.2 < 0 then some ((pe.1 : Int), -pe.2) else none)
    ++ (if 0 < s.bearOff.getD 0 0 then [((-1 : Int), s.bearOff.getD 0 0)] else []),
      e.1 ≠ -1 → ({ emptyState with turn := sp } : State).board.getD e.1.toNat 0 = 0 := by
    intro e _ _
    show (List.replicate 26 (0 : Int)).getD e.1.toNat 0 = 0
    exact replicate_getD 26 _
  obtain ⟨_, _, _, _, _, j6, _, _, _, _, _⟩ :=
    placeFold_spec 0 (by omega) _ { emptyState with turn := sp } 0
      (entries0_valid s hWF hsg hbear) (entries0_nodup s) hfresh0
      (by show (List.replicate 26 (0 : Int)).length = 26; simp)
      (by show 0 < ([0, 0] : List Int).length; decide)
  have cond0 : ((s.board.enum.filterMap
      (fun pe => if pe.2 < 0 then some ((pe.1 : Int), -pe.2) else none)
    ++ (if 0 < s.bearOff.getD 0 0 then [((-1 : Int), s.bearOff.getD 0 0)] else [])).foldl
      (placeStep 0) ({ emptyState with turn := sp }, 0)).2
      + ((s.board.enum.filterMap
        (fun pe => if pe.2 < 0 then some ((pe.1 : Int), -pe.2) else none)
      ++ (if 0 < s.bearOff.getD 0 0 then [((-1 : Int), s.bearOff.getD 0 0)] else [])).foldl
        (placeStep 0) ({ emptyState with turn := sp }, 0)).1.bearOff.getD 0 0
      = NUM_OF_ALL_STONES := by
    have hT := fold0_total0 s sp hWF hsg hbear
    have hS00 : stoneTotal { emptyState with turn := sp } 0 = 0 := by
      rw [stoneTotal_congr { emptyState with turn := sp } emptyState rfl rfl 0]
      decide
    have hge00 : ({ emptyState with turn := sp } : State).bearOff.getD 0 0 = 0 := rfl
    rw [hS00, hge00] at j6
    have h15 := hstone 0 (by omega)
    omega
  have hfresh1 : ∀ e ∈ s.board.enum.filterMap
      (fun pe => if 0 < pe.2 then some ((pe.1 : Int), pe.2) else none)
    ++ (if 0 < s.bearOff.getD 1 0 then [((-1 : Int), s.bearOff.getD 1 0)] else []),
      e.1 ≠ -1 →
      ((s.board.enum.filterMap
        (fun pe => if pe.2 < 0 then some ((pe.1 : Int), -pe.2) else none)
      ++ (if 0 < s.bearOff.getD 0 0 then [((-1 : Int), s.bearOff.getD 0 0)] else [])).foldl
        (placeStep 0) ({ emptyState with turn := sp }, 0)).1.board.getD e.1.toNat 0 = 0 := by
    intro e he hne
    rcases List.mem_append.mp he with h | h
    · obtain ⟨i, hilt, hfst, hP, _⟩ := mem_enum_filterMap (fun v => 0 < v) (fun v => v)
        s.board e h
      rw [hfst, show ((i : Int)).toNat = i by omega]
      rw [fold0_board s sp hWF i (by rw [hWF.1] at hilt; exact hilt)]
      rw [if_neg (by omega)]
    · split at h
      · rw [List.mem_singleton] at h
        rw [h] at hne
        exact absurd rfl hne
      · exact absurd h (List.not_mem_nil e)
  obtain ⟨_, _, _, _, _, k6, _, _, _, _, _⟩ :=
    placeFold_spec 1 (by omega) _
      ((s.board.enum.filterMap
        (fun pe => if pe.2 < 0 then some ((pe.1 : Int), -pe.2) else none)
      ++ (if 0 < s.bearOff.getD 0 0 then [((-1 : Int), s.bearOff.getD 0 0)] else [])).foldl
        (placeStep 0) ({ emptyState with turn := sp }, 0)).1 0
      (entries1_valid s hWF hsg hbear) (entries1_nodup s) hfresh1
      (fold0_len s sp)
      (by rw [(placeFold_fields2 0 _ _ 0).2.1]; show 1 < ([0, 0] : List Int).length; decide)
  have cond1 : ((s.board.enum.filterMap
      (fun pe => if 0 < pe.2 then some ((pe.1 : Int), pe.2) else none)
    ++ (if 0 < s.bearOff.getD 1 0 then [((-1 : Int), s.bearOff.getD 1 0)] else [])).foldl
      (placeStep 1)
      (((s.board.enum.filterMap
          (fun pe => if pe.2 < 0 then some ((pe.1 : Int), -pe.2) else none)
        ++ (if 0 < s.bearOff.getD 0 0 then [((-1 : Int), s.bearOff.getD 0 0)] else [])).foldl
          (placeStep 0) ({ emptyState with turn := sp }, 0)).1, 0)).2
      + ((s.board.enum.filterMap
        (fun pe => if 0 < pe.2 then some ((pe.1 : Int), pe.2) else none)
      ++ (if 0 < s.bearOff.getD 1 0 then [((-1 : Int), s.bearOff.getD 1 0)] else [])).foldl
        (placeStep 1)
        (((s.board.enum.filterMap
            (fun pe => if pe.2 < 0 then some ((pe.1 : Int), -pe.2) else none)
          ++ (if 0 < s.bearOff.getD 0 0 then [((-1 : Int), s.bearOff.getD 0 0)] else [])).foldl
            (placeStep 0) ({ emptyState with turn := sp }, 0)).1, 0)).1.bearOff.getD 1 0
      = NUM_OF_ALL_STONES := by
    have hT0 := fold0_total1 s sp hWF hsg hbear
    have hT1 : stoneTotal ((s.board.enum.filterMap
        (fun pe => if 0 < pe.2 then some ((pe.1 : Int), pe.2) else none)
      ++ (if 0 < s.bearOff.getD 1 0 then [((-1 : Int), s.bearOff.getD 1 0)] else [])).foldl
        (placeStep 1)
        (((s.board.enum.filterMap
            (fun pe => if pe.2 < 0 then some ((pe.1 : Int), -pe.2) else none)
          ++ (if 0 < s.bearOff.getD 0 0 then [((-1 : Int), s.bearOff.getD 0 0)] else [])).foldl
            (placeStep 0) ({ emptyState with turn := sp }, 0)).1, 0)).1 1
        = NUM_OF_ALL_STONES := by
      rw [stoneTotal_congr _ s hboard hbeF1 1]
      exact hstone 1 (by omega)
    have hc1 := (fold0_counter s sp hbear).2
    rw [hT0, hc1, hT1] at k6
    omega
  have hps : placeStonesFromList (stateToList s) { emptyState with turn := sp }
      = some (recomputeMasks ((s.board.enum.filterMap
        (fun pe => if 0 < pe.2 then some ((pe.1 : Int), pe.2) else none)
      ++ (if 0 < s.bearOff.getD 1 0 then [((-1 : Int), s.bearOff.getD 1 0)] else [])).foldl
        (placeStep 1)
        (((s.board.enum.filterMap
            (fun pe => if pe.2 < 0 then some ((pe.1 : Int), -pe.2) else none)
          ++ (if 0 < s.bearOff.getD 0 0 then [((-1 : Int), s.bearOff.getD 0 0)] else [])).foldl
            (placeStep 0) ({ emptyState with turn := sp }, 0)).1, 0)).1) := by
    simp only [placeStonesFromList]
    rw [placeEntries_eq_foldl, placeEntries_eq_foldl, hE0, hE1]
    rw [if_neg (by rw [not_ne_iff]; exact cond0)]
    rw [if_neg (by rw [not_ne_iff]; exact cond1)]
  have hmk : mkState Z (stateToList s) sp
      = some { recomputeMasks ((s.board.enum.filterMap
          (fun pe => if 0 < pe.2 then some ((pe.1 : Int), pe.2) else none)
        ++ (if 0 < s.bearOff.getD 1 0 then [((-1 : Int), s.bearOff.getD 1 0)] else [])).foldl
          (placeStep 1)
          (((s.board.enum.filterMap
              (fun pe => if pe.2 < 0 then some ((pe.1 : Int), -pe.2) else none)
            ++ (if 0 < s.bearOff.getD 0 0 then [((-1 : Int), s.bearOff.getD 0 0)] else [])).foldl
              (placeStep 0) ({ emptyState with turn := sp }, 0)).1, 0)).1 with
          zhash := scratchHash Z (recomputeMasks ((s.board.enum.filterMap
            (fun pe => if 0 < pe.2 then some ((pe.1 : Int), pe.2) else none)
          ++ (if 0 < s.bearOff.getD 1 0 then [((-1 : Int), s.bearOff.getD 1 0)] else [])).foldl
            (placeStep 1)
            (((s.board.enum.filterMap
                (fun pe => if pe.2 < 0 then some ((pe.1 : Int), -pe.2) else none)
              ++ (if 0 < s.bearOff.getD 0 0 then [((-1 : Int), s.bearOff.getD 0 0)]
                else [])).foldl
                (placeStep 0) ({ emptyState with turn := sp }, 0)).1, 0)).1) } := by
    have hstep2 : mkState Z (stateToList s) sp
        = (placeStonesFromList (stateToList s) { emptyState with turn := sp }).map
          (fun st => { st with zhash := scratchHash Z st }) := rfl
    rw [hstep2, hps]
    rfl
  refine ⟨_, hmk, hboard, hbeF1, ?_⟩
  intro p hp
  have hfin : stoneTotal ((s.board.enum.filterMap
      (fun pe => if 0 < pe.2 then some ((pe.1 : Int), pe.2) else none)
    ++ (if 0 < s.bearOff.getD 1 0 then [((-1 : Int), s.bearOff.getD 1 0)] else [])).foldl
      (placeStep 1)
      (((s.board.enum.filterMap
          (fun pe => if pe.2 < 0 then some ((pe.1 : Int), -pe.2) else none)
        ++ (if 0 < s.bearOff.getD 0 0 then [((-1 : Int), s.bearOff.getD 0 0)] else [])).foldl
          (placeStep 0) ({ emptyState with turn := sp }, 0)).1, 0)).1 p
      = NUM_OF_ALL_STONES := by
    rw [stoneTotal_congr _ s hboard hbeF1 p]
    exact hstone p hp
  exact hfin

/-- Witness for C8 at a concrete input: round-tripping the start-of-game
state through `state_to_list`. -/
theorem stateToList_roundtrip_witness :
    Inv startState ∧
    ∃ s2, mkState Ztwo (stateToList startState) 0 = some s2 ∧
      s2.board = startState.board ∧ s2.bearOff = startState.bearOff ∧
      ∀ p, p < 2 → stoneTotal s2 p = NUM_OF_ALL_STONES :=
  ⟨by decide, stateToList_roundtrip Ztwo startState 0 (by decide)⟩

/-! ## Turn-independence of the stone primitives (toward C7) -/

theorem removeStone_turn (Z : ZTable) (pt pl : Nat) (s : State) :
    (removeStone Z pt pl s).turn = s.turn := by
  by_cases h : (num_of_stones s pt pl).toNat = 0
  · rw [removeStone_of_empty Z pt pl s (by have := num_nonneg s pt pl; omega)]
  · rw [removeStone_eq Z pt pl s (by have := num_nonneg s pt pl; omega)]
    rfl

theorem moveStone_turn (Z : ZTable) (f t pl : Nat) (s : State) :
    (moveStone Z f t pl s).turn = s.turn := by
  show (removeStone Z f pl s).turn = s.turn
  exact removeStone_turn Z f pl s

theorem applySM_turn (Z : ZTable) (m : SingleMove) (s : State) :
    (applySM Z m s).turn = s.turn := by
  obtain ⟨mp, mf, mt, mty, md⟩ := m
  cases mty
  case NORMAL =>
    show (moveStone Z mf mt mp s).turn = s.turn
    exact moveStone_turn Z mf mt mp s
  case HIT =>
    show (moveStone Z mf mt mp (moveStone Z mt (BAR_FIELD (1 - mp)) (1 - mp) s)).turn
      = s.turn
    rw [moveStone_turn, moveStone_turn]
  case BEAR_OFF =>
    show (removeStone Z mf mp s).turn = s.turn
    exact removeStone_turn Z mf mp s

theorem undoSM_turn (Z : ZTable) (m : SingleMove) (s : State) :
    (undoSM Z m s).turn = s.turn := by
  obtain ⟨mp, mf, mt, mty, md⟩ := m
  cases mty
  case NORMAL =>
    show (moveStone Z mt mf mp s).turn = s.turn
    exact moveStone_turn Z mt mf mp s
  case HIT =>
    show (moveStone Z (BAR_FIELD (1 - mp)) mt (1 - mp) (moveStone Z mt mf mp s)).turn
      = s.turn
    rw [moveStone_turn, moveStone_turn]
  case BEAR_OFF =>
    rfl

theorem addStone_switchTurn (Z : ZTable) (pt pl : Nat) (s : State) :
    addStone Z pt pl (switchTurn s) = switchTurn (addStone Z pt pl s) := rfl

theorem removeStone_switchTurn (Z : ZTable) (pt pl : Nat) (s : State) :
    removeStone Z pt pl (switchTurn s) = switchTurn (removeStone Z pt pl s) := by
  by_cases h : (num_of_stones s pt pl).toNat = 0
  · have h1 : num_of_stones s pt pl = 0 := by have := num_nonneg s pt pl; omega
    have h2 : num_of_stones (switchTurn s) pt pl = 0 := by
      rw [num_of_stones_congr (switchTurn s) s rfl pt pl]
      exact h1
    rw [removeStone_of_empty Z pt pl (switchTurn s) h2, removeStone_of_empty Z pt pl s h1]
  · have h1 : 1 ≤ num_of_stones s pt pl := by have := num_nonneg s pt pl; omega
    have h2 : 1 ≤ num_of_stones (switchTurn s) pt pl := by
      rw [num_of_stones_congr (switchTurn s) s rfl pt pl]
      exact h1
    rw [removeStone_eq Z pt pl (switchTurn s) h2, removeStone_eq Z pt pl s h1]
    rfl

theorem moveStone_switchTurn (Z : ZTable) (f t pl : Nat) (s : State) :
    moveStone Z f t pl (switchTurn s) = switchTurn (moveStone Z f t pl s) := by
  show addStone Z t pl (removeStone Z f pl (switchTurn s)) = _
  rw [removeStone_switchTurn, addStone_switchTurn]
  rfl

theorem applySM_switchTurn (Z : ZTable) (m : SingleMove) (s : State) :
    applySM Z m (switchTurn s) = switchTurn (applySM Z m s) := by
  obtain ⟨mp, mf, mt, mty, md⟩ := m
  cases mty
  case NORMAL =>
    show moveStone Z mf mt mp (switchTurn s) = switchTurn (moveStone Z mf mt mp s)
    exact moveStone_switchTurn Z mf mt mp s
  case HIT =>
    show moveStone Z mf mt mp (moveStone Z mt (BAR_FIELD (1 - mp)) (1 - mp) (switchTurn s))
      = switchTurn (moveStone Z mf mt mp (moveStone Z mt (BAR_FIELD (1 - mp)) (1 - mp) s))
    rw [moveStone_switchTurn, moveStone_switchTurn]
  case BEAR_OFF =>
    show bearOff Z mf mp (switchTurn s) = switchTurn (bearOff Z mf mp s)
    unfold bearOff
    rw [removeStone_switchTurn]
    rfl

theorem setBear_switchTurn (s : State) (v : List Int) :
    ({ switchTurn s with bearOff := v } : State) = switchTurn { s with bearOff := v } := rfl

theorem undoSM_switchTurn (Z : ZTable) (m : SingleMove) (s : State) :
    undoSM Z m (switchTurn s) = switchTurn (undoSM Z m s) := by
  obtain ⟨mp, mf, mt, mty, md⟩ := m
  cases mty
  case NORMAL =>
    show moveStone Z mt mf mp (switchTurn s) = switchTurn (moveStone Z mt mf mp s)
    exact moveStone_switchTurn Z mt mf mp s
  case HIT =>
    show moveStone Z (BAR_FIELD (1 - mp)) mt (1 - mp) (moveStone Z mt mf mp (switchTurn s))
      = switchTurn (moveStone Z (BAR_FIELD (1 - mp)) mt (1 - mp) (moveStone Z mt mf mp s))
    rw [moveStone_switchTurn, moveStone_switchTurn]
  case BEAR_OFF =>
    show undoBearOff Z mf mp (switchTurn s) = switchTurn (undoBearOff Z mf mp s)
    simp only [undoBearOff]
    rw [show (switchTurn s).bearOff = s.bearOff from rfl]
    have hrec : ({ board := (switchTurn s).board,
                   bearOff := s.bearOff.set mp (s.bearOff.getD mp 0 - 1),
                   occMask := (switchTurn s).occMask,
                   blockedMask := (switchTurn s).blockedMask,
                   turn := (switchTurn s).turn, zhash := (switchTurn s).zhash } : State)
      = switchTurn { s with bearOff := s.bearOff.set mp (s.bearOff.getD mp 0 - 1) } := rfl
    rw [hrec, addStone_switchTurn]
    rfl

/-! ## Sequences of applicable moves and the DFS fold invariant -/

/-- A list of single moves is applicable in sequence from a state. -/
def SeqApplicable (Z : ZTable) : State → List SingleMove → Prop
  | _, [] => True
  | s, sm :: rest => Applicable s sm ∧ SeqApplicable Z (applySM Z sm s) rest

/-- Generic fold invariant: a predicate preserved by every step holds of
the fold's result. -/
theorem foldl_inv {α β : Type} (P : β → Prop) (f : β → α → β) :
    ∀ (l : List α) (b : β), P b → (∀ x a, a ∈ l → P x → P (f x a)) →
      P (l.foldl f b) := by
  intro l
  induction l with
  | nil =>
    intro b hb _
    exact hb
  | cons a rest ih =>
    intro b hb hstep
    rw [List.foldl_cons]
    exact ih (f b a) (hstep b a (List.mem_cons_self a rest) hb)
      (fun x a2 ha2 hx => hstep x a2 (List.mem_cons_of_mem a ha2) hx)

/-- Applying an applicable sequence preserves the invariant, and undoing
it in reverse order restores the starting state exactly. -/
theorem seq_apply_undo (Z : ZTable) : ∀ (ms : List SingleMove) (s : State),
    Inv s → SeqApplicable Z s ms →
    Inv (ms.foldl (fun st sm => applySM Z sm st) s) ∧
    ms.reverse.foldl (fun st sm => undoSM Z sm st)
      (ms.foldl (fun st sm => applySM Z sm st) s) = s := by
  intro ms
  induction ms with
  | nil =>
    intro s hInv _
    exact ⟨hInv, rfl⟩
  | cons m rest ih =>
    intro s hInv hseq
    obtain ⟨hap, hrest⟩ := hseq
    have h1 : Inv (applySM Z m s) := applySM_Inv Z m s hInv hap
    obtain ⟨ih1, ih2⟩ := ih (applySM Z m s) h1 hrest
    constructor
    · show Inv (rest.foldl (fun st sm => applySM Z sm st) (applySM Z m s))
      exact ih1
    · rw [List.reverse_cons, List.foldl_append]
      show List.foldl (fun st sm => undoSM Z sm st) _ [m] = s
      rw [show ((m :: rest).foldl (fun st sm => applySM Z sm st) s)
          = (rest.foldl (fun st sm => applySM Z sm st) (applySM Z m s)) from rfl]
      rw [ih2]
      show undoSM Z m (applySM Z m s) = s
      exact undoSM_applySM Z m s hInv.1 hInv.2.2.2.2.2 hInv.2.2.2.1 hap

/-- Fold invariant of the DFS accumulator: the state component is restored
to `s`, and every recorded turn move is either pre-existing or extends the
current path by a sequence applicable at `s`. -/
def DfsOut (Z : ZTable) (s : State) (path : List SingleMove) (A0 : List TurnMove)
    (acc : State × (List (Nat × List Nat) × List TurnMove)) : Prop :=
  acc.1 = s ∧ ∀ tm ∈ acc.2.2, tm ∈ A0 ∨ ∃ suffix,
    tm.single_moves = path ++ suffix ∧ SeqApplicable Z s suffix

/-- Soundness of the DFS: every turn move it records extends the entry
path by a sequence of single moves applicable from the entry state. -/
theorem dfs_sound (Z : ZTable) : ∀ (fuel : Nat) (s : State) (diceLeft : List Nat)
    (path : List SingleMove) (VA : List (Nat × List Nat) × List TurnMove),
    Inv s →
    ∀ tm ∈ (dfs Z fuel s diceLeft path VA).2, tm ∈ VA.2 ∨ ∃ suffix,
      tm.single_moves = path ++ suffix ∧ SeqApplicable Z s suffix := by
  intro fuel
  induction fuel with
  | zero =>
    intro s diceLeft path VA _ tm htm
    exact Or.inl htm
  | succ fuel ih =>
    intro s diceLeft path VA hInv tm htm
    have htm' : tm ∈ (dfsStep Z (dfs Z fuel) s diceLeft path VA).2 := htm
    simp only [dfsStep] at htm'
    split at htm'
    · split at htm'
      · exact Or.inl htm'
      · have h2 : tm ∈ VA.2 ++ [(⟨path⟩ : TurnMove)] := htm'
        rcases List.mem_append.mp h2 with h | h
        · exact Or.inl h
        · have he : tm = (⟨path⟩ : TurnMove) := List.mem_singleton.mp h
          right
          refine ⟨[], ?_, True.intro⟩
          rw [he]
          exact (List.append_nil path).symm
    · split at htm'
      · exact Or.inl htm'
      · have hfold : DfsOut Z s path VA.2
            (diceLeft.enum.foldl (dfsDie Z (dfs Z fuel) diceLeft path)
              (s, ((s.zhash, sortNat diceLeft) :: VA.1, VA.2))) := by
          apply foldl_inv (DfsOut Z s path VA.2)
          · exact ⟨rfl, fun tm2 htm2 => Or.inl htm2⟩
          · intro acc idxDie _ hacc
            obtain ⟨ha1, ha2⟩ := hacc
            have heq : dfsDie Z (dfs Z fuel) diceLeft path acc idxDie
                = (generateMoves s idxDie.2).foldl
                  (dfsChild Z (dfs Z fuel) (diceLeft.eraseIdx idxDie.1) path) acc := by
              simp only [dfsDie]
              rw [ha1]
            rw [heq]
            apply foldl_inv (DfsOut Z s path VA.2)
            · exact ⟨ha1, ha2⟩
            · intro acc2 sm hsm hacc2
              obtain ⟨hb1, hb2⟩ := hacc2
              have hap := generateMoves_applicable s idxDie.2 sm hInv.2.2.2.2.2
                hInv.2.2.2.1 hInv.2.1 hsm
              constructor
              · show undoSM Z sm (applySM Z sm acc2.1) = s
                rw [hb1]
                exact undoSM_applySM Z sm s hInv.1 hInv.2.2.2.2.2 hInv.2.2.2.1 hap.1
              · intro tm2 htm2
                have htm2' : tm2 ∈ (dfs Z fuel (applySM Z sm acc2.1)
                    (diceLeft.eraseIdx idxDie.1) (path ++ [sm]) acc2.2).2 := htm2
                rw [hb1] at htm2'
                have hInv1 : Inv (applySM Z sm s) := applySM_Inv Z sm s hInv hap.1
                rcases ih (applySM Z sm s) (diceLeft.eraseIdx idxDie.1) (path ++ [sm])
                  acc2.2 hInv1 tm2 htm2' with h | hsuf
                · exact hb2 tm2 h
                · obtain ⟨suf, he, hs⟩ := hsuf
                  right
                  refine ⟨sm :: suf, ?_, hap.1, hs⟩
                  rw [he, List.append_assoc]
                  rfl
        exact hfold.2 tm htm'

/-! ## The R7 filter: maximal length and largest playable die -/

/-- The maximal sequence length computed by `filter_turn_moves`. -/
def tmsMaxLen (l : List TurnMove) : Nat :=
  (l.map (fun tm => tm.single_moves.length)).foldl Nat.max 0

/-- The largest die occurring in a list of turn moves, as computed by
`filter_turn_moves` in the single-move case. -/
def tmsBigDie (l : List TurnMove) : Nat :=
  l.foldl (fun acc tm => tm.single_moves.foldl (fun acc sm => acc.max sm.die) acc) 0

theorem le_foldl_max : ∀ (l : List Nat) (b : Nat), b ≤ l.foldl Nat.max b := by
  intro l
  induction l with
  | nil =>
    intro b
    exact Nat.le_refl b
  | cons a rest ih =>
    intro b
    rw [List.foldl_cons]
    exact Nat.le_trans (Nat.le_max_left b a) (ih (b.max a))

theorem mem_le_foldl_max : ∀ (l : List Nat) (b a : Nat), a ∈ l → a ≤ l.foldl Nat.max b := by
  intro l
  induction l with
  | nil =>
    intro b a ha
    exact absurd ha (List.not_mem_nil a)
  | cons x rest ih =>
    intro b a ha
    rw [List.foldl_cons]
    rcases List.mem_cons.mp ha with h | h
    · subst h
      exact Nat.le_trans (Nat.le_max_right b a) (le_foldl_max rest (b.max a))
    · exact ih (b.max x) a h

theorem mem_le_tmsMaxLen (l : List TurnMove) (tm : TurnMove) (h : tm ∈ l) :
    tm.single_moves.length ≤ tmsMaxLen l :=
  mem_le_foldl_max _ 0 _ (List.mem_map_of_mem (fun tm2 => tm2.single_moves.length) h)

theorem le_foldl_maxdie_init : ∀ (ms : List SingleMove) (b : Nat),
    b ≤ ms.foldl (fun acc sm => acc.max sm.die) b := by
  intro ms
  induction ms with
  | nil =>
    intro b
    exact Nat.le_refl b
  | cons a rest ih =>
    intro b
    rw [List.foldl_cons]
    exact Nat.le_trans (Nat.le_max_left b a.die) (ih (b.max a.die))

theorem mem_le_foldl_maxdie : ∀ (ms : List SingleMove) (b : Nat) (sm : SingleMove),
    sm ∈ ms → sm.die ≤ ms.foldl (fun acc sm2 => acc.max sm2.die) b := by
  intro ms
  induction ms with
  | nil =>
    intro b sm hsm
    exact absurd hsm (List.not_mem_nil sm)
  | cons x rest ih =>
    intro b sm hsm
    rw [List.foldl_cons]
    rcases List.mem_cons.mp hsm with h | h
    · subst h
      exact Nat.le_trans (Nat.le_max_right b sm.die) (le_foldl_maxdie_init rest (b.max sm.die))
    · exact ih (b.max x.die) sm h

theorem bigDie_init_le : ∀ (ll : List TurnMove) (b : Nat),
    b ≤ ll.foldl (fun acc tm2 => tm2.single_moves.foldl (fun acc sm2 => acc.max sm2.die) acc) b := by
  intro ll
  induction ll with
  | nil =>
    intro b
    exact Nat.le_refl b
  | cons a rest ih =>
    intro b
    rw [List.foldl_cons]
    refine Nat.le_trans ?_ (ih _)
    show b ≤ a.single_moves.foldl (fun acc sm2 => acc.max sm2.die) b
    exact le_foldl_maxdie_init a.single_moves b

theorem le_tmsBigDie : ∀ (ll : List TurnMove) (b : Nat) (tm : TurnMove), tm ∈ ll →
    ∀ sm ∈ tm.single_moves, sm.die ≤ ll.foldl
      (fun acc tm2 => tm2.single_moves.foldl (fun acc sm2 => acc.max sm2.die) acc) b := by
  intro ll
  induction ll with
  | nil =>
    intro b tm h
    exact absurd h (List.not_mem_nil tm)
  | cons a rest ih =>
    intro b tm h sm hsm
    rw [List.foldl_cons]
    rcases List.mem_cons.mp h with h1 | h1
    · subst h1
      refine Nat.le_trans ?_ (bigDie_init_le rest _)
      show sm.die ≤ tm.single_moves.foldl (fun acc sm2 => acc.max sm2.die) b
      exact mem_le_foldl_maxdie tm.single_moves b sm hsm
    · exact ih _ tm h1 sm hsm

/-- Membership in the filtered move list: the move was generated, has the
maximal generated length, and in the single-move case carries the largest
die among the kept sequences. -/
theorem mem_filterTurnMoves (l : List TurnMove) (tm : TurnMove)
    (h : tm ∈ filterTurnMoves l) :
    tm ∈ l ∧ tm.single_moves.length = tmsMaxLen l ∧
      (tmsMaxLen l = 1 → tm.single_moves.isEmpty = false ∧
        (tm.single_moves.headD default).die
          = tmsBigDie (l.filter (fun tm2 => tm2.single_moves.length = tmsMaxLen l))) := by
  cases l with
  | nil => exact absurd h (List.not_mem_nil tm)
  | cons a rest =>
    have hM : tmsMaxLen (a :: rest)
        = ((a :: rest).map (fun tm => tm.single_moves.length)).foldl Nat.max 0 := rfl
    rw [hM]
    simp only [filterTurnMoves] at h
    split at h
    · have h1 := List.mem_filter.mp h
      have h2 := List.mem_filter.mp h1.1
      have h3 := h1.2
      rw [Bool.and_eq_true] at h3
      refine ⟨h2.1, of_decide_eq_true h2.2, fun _ => ⟨?_, ?_⟩⟩
      · have := h3.1
        rw [Bool.not_eq_true'] at this
        exact this
      · exact of_decide_eq_true h3.2
    · have h2 := List.mem_filter.mp h
      next hne =>
        exact ⟨h2.1, of_decide_eq_true h2.2, fun h1 => absurd h1 hne⟩

/-- Every move returned by `generate_legal_moves` was produced by the DFS. -/
theorem filterTurnMoves_subset (l : List TurnMove) (tm : TurnMove)
    (h : tm ∈ filterTurnMoves l) : tm ∈ l :=
  (mem_filterTurnMoves l tm h).1

/-- Every move returned by `generate_legal_moves` is applicable in
sequence from the queried state. -/
theorem generateLegalMoves_seqA (Z : ZTable) (s : State) (dice : List Nat)
    (tm : TurnMove) (hInv : Inv s) (hmem : tm ∈ generateLegalMoves Z s dice) :
    SeqApplicable Z s tm.single_moves := by
  have h1 : tm ∈ generateAllTurnMoves Z s dice := filterTurnMoves_subset _ tm hmem
  have h2 := dfs_sound Z (dice.length + 1) s dice [] ([], []) hInv tm h1
  rcases h2 with h | hsuf
  · exact absurd h (List.not_mem_nil tm)
  · obtain ⟨suf, he, hs⟩ := hsuf
    rw [he]
    exact hs

/-! ## Restoration of the root state by rollout and select_move -/

theorem applyTM_Inv_undo (Z : ZTable) (mv : TurnMove) (s : State) (hI : Inv s)
    (hseq : SeqApplicable Z s mv.single_moves) :
    Inv (applyTM Z mv s) ∧ undoTM Z mv (applyTM Z mv s) = s :=
  seq_apply_undo Z mv.single_moves s hI hseq

theorem foldApply_turn (Z : ZTable) : ∀ (ms : List SingleMove) (s : State),
    (ms.foldl (fun st sm => applySM Z sm st) s).turn = s.turn := by
  intro ms
  induction ms with
  | nil =>
    intro s
    rfl
  | cons m rest ih =>
    intro s
    rw [List.foldl_cons]
    show (rest.foldl (fun st sm => applySM Z sm st) (applySM Z m s)).turn = s.turn
    rw [ih (applySM Z m s), applySM_turn]

theorem foldUndo_switchTurn (Z : ZTable) : ∀ (ms : List SingleMove) (s : State),
    ms.foldl (fun st sm => undoSM Z sm st) (switchTurn s)
      = switchTurn (ms.foldl (fun st sm => undoSM Z sm st) s) := by
  intro ms
  induction ms with
  | nil =>
    intro s
    rfl
  | cons m rest ih =>
    intro s
    rw [List.foldl_cons, List.foldl_cons]
    show rest.foldl (fun st sm => undoSM Z sm st) (undoSM Z m (switchTurn s))
      = switchTurn (rest.foldl (fun st sm => undoSM Z sm st) (undoSM Z m s))
    rw [undoSM_switchTurn]
    exact ih (undoSM Z m s)

/-- The rollout's pair fold (apply and record on the stack) in terms of
the plain apply fold. -/
theorem applyStack_fold (Z : ZTable) : ∀ (ms : List SingleMove) (p : State × List SingleMove),
    ms.foldl (fun (q : State × List SingleMove) sm => (applySM Z sm q.1, q.2 ++ [sm])) p
      = (ms.foldl (fun st sm => applySM Z sm st) p.1, p.2 ++ ms) := by
  intro ms
  induction ms with
  | nil =>
    intro p
    rw [List.foldl_nil, List.foldl_nil, List.append_nil]
  | cons m rest ih =>
    intro p
    rw [List.foldl_cons, List.foldl_cons]
    show rest.foldl (fun (q : State × List SingleMove) sm => (applySM Z sm q.1, q.2 ++ [sm]))
        (applySM Z m p.1, p.2 ++ [m])
      = (rest.foldl (fun st sm => applySM Z sm st) (applySM Z m p.1), p.2 ++ (m :: rest))
    rw [ih (applySM Z m p.1, p.2 ++ [m])]
    rw [List.append_assoc]
    rfl

theorem getD_mod_mem {α : Type} (l : List α) (i : Nat) (d : α) (h : l ≠ []) :
    l.getD (i % l.length) d ∈ l := by
  have hlen : 0 < l.length := List.length_pos.mpr h
  have hlt : i % l.length < l.length := Nat.mod_lt i hlen
  rw [List.getD_eq_getElem?_getD, List.getElem?_eq_getElem hlt]
  show l[i % l.length] ∈ l
  exact List.getElem_mem hlt

/-- The move-applying branch of a rollout ply keeps the undo-stack
invariant: the state satisfies the invariant and undoing the whole stack
recovers the root up to the turn counter. -/
theorem rolloutPly_J_apply (Z : ZTable) (s : State) (p : State × List SingleMove)
    (ms : List SingleMove) (hI : Inv p.1)
    (hU : p.2.reverse.foldl (fun st sm => undoSM Z sm st) p.1 = { s with turn := p.1.turn })
    (hseq : SeqApplicable Z p.1 ms) :
    Inv (switchTurn (ms.foldl (fun (q : State × List SingleMove) sm =>
        (applySM Z sm q.1, q.2 ++ [sm])) p).1) ∧
    (ms.foldl (fun (q : State × List SingleMove) sm =>
        (applySM Z sm q.1, q.2 ++ [sm])) p).2.reverse.foldl
        (fun st sm => undoSM Z sm st)
        (switchTurn (ms.foldl (fun (q : State × List SingleMove) sm =>
          (applySM Z sm q.1, q.2 ++ [sm])) p).1)
      = { s with turn := (switchTurn (ms.foldl (fun (q : State × List SingleMove) sm =>
          (applySM Z sm q.1, q.2 ++ [sm])) p).1).turn } := by
  have hsau := seq_apply_undo Z ms p.1 hI hseq
  rw [applyStack_fold Z ms p]
  constructor
  · show Inv (switchTurn (ms.foldl (fun st sm => applySM Z sm st) p.1))
    exact switchTurn_Inv _ hsau.1
  · show (p.2 ++ ms).reverse.foldl (fun st sm => undoSM Z sm st)
        (switchTurn (ms.foldl (fun st sm => applySM Z sm st) p.1))
      = { s with turn := (switchTurn (ms.foldl (fun st sm => applySM Z sm st) p.1)).turn }
    rw [List.reverse_append, foldUndo_switchTurn, List.foldl_append, hsau.2, hU]
    rw [show (switchTurn (ms.foldl (fun st sm => applySM Z sm st) p.1)).turn
        = 1 - (ms.foldl (fun st sm => applySM Z sm st) p.1).turn from rfl]
    rw [foldApply_turn Z ms p.1]
    rfl

/-- One rollout ply preserves the undo-stack invariant. -/
theorem rolloutPly_J (Z : ZTable) (s : State) (ply : RollPly) (p : State × List SingleMove)
    (hI : Inv p.1)
    (hU : p.2.reverse.foldl (fun st sm => undoSM Z sm st) p.1 = { s with turn := p.1.turn }) :
    Inv (rolloutPly Z ply p).1 ∧
      (rolloutPly Z ply p).2.reverse.foldl (fun st sm => undoSM Z sm st) (rolloutPly Z ply p).1
      = { s with turn := (rolloutPly Z ply p).1.turn } := by
  by_cases hmv : (generateLegalMoves Z p.1 (processDice [ply.d1, ply.d2])).isEmpty = true
  · have hre : rolloutPly Z ply p = (switchTurn p.1, p.2) := by
      simp only [rolloutPly]
      rw [if_pos hmv]
    rw [hre]
    constructor
    · exact switchTurn_Inv p.1 hI
    · show p.2.reverse.foldl (fun st sm => undoSM Z sm st) (switchTurn p.1)
        = { s with turn := (switchTurn p.1).turn }
      rw [foldUndo_switchTurn, hU]
      rfl
  · have hL : generateLegalMoves Z p.1 (processDice [ply.d1, ply.d2]) ≠ [] := by
      intro h
      rw [h] at hmv
      exact hmv rfl
    have hre : rolloutPly Z ply p
        = (switchTurn (((generateLegalMoves Z p.1 (processDice [ply.d1, ply.d2])).getD
            (ply.choice % (generateLegalMoves Z p.1 (processDice [ply.d1, ply.d2])).length)
            ⟨[]⟩).single_moves.foldl (fun (q : State × List SingleMove) sm =>
              (applySM Z sm q.1, q.2 ++ [sm])) p).1,
          (((generateLegalMoves Z p.1 (processDice [ply.d1, ply.d2])).getD
            (ply.choice % (generateLegalMoves Z p.1 (processDice [ply.d1, ply.d2])).length)
            ⟨[]⟩).single_moves.foldl (fun (q : State × List SingleMove) sm =>
              (applySM Z sm q.1, q.2 ++ [sm])) p).2) := by
      simp only [rolloutPly]
      rw [if_neg hmv]
    rw [hre]
    have hmem := getD_mod_mem (generateLegalMoves Z p.1 (processDice [ply.d1, ply.d2]))
      ply.choice (⟨[]⟩ : TurnMove) hL
    have hseq := generateLegalMoves_seqA Z p.1 (processDice [ply.d1, ply.d2]) _ hI hmem
    exact rolloutPly_J_apply Z s p _ hI hU hseq

/-- `rollout` restores the state it was given. -/
theorem rollout_restore (Z : ZTable) (plies : List RollPly) (s : State) (hInv : Inv s) :
    rollout Z plies s = s := by
  simp only [rollout]
  split
  · rfl
  · have hJ := foldl_inv (fun (p : State × List SingleMove) => Inv p.1 ∧
        p.2.reverse.foldl (fun st sm => undoSM Z sm st) p.1 = { s with turn := p.1.turn })
      (fun p ply => rolloutPly Z ply p) plies (s, []) ⟨hInv, rfl⟩
      (fun p ply _ hp => rolloutPly_J Z s ply p hp.1 hp.2)
    rw [hJ.2]

/-- The initialization pass of `select_move` restores the root state. -/
theorem selectInit_restore (Z : ZTable) (s : State) (dice : List Nat)
    (legalMoves : List TurnMove) (hI : Inv s)
    (hleg : ∀ mv ∈ legalMoves, mv ∈ generateLegalMoves Z s dice) :
    selectInit Z legalMoves s = s := by
  show legalMoves.foldl (fun st mv => undoTM Z mv (applyTM Z mv st)) s = s
  refine foldl_inv (fun st => st = s) (fun st mv => undoTM Z mv (applyTM Z mv st))
    legalMoves s rfl ?_
  intro st mv hmv hst
  show undoTM Z mv (applyTM Z mv st) = s
  subst hst
  exact (applyTM_Inv_undo Z mv st hI
    (generateLegalMoves_seqA Z st dice mv hI (hleg mv hmv))).2

/-- One UCB1 iteration of `select_move` restores the root state. -/
theorem selectIter_restore (Z : ZTable) (s : State) (dice : List Nat)
    (legalMoves : List TurnMove) (it : IterChoice) (hI : Inv s)
    (hleg : ∀ mv ∈ legalMoves, mv ∈ generateLegalMoves Z s dice) :
    selectIter Z legalMoves s it = s := by
  have hseq : SeqApplicable Z s
      ((legalMoves.getD (it.pick % legalMoves.length) ⟨[]⟩).single_moves) := by
    by_cases h : legalMoves = []
    · rw [h]
      exact True.intro
    · exact generateLegalMoves_seqA Z s dice _ hI
        (hleg _ (getD_mod_mem legalMoves it.pick ⟨[]⟩ h))
  have hau := applyTM_Inv_undo Z (legalMoves.getD (it.pick % legalMoves.length) ⟨[]⟩) s hI hseq
  show undoTM Z (legalMoves.getD (it.pick % legalMoves.length) ⟨[]⟩)
    (rollout Z it.rolls (applyTM Z (legalMoves.getD (it.pick % legalMoves.length) ⟨[]⟩) s)) = s
  rw [rollout_restore Z it.rolls _ hau.1]
  exact hau.2

/-- C7: for any list of legal turn moves of the current position and any
number of UCB1 iterations with arbitrary rollout randomness, `select_move`
leaves the state unchanged — in particular its Zobrist hash equals the
root hash recorded before selection began. -/
theorem select_move_preserves_root (Z : ZTable) (s : State) (dice : List Nat)
    (legalMoves : List TurnMove) (iters : List IterChoice) (hInv : Inv s)
    (hleg : ∀ mv ∈ legalMoves, mv ∈ generateLegalMoves Z s dice) :
    selectMoveState Z legalMoves iters s = s ∧
    (selectMoveState Z legalMoves iters s).zhash = s.zhash := by
  have hmain : selectMoveState Z legalMoves iters s = s := by
    show iters.foldl (selectIter Z legalMoves) (selectInit Z legalMoves s) = s
    rw [selectInit_restore Z s dice legalMoves hInv hleg]
    refine foldl_inv (fun st => st = s) (selectIter Z legalMoves) iters s rfl ?_
    intro st it _ hst
    show selectIter Z legalMoves st it = s
    subst hst
    exact selectIter_restore Z st dice legalMoves it hInv hleg
  exact ⟨hmain, by rw [hmain]⟩

theorem select_move_preserves_root_witness :
    Inv startState ∧
    selectMoveState Ztwo (generateLegalMoves Ztwo startState [6, 1]) [⟨0, []⟩] startState
      = startState :=
  ⟨by decide, (select_move_preserves_root Ztwo startState [6, 1]
      (generateLegalMoves Ztwo startState [6, 1]) [⟨0, []⟩] (by decide)
      (fun mv h => h)).1⟩

/-! ## C4: what the returned turn moves maximize -/

/-- Test position for the single-die filter: player 0 has one checker on
the bar and fourteen on point 1; player 1 holds points 20 and 17 with two
checkers each and stacks eleven on point 19. With dice [5, 3], entering
from the bar with the 5 (target 20) is blocked, so the only legal play is
entering with the 3 (target 22). -/
def c53state : State :=
  (mkState Ztwo [[(1, 14), (25, 1)], [(20, 2), (17, 2), (19, 11)]] 0).getD emptyState

/-- C4 (counterexample): on `c53state` with dice [5, 3] the maximal
achievable sequence length is 1, yet the single returned sequence plays
die 3 — not the larger rolled die 5, which has no legal move. -/
theorem larger_die_claim_false :
    generateLegalMoves Ztwo c53state [5, 3]
      = [⟨[⟨0, 25, 22, SingleMoveType.NORMAL, 3⟩]⟩] ∧
    tmsMaxLen (generateAllTurnMoves Ztwo c53state [5, 3]) = 1 ∧
    ∀ tm ∈ generateLegalMoves Ztwo c53state [5, 3], ∀ sm ∈ tm.single_moves,
      sm.die ≠ 5 := by decide


/-! ## List, multiset and enumeration bridges for the DFS analysis -/

theorem perm_eraseIdx : ∀ (l : List Nat) (i : Nat), i < l.length →
    l.Perm (l.getD i 0 :: l.eraseIdx i) := by
  intro l
  induction l with
  | nil =>
    intro i h
    exact absurd h (Nat.not_lt_zero i)
  | cons a rest ih =>
    intro i h
    cases i with
    | zero => exact List.Perm.refl _
    | succ j =>
      have hj : j < rest.length := by
        have h2 : j + 1 < rest.length + 1 := h
        omega
      exact ((ih j hj).cons a).trans (List.Perm.swap _ _ _)

theorem length_eraseIdx_of_lt (l : List Nat) (i : Nat) (h : i < l.length) :
    (l.eraseIdx i).length = l.length - 1 := by
  have h2 := (perm_eraseIdx l i h).length_eq
  rw [List.length_cons] at h2
  omega

theorem mset_eraseIdx (l : List Nat) (i : Nat) (h : i < l.length) :
    ((l.eraseIdx i : List Nat) : Multiset Nat) = (l : Multiset Nat).erase (l.getD i 0) := by
  have h1 : (l : Multiset Nat) = ((l.getD i 0 :: l.eraseIdx i : List Nat) : Multiset Nat) :=
    Multiset.coe_eq_coe.mpr (perm_eraseIdx l i h)
  rw [h1]
  rw [show ((l.getD i 0 :: l.eraseIdx i : List Nat) : Multiset Nat)
      = (l.getD i 0) ::ₘ ((l.eraseIdx i : List Nat) : Multiset Nat) from
    (Multiset.cons_coe _ _).symm]
  rw [Multiset.erase_cons_head]

theorem sortNat_length (l : List Nat) : (sortNat l).length = l.length :=
  (List.perm_insertionSort (· ≤ ·) l).length_eq

theorem mset_sortNat (l : List Nat) :
    ((sortNat l : List Nat) : Multiset Nat) = (l : Multiset Nat) :=
  Multiset.coe_eq_coe.mpr (List.perm_insertionSort (· ≤ ·) l)

theorem enum_mem_facts (l : List Nat) (idx die : Nat) (h : (idx, die) ∈ l.enum) :
    idx < l.length ∧ l.getD idx 0 = die := by
  rw [List.mem_enum_iff_getElem?] at h
  have hlt : idx < l.length := by
    by_contra hge
    rw [List.getElem?_eq_none (by omega)] at h
    exact absurd h (by simp)
  refine ⟨hlt, ?_⟩
  rw [List.getD_eq_getElem?_getD, h]
  rfl

theorem enum_mem_intro (l : List Nat) (idx : Nat) (h : idx < l.length) :
    (idx, l.getD idx 0) ∈ l.enum := by
  rw [List.mem_enum_iff_getElem?]
  rw [List.getD_eq_getElem?_getD, List.getElem?_eq_getElem h]
  rfl

theorem isEmpty_false_of_mem {α : Type} (l : List α) (a : α) (h : a ∈ l) :
    l.isEmpty = false := by
  cases l with
  | nil => exact absurd h (List.not_mem_nil a)
  | cons x t => rfl

theorem anyMoveLeft_false (s : State) (dl : List Nat) (h : anyMoveLeft s dl = false) :
    ∀ die ∈ dl, generateMoves s die = [] := by
  intro die hdie
  by_contra hne
  have h1 : (generateMoves s die).isEmpty = false := by
    cases hempty : (generateMoves s die).isEmpty with
    | false => rfl
    | true => exact absurd (List.isEmpty_iff.mp hempty) hne
  have h2 : dl.any (fun die => !(generateMoves s die).isEmpty) = true :=
    List.any_eq_true.mpr ⟨die, hdie, by rw [h1]; rfl⟩
  rw [show anyMoveLeft s dl = dl.any (fun die => !(generateMoves s die).isEmpty) from rfl,
    h2] at h
  exact absurd h (by decide)

theorem anyMoveLeft_true (s : State) (dl : List Nat) (h : anyMoveLeft s dl = true) :
    ∃ die ∈ dl, generateMoves s die ≠ [] := by
  have h2 : dl.any (fun die => !(generateMoves s die).isEmpty) = true := h
  obtain ⟨die, hdie, hp⟩ := List.any_eq_true.mp h2
  refine ⟨die, hdie, ?_⟩
  intro hnil
  rw [hnil] at hp
  exact absurd hp (by decide)

theorem anyMoveLeft_eq_false_of (s : State) (dl : List Nat)
    (h : ∀ die ∈ dl, generateMoves s die = []) : anyMoveLeft s dl = false := by
  show dl.any (fun die => !(generateMoves s die).isEmpty) = false
  cases hh : dl.any (fun die => !(generateMoves s die).isEmpty) with
  | false => rfl
  | true =>
    obtain ⟨die, hdie, hp⟩ := List.any_eq_true.mp hh
    rw [h die hdie] at hp
    exact absurd hp (by decide)

theorem Seq_nil_inv (Z : ZTable) (s : State) (D : Multiset Nat) (s2 : State)
    (D2 : Multiset Nat) (h : Seq Z s D [] s2 D2) : s2 = s ∧ D2 = D := by
  cases h
  exact ⟨rfl, rfl⟩

theorem Seq_cons_inv (Z : ZTable) (s : State) (D : Multiset Nat) (sm : SingleMove)
    (p : List SingleMove) (s2 : State) (D2 : Multiset Nat)
    (h : Seq Z s D (sm :: p) s2 D2) :
    ∃ die, die ∈ D ∧ sm ∈ generateMoves s die ∧
      Seq Z (applySM Z sm s) (D.erase die) p s2 D2 := by
  cases h
  next die hdie hsm hrest => exact ⟨die, hdie, hsm, hrest⟩

/-- Fold invariant of the DFS accumulator with dice accounting: the state
component is restored to `s`, and every recorded turn move is either
pre-existing or extends the current path by a dice-respecting legal
sequence ending in a dead end. -/
def DfsOutS (Z : ZTable) (s : State) (diceLeft : List Nat) (path : List SingleMove)
    (A0 : List TurnMove) (acc : State × (List (Nat × List Nat) × List TurnMove)) : Prop :=
  acc.1 = s ∧ ∀ tm ∈ acc.2.2, tm ∈ A0 ∨ ∃ suffix s2 D2,
    tm.single_moves = path ++ suffix ∧ tm.single_moves ≠ [] ∧
    Seq Z s ((diceLeft : List Nat) : Multiset Nat) suffix s2 D2 ∧ DeadEnd s2 D2

/-- Dice-respecting soundness of the DFS: every turn move it records
extends the entry path by a legal sequence of single moves (one legal
move per remaining die) that ends with no remaining die playable. -/
theorem dfs_sound_seq (Z : ZTable) : ∀ (fuel : Nat) (s : State) (diceLeft : List Nat)
    (path : List SingleMove) (VA : List (Nat × List Nat) × List TurnMove),
    Inv s →
    ∀ tm ∈ (dfs Z fuel s diceLeft path VA).2, tm ∈ VA.2 ∨ ∃ suffix s2 D2,
      tm.single_moves = path ++ suffix ∧ tm.single_moves ≠ [] ∧
      Seq Z s ((diceLeft : List Nat) : Multiset Nat) suffix s2 D2 ∧ DeadEnd s2 D2 := by
  intro fuel
  induction fuel with
  | zero =>
    intro s diceLeft path VA _ tm htm
    exact Or.inl htm
  | succ fuel ih =>
    intro s diceLeft path VA hInv tm htm
    have htm' : tm ∈ (dfsStep Z (dfs Z fuel) s diceLeft path VA).2 := htm
    simp only [dfsStep] at htm'
    split at htm'
    next hstop =>
      split at htm'
      · exact Or.inl htm'
      next hpne =>
        have h2 : tm ∈ VA.2 ++ [(⟨path⟩ : TurnMove)] := htm'
        rcases List.mem_append.mp h2 with h | h
        · exact Or.inl h
        · have he : tm = (⟨path⟩ : TurnMove) := List.mem_singleton.mp h
          right
          have hdead : DeadEnd s ((diceLeft : List Nat) : Multiset Nat) := by
            intro die hdie
            exact anyMoveLeft_false s diceLeft (by
              cases hb : anyMoveLeft s diceLeft with
              | false => rfl
              | true => rw [hb] at hstop; exact absurd hstop (by decide))
              die (Multiset.mem_coe.mp hdie)
          refine ⟨[], s, _, ?_, ?_, Seq.nil s _, hdead⟩
          · rw [he]
            exact (List.append_nil path).symm
          · rw [he]
            intro h0
            have h0' : path = [] := h0
            rw [h0'] at hpne
            exact hpne rfl
    · split at htm'
      · exact Or.inl htm'
      · have hfold : DfsOutS Z s diceLeft path VA.2
            (diceLeft.enum.foldl (dfsDie Z (dfs Z fuel) diceLeft path)
              (s, ((s.zhash, sortNat diceLeft) :: VA.1, VA.2))) := by
          apply foldl_inv (DfsOutS Z s diceLeft path VA.2)
          · exact ⟨rfl, fun tm2 htm2 => Or.inl htm2⟩
          · intro acc idxDie hmemE hacc
            obtain ⟨idx, die⟩ := idxDie
            obtain ⟨hidx, hget⟩ := enum_mem_facts diceLeft idx die hmemE
            obtain ⟨ha1, ha2⟩ := hacc
            have heq : dfsDie Z (dfs Z fuel) diceLeft path acc (idx, die)
                = (generateMoves s die).foldl
                  (dfsChild Z (dfs Z fuel) (diceLeft.eraseIdx idx) path) acc := by
              simp only [dfsDie]
              rw [ha1]
            rw [heq]
            apply foldl_inv (DfsOutS Z s diceLeft path VA.2)
            · exact ⟨ha1, ha2⟩
            · intro acc2 sm hsm hacc2
              obtain ⟨hb1, hb2⟩ := hacc2
              have hap := generateMoves_applicable s die sm hInv.2.2.2.2.2
                hInv.2.2.2.1 hInv.2.1 hsm
              constructor
              · show undoSM Z sm (applySM Z sm acc2.1) = s
                rw [hb1]
                exact undoSM_applySM Z sm s hInv.1 hInv.2.2.2.2.2 hInv.2.2.2.1 hap.1
              · intro tm2 htm2
                have htm2' : tm2 ∈ (dfs Z fuel (applySM Z sm acc2.1)
                    (diceLeft.eraseIdx idx) (path ++ [sm]) acc2.2).2 := htm2
                rw [hb1] at htm2'
                have hInv1 : Inv (applySM Z sm s) := applySM_Inv Z sm s hInv hap.1
                rcases ih (applySM Z sm s) (diceLeft.eraseIdx idx) (path ++ [sm])
                  acc2.2 hInv1 tm2 htm2' with h | hsuf
                · exact hb2 tm2 h
                · obtain ⟨suf, s2, D2, he, hne0, hseq, hdead⟩ := hsuf
                  right
                  have hdieM : die ∈ ((diceLeft : List Nat) : Multiset Nat) := by
                    rw [Multiset.mem_coe]
                    rw [← hget]
                    rw [List.getD_eq_getElem?_getD, List.getElem?_eq_getElem hidx]
                    exact List.getElem_mem hidx
                  have hseq2 : Seq Z (applySM Z sm s)
                      (((diceLeft : List Nat) : Multiset Nat).erase die) suf s2 D2 := by
                    rw [← hget, ← mset_eraseIdx diceLeft idx hidx]
                    exact hseq
                  refine ⟨sm :: suf, s2, D2, ?_, hne0,
                    Seq.cons s _ die sm suf s2 D2 hdieM hsm hseq2, hdead⟩
                  rw [he, List.append_assoc]
                  rfl
        exact hfold.2 tm htm'

/-- The DFS only adds to the visited set and to the recorded moves. -/
theorem dfs_mono (Z : ZTable) : ∀ (fuel : Nat) (s : State) (diceLeft : List Nat)
    (path : List SingleMove) (VA : List (Nat × List Nat) × List TurnMove),
    (∀ k ∈ VA.1, k ∈ (dfs Z fuel s diceLeft path VA).1) ∧
    (∀ tm ∈ VA.2, tm ∈ (dfs Z fuel s diceLeft path VA).2) := by
  intro fuel
  induction fuel with
  | zero =>
    intro s dl path VA
    exact ⟨fun k hk => hk, fun tm htm => htm⟩
  | succ fuel ih =>
    intro s dl path VA
    have hre : dfs Z (fuel + 1) s dl path VA = dfsStep Z (dfs Z fuel) s dl path VA := rfl
    rw [hre]
    simp only [dfsStep]
    split
    · constructor
      · intro k hk
        exact hk
      · intro tm htm
        show tm ∈ if path.isEmpty = true then VA.2 else VA.2 ++ [(⟨path⟩ : TurnMove)]
        split
        · exact htm
        · exact List.mem_append_left _ htm
    · split
      · exact ⟨fun k hk => hk, fun tm htm => htm⟩
      · have hstep : ∀ (acc : State × (List (Nat × List Nat) × List TurnMove)) idxd,
            idxd ∈ dl.enum →
            ((∀ k ∈ VA.1, k ∈ acc.2.1) ∧ (∀ tm ∈ VA.2, tm ∈ acc.2.2)) →
            ((∀ k ∈ VA.1, k ∈ (dfsDie Z (dfs Z fuel) dl path acc idxd).2.1) ∧
             (∀ tm ∈ VA.2, tm ∈ (dfsDie Z (dfs Z fuel) dl path acc idxd).2.2)) := by
          intro acc idxd _ hacc
          have hinner := foldl_inv
            (fun (x : State × (List (Nat × List Nat) × List TurnMove)) =>
              (∀ k ∈ VA.1, k ∈ x.2.1) ∧ (∀ tm ∈ VA.2, tm ∈ x.2.2))
            (dfsChild Z (dfs Z fuel) (dl.eraseIdx idxd.1) path)
            (generateMoves acc.1 idxd.2) acc hacc ?_
          · exact hinner
          · intro x smx _ hx
            constructor
            · intro k hk
              show k ∈ (dfs Z fuel (applySM Z smx x.1) (dl.eraseIdx idxd.1)
                (path ++ [smx]) x.2).1
              exact (ih (applySM Z smx x.1) (dl.eraseIdx idxd.1)
                (path ++ [smx]) x.2).1 k (hx.1 k hk)
            · intro tm htm
              show tm ∈ (dfs Z fuel (applySM Z smx x.1) (dl.eraseIdx idxd.1)
                (path ++ [smx]) x.2).2
              exact (ih (applySM Z smx x.1) (dl.eraseIdx idxd.1)
                (path ++ [smx]) x.2).2 tm (hx.2 tm htm)
        have hfold := foldl_inv
          (fun (acc : State × (List (Nat × List Nat) × List TurnMove)) =>
            (∀ k ∈ VA.1, k ∈ acc.2.1) ∧ (∀ tm ∈ VA.2, tm ∈ acc.2.2))
          (dfsDie Z (dfs Z fuel) dl path) dl.enum
          (s, ((s.zhash, sortNat dl) :: VA.1, VA.2))
          ⟨fun k hk => List.mem_cons_of_mem _ hk, fun tm htm => htm⟩ hstep
        exact ⟨hfold.1, hfold.2⟩

/-- Keys the DFS adds to the visited set carry at most the current number
of remaining dice. -/
theorem dfs_newkeys (Z : ZTable) : ∀ (fuel : Nat) (s : State) (diceLeft : List Nat)
    (path : List SingleMove) (VA : List (Nat × List Nat) × List TurnMove),
    ∀ k ∈ (dfs Z fuel s diceLeft path VA).1, k ∈ VA.1 ∨ k.2.length ≤ diceLeft.length := by
  intro fuel
  induction fuel with
  | zero =>
    intro s dl path VA k hk
    exact Or.inl hk
  | succ fuel ih =>
    intro s dl path VA k hk
    have hk' : k ∈ (dfsStep Z (dfs Z fuel) s dl path VA).1 := hk
    simp only [dfsStep] at hk'
    split at hk'
    · exact Or.inl hk'
    · split at hk'
      · exact Or.inl hk'
      · have hstep : ∀ (acc : State × (List (Nat × List Nat) × List TurnMove)) idxd,
            idxd ∈ dl.enum →
            (∀ k2 ∈ acc.2.1, k2 ∈ VA.1 ∨ k2.2.length ≤ dl.length) →
            (∀ k2 ∈ (dfsDie Z (dfs Z fuel) dl path acc idxd).2.1,
              k2 ∈ VA.1 ∨ k2.2.length ≤ dl.length) := by
          intro acc idxd hmemE hacc
          obtain ⟨idx, die⟩ := idxd
          obtain ⟨hidx, hget⟩ := enum_mem_facts dl idx die hmemE
          have hlenE : (dl.eraseIdx idx).length = dl.length - 1 :=
            length_eraseIdx_of_lt dl idx hidx
          have hinner := foldl_inv
            (fun (x : State × (List (Nat × List Nat) × List TurnMove)) =>
              ∀ k2 ∈ x.2.1, k2 ∈ VA.1 ∨ k2.2.length ≤ dl.length)
            (dfsChild Z (dfs Z fuel) (dl.eraseIdx idx) path)
            (generateMoves acc.1 die) acc hacc ?_
          · exact hinner
          · intro x smx _ hx k2 hk2
            have hk2' : k2 ∈ (dfs Z fuel (applySM Z smx x.1) (dl.eraseIdx idx)
              (path ++ [smx]) x.2).1 := hk2
            rcases ih (applySM Z smx x.1) (dl.eraseIdx idx) (path ++ [smx]) x.2 k2 hk2'
              with h | h
            · exact hx k2 h
            · right
              omega
        have hfold := foldl_inv
          (fun (acc : State × (List (Nat × List Nat) × List TurnMove)) =>
            ∀ k2 ∈ acc.2.1, k2 ∈ VA.1 ∨ k2.2.length ≤ dl.length)
          (dfsDie Z (dfs Z fuel) dl path) dl.enum
          (s, ((s.zhash, sortNat dl) :: VA.1, VA.2)) ?_ hstep
        · exact hfold k hk'
        · intro k2 hk2
          rcases List.mem_cons.mp hk2 with h | h
          · right
            rw [h]
            rw [show ((s.zhash, sortNat dl) : Nat × List Nat).2 = sortNat dl from rfl,
              sortNat_length]
          · exact Or.inl h

/-- The root of the reach enumeration is reachable. -/
theorem reachStates_head (Z : ZTable) (f : Nat) (s : State) (dl : List Nat) (hf : 0 < f) :
    s ∈ reachStates Z f s dl := by
  cases f with
  | zero => exact absurd hf (Nat.lt_irrefl 0)
  | succ f2 =>
    show s ∈ s :: (List.range dl.length).flatMap (fun idx =>
      (generateMoves s (dl.getD idx 0)).flatMap (fun sm =>
        reachStates Z f2 (applySM Z sm s) (dl.eraseIdx idx)))
    exact List.mem_cons_self s _

/-- One legal step descends inside the reach enumeration. -/
theorem reachStates_sub (Z : ZTable) (f : Nat) (s : State) (dl : List Nat) (idx : Nat)
    (sm : SingleMove) (hidx : idx < dl.length) (hsm : sm ∈ generateMoves s (dl.getD idx 0)) :
    ∀ t ∈ reachStates Z f (applySM Z sm s) (dl.eraseIdx idx), t ∈ reachStates Z (f + 1) s dl := by
  intro t ht
  show t ∈ s :: (List.range dl.length).flatMap (fun idx =>
    (generateMoves s (dl.getD idx 0)).flatMap (fun sm =>
      reachStates Z f (applySM Z sm s) (dl.eraseIdx idx)))
  refine List.mem_cons_of_mem s ?_
  refine List.mem_flatMap.mpr ⟨idx, List.mem_range.mpr hidx, ?_⟩
  exact List.mem_flatMap.mpr ⟨sm, hsm, ht⟩

/-- The obligation attached to a visited key: every state in the reach
set carrying the key's hash has all its dead-ending legal continuations
(over the key's dice multiset) witnessed by a recorded turn move of at
least the corresponding total length. -/
def Oblig (Z : ZTable) (R : List State) (N : Nat) (key : Nat × List Nat)
    (A : List TurnMove) : Prop :=
  ∀ t ∈ R, t.zhash = key.1 → ∀ (p : List SingleMove) (s2 : State) (D2 : Multiset Nat),
    Seq Z t ((key.2 : List Nat) : Multiset Nat) p s2 D2 → DeadEnd s2 D2 →
    ∃ tm ∈ A, (N - key.2.length) + p.length ≤ tm.single_moves.length

/-- All visited keys of at most the given dice count have their
obligations discharged by the recorded moves. -/
def VisOk (Z : ZTable) (R : List State) (N dlen : Nat)
    (VA : List (Nat × List Nat) × List TurnMove) : Prop :=
  ∀ k ∈ VA.1, k.2.length ≤ dlen → Oblig Z R N k VA.2

theorem Oblig_mono (Z : ZTable) (R : List State) (N : Nat) (key : Nat × List Nat)
    (A A' : List TurnMove) (hsub : ∀ tm ∈ A, tm ∈ A') (h : Oblig Z R N key A) :
    Oblig Z R N key A' := by
  intro t ht htz p s2 D2 hseq hdead
  obtain ⟨tm, htm, hlen⟩ := h t ht htz p s2 D2 hseq hdead
  exact ⟨tm, hsub tm htm, hlen⟩

/-- Fold invariant of the completeness argument: the accumulator state is
restored, pre-existing records persist, and every visited key is the
current node's key, an old key, or a finished descendant key with its
obligation discharged. -/
def DfsQ (Z : ZTable) (R : List State) (N : Nat) (s : State) (diceLeft : List Nat)
    (VA : List (Nat × List Nat) × List TurnMove)
    (acc : State × (List (Nat × List Nat) × List TurnMove)) : Prop :=
  acc.1 = s ∧ (∀ tm ∈ VA.2, tm ∈ acc.2.2) ∧
    ∀ k ∈ acc.2.1, k ∈ ((s.zhash, sortNat diceLeft) :: VA.1) ∨
      (k.2.length < diceLeft.length ∧ Oblig Z R N k acc.2.2)

/-- Completeness of the memoized DFS under hash injectivity on the reach
set: provided every already-visited key's obligation is discharged, the
run discharges the obligations of all its keys, and every dead-ending
legal continuation of the entry node is witnessed by a recorded turn move
at least as long as the entry path extended by that continuation. -/
theorem dfs_complete (Z : ZTable) (R : List State) (N : Nat) (hinj : HashInjOn R) :
    ∀ (fuel : Nat) (s : State) (diceLeft : List Nat) (path : List SingleMove)
      (VA : List (Nat × List Nat) × List TurnMove),
      Inv s → diceLeft.length < fuel → path.length + diceLeft.length = N →
      s ∈ R → (∀ t ∈ reachStates Z fuel s diceLeft, t ∈ R) →
      VisOk Z R N diceLeft.length VA →
      VisOk Z R N diceLeft.length (dfs Z fuel s diceLeft path VA) ∧
      ∀ (p : List SingleMove) (s2 : State) (D2 : Multiset Nat),
        Seq Z s ((diceLeft : List Nat) : Multiset Nat) p s2 D2 → DeadEnd s2 D2 →
        (p = [] → path ≠ []) →
        ∃ tm ∈ (dfs Z fuel s diceLeft path VA).2,
          path.length + p.length ≤ tm.single_moves.length := by
  intro fuel
  induction fuel with
  | zero =>
    intro s diceLeft path VA _ hfuel _ _ _ _
    exact absurd hfuel (Nat.not_lt_zero _)
  | succ fuel ih =>
    intro s diceLeft path VA hInv hfuel hN hsR hR hVis
    cases hb : anyMoveLeft s diceLeft with
    | false =>
      have hre : dfs Z (fuel + 1) s diceLeft path VA
          = (VA.1, if path.isEmpty = true then VA.2
              else VA.2 ++ [(⟨path⟩ : TurnMove)]) := by
        show dfsStep Z (dfs Z fuel) s diceLeft path VA = _
        simp only [dfsStep]
        rw [if_pos (by rw [hb]; rfl)]
      rw [hre]
      have hdl : ∀ die ∈ diceLeft, generateMoves s die = [] :=
        anyMoveLeft_false s diceLeft hb
      have hsub : ∀ tm ∈ VA.2, tm ∈ (if path.isEmpty = true then VA.2
          else VA.2 ++ [(⟨path⟩ : TurnMove)]) := by
        intro tm htm
        split
        · exact htm
        · exact List.mem_append_left _ htm
      constructor
      · intro k hk hklen
        have hk' : k ∈ VA.1 := hk
        exact Oblig_mono Z R N k VA.2 _ hsub (hVis k hk' hklen)
      · intro p s2 D2 hseq hdead hp
        cases p with
        | cons sm p' =>
          exfalso
          obtain ⟨die, hdieD, hsm, hrest⟩ := Seq_cons_inv Z s _ sm p' s2 D2 hseq
          rw [hdl die (Multiset.mem_coe.mp hdieD)] at hsm
          exact absurd hsm (List.not_mem_nil sm)
        | nil =>
          have hpath : path ≠ [] := hp rfl
          refine ⟨⟨path⟩, ?_, ?_⟩
          · show (⟨path⟩ : TurnMove) ∈ (if path.isEmpty = true then VA.2
              else VA.2 ++ [(⟨path⟩ : TurnMove)])
            rw [if_neg (fun h => hpath (List.isEmpty_iff.mp h))]
            exact List.mem_append_right _ (List.mem_singleton.mpr rfl)
          · show path.length + ([] : List SingleMove).length ≤ path.length
            simp
    | true =>
      by_cases hkey : (s.zhash, sortNat diceLeft) ∈ VA.1
      · have hre : dfs Z (fuel + 1) s diceLeft path VA = VA := by
          show dfsStep Z (dfs Z fuel) s diceLeft path VA = _
          simp only [dfsStep]
          rw [if_neg (by rw [hb]; decide), if_pos hkey]
        rw [hre]
        refine ⟨hVis, ?_⟩
        intro p s2 D2 hseq hdead _
        have hsl := sortNat_length diceLeft
        have hkl : ((s.zhash, sortNat diceLeft) : Nat × List Nat).2.length
            ≤ diceLeft.length := by
          show (sortNat diceLeft).length ≤ diceLeft.length
          omega
        have hob := hVis (s.zhash, sortNat diceLeft) hkey hkl
        have hseq2 : Seq Z s ((sortNat diceLeft : List Nat) : Multiset Nat) p s2 D2 := by
          rw [mset_sortNat diceLeft]
          exact hseq
        obtain ⟨tm, htm, hlen2⟩ := hob s hsR rfl p s2 D2 hseq2 hdead
        refine ⟨tm, htm, ?_⟩
        have hsl2 : ((s.zhash, sortNat diceLeft) : Nat × List Nat).2.length
            = diceLeft.length := by
          show (sortNat diceLeft).length = diceLeft.length
          omega
        omega
      · have hne : diceLeft ≠ [] := by
          intro h0
          have hf : anyMoveLeft s ([] : List Nat) = false := rfl
          rw [h0, hf] at hb
          exact absurd hb (by decide)
        have hlen0 : 0 < diceLeft.length := List.length_pos.mpr hne
        have hQvis : ∀ acc2, DfsQ Z R N s diceLeft VA acc2 →
            VisOk Z R N (diceLeft.length - 1) acc2.2 := by
          intro acc2 hq k hk hklen
          rcases hq.2.2 k hk with h1 | h2
          · rcases List.mem_cons.mp h1 with hk2 | hk2
            · exfalso
              have hkl : k.2.length = diceLeft.length := by
                rw [hk2]
                show (sortNat diceLeft).length = diceLeft.length
                exact sortNat_length diceLeft
              omega
            · exact Oblig_mono Z R N k VA.2 acc2.2.2 hq.2.1 (hVis k hk2 (by omega))
          · exact h2.2
        have hIHchild : ∀ (idx die : Nat), idx < diceLeft.length →
            diceLeft.getD idx 0 = die →
            ∀ (sm : SingleMove), sm ∈ generateMoves s die →
            ∀ (VA2 : List (Nat × List Nat) × List TurnMove),
              VisOk Z R N (diceLeft.eraseIdx idx).length VA2 →
              VisOk Z R N (diceLeft.eraseIdx idx).length
                (dfs Z fuel (applySM Z sm s) (diceLeft.eraseIdx idx) (path ++ [sm]) VA2) ∧
              (∀ (p : List SingleMove) (s2 : State) (D2 : Multiset Nat),
                Seq Z (applySM Z sm s)
                  ((diceLeft.eraseIdx idx : List Nat) : Multiset Nat) p s2 D2 →
                DeadEnd s2 D2 → (p = [] → path ++ [sm] ≠ []) →
                ∃ tm ∈ (dfs Z fuel (applySM Z sm s) (diceLeft.eraseIdx idx)
                    (path ++ [sm]) VA2).2,
                  (path ++ [sm]).length + p.length ≤ tm.single_moves.length) := by
          intro idx die hidx hget sm hsm VA2 hvis2
          have hap := generateMoves_applicable s die sm hInv.2.2.2.2.2
            hInv.2.2.2.1 hInv.2.1 hsm
          have hInvc : Inv (applySM Z sm s) := applySM_Inv Z sm s hInv hap.1
          have hlenE : (diceLeft.eraseIdx idx).length = diceLeft.length - 1 :=
            length_eraseIdx_of_lt diceLeft idx hidx
          have hfuelc : (diceLeft.eraseIdx idx).length < fuel := by omega
          have hNc : (path ++ [sm]).length + (diceLeft.eraseIdx idx).length = N := by
            rw [List.length_append, List.length_singleton, hlenE]
            omega
          have hsm' : sm ∈ generateMoves s (diceLeft.getD idx 0) := by
            rw [hget]
            exact hsm
          have hfuel1 : 0 < fuel := by omega
          have hsRc : applySM Z sm s ∈ R :=
            hR _ (reachStates_sub Z fuel s diceLeft idx sm hidx hsm' _
              (reachStates_head Z fuel _ _ hfuel1))
          have hreachc : ∀ t ∈ reachStates Z fuel (applySM Z sm s)
              (diceLeft.eraseIdx idx), t ∈ R :=
            fun t ht => hR t (reachStates_sub Z fuel s diceLeft idx sm hidx hsm' t ht)
          exact ih (applySM Z sm s) (diceLeft.eraseIdx idx) (path ++ [sm]) VA2
            hInvc hfuelc hNc hsRc hreachc hvis2
        have hstepQin : ∀ (idx die : Nat), idx < diceLeft.length →
            diceLeft.getD idx 0 = die →
            ∀ (acc2 : State × (List (Nat × List Nat) × List TurnMove)) (sm : SingleMove),
              sm ∈ generateMoves s die → DfsQ Z R N s diceLeft VA acc2 →
              DfsQ Z R N s diceLeft VA
                (dfsChild Z (dfs Z fuel) (diceLeft.eraseIdx idx) path acc2 sm) := by
          intro idx die hidx hget acc2 sm hsm hq
          obtain ⟨hq1, hq2, hq3⟩ := hq
          have hap := generateMoves_applicable s die sm hInv.2.2.2.2.2
            hInv.2.2.2.1 hInv.2.1 hsm
          have hlenE : (diceLeft.eraseIdx idx).length = diceLeft.length - 1 :=
            length_eraseIdx_of_lt diceLeft idx hidx
          refine ⟨?_, ?_, ?_⟩
          · show undoSM Z sm (applySM Z sm acc2.1) = s
            rw [hq1]
            exact undoSM_applySM Z sm s hInv.1 hInv.2.2.2.2.2 hInv.2.2.2.1 hap.1
          · intro tm htm
            show tm ∈ (dfs Z fuel (applySM Z sm acc2.1) (diceLeft.eraseIdx idx)
              (path ++ [sm]) acc2.2).2
            exact (dfs_mono Z fuel _ _ _ _).2 tm (hq2 tm htm)
          · intro k hk
            have hk' : k ∈ (dfs Z fuel (applySM Z sm acc2.1) (diceLeft.eraseIdx idx)
              (path ++ [sm]) acc2.2).1 := hk
            rcases dfs_newkeys Z fuel _ _ _ _ k hk' with hold | hnew
            · rcases hq3 k hold with h1 | ⟨hl, hob⟩
              · exact Or.inl h1
              · refine Or.inr ⟨hl, ?_⟩
                show Oblig Z R N k (dfs Z fuel (applySM Z sm acc2.1)
                  (diceLeft.eraseIdx idx) (path ++ [sm]) acc2.2).2
                exact Oblig_mono Z R N k acc2.2.2 _ (dfs_mono Z fuel _ _ _ _).2 hob
            · refine Or.inr ⟨by omega, ?_⟩
              show Oblig Z R N k (dfs Z fuel (applySM Z sm acc2.1)
                (diceLeft.eraseIdx idx) (path ++ [sm]) acc2.2).2
              rw [hq1] at hk' ⊢
              exact (hIHchild idx die hidx hget sm hsm acc2.2
                (by rw [hlenE]; exact hQvis acc2 ⟨hq1, hq2, hq3⟩)).1 k hk' hnew
        have hstepQ : ∀ (acc : State × (List (Nat × List Nat) × List TurnMove))
            (idxDie : Nat × Nat), idxDie ∈ diceLeft.enum →
            DfsQ Z R N s diceLeft VA acc →
            DfsQ Z R N s diceLeft VA (dfsDie Z (dfs Z fuel) diceLeft path acc idxDie) := by
          intro acc idxDie hmemE hq
          obtain ⟨idx, die⟩ := idxDie
          obtain ⟨hidx, hget⟩ := enum_mem_facts diceLeft idx die hmemE
          have heq : dfsDie Z (dfs Z fuel) diceLeft path acc (idx, die)
              = (generateMoves s die).foldl
                (dfsChild Z (dfs Z fuel) (diceLeft.eraseIdx idx) path) acc := by
            simp only [dfsDie]
            rw [hq.1]
          rw [heq]
          exact foldl_inv (DfsQ Z R N s diceLeft VA) _ _ acc hq
            (fun x smx hsmx hx => hstepQin idx die hidx hget x smx hsmx hx)
        have hre : dfs Z (fuel + 1) s diceLeft path VA
            = ((diceLeft.enum.foldl (dfsDie Z (dfs Z fuel) diceLeft path)
                (s, ((s.zhash, sortNat diceLeft) :: VA.1, VA.2))).2) := by
          show dfsStep Z (dfs Z fuel) s diceLeft path VA = _
          simp only [dfsStep]
          rw [if_neg (by rw [hb]; decide), if_neg hkey]
        rw [hre]
        have hQ0 : DfsQ Z R N s diceLeft VA
            (s, ((s.zhash, sortNat diceLeft) :: VA.1, VA.2)) :=
          ⟨rfl, fun tm h => h, fun k hk => Or.inl hk⟩
        have hcomplete : ∀ (p : List SingleMove) (s2 : State) (D2 : Multiset Nat),
            Seq Z s ((diceLeft : List Nat) : Multiset Nat) p s2 D2 → DeadEnd s2 D2 →
            ∃ tm ∈ ((diceLeft.enum.foldl (dfsDie Z (dfs Z fuel) diceLeft path)
                (s, ((s.zhash, sortNat diceLeft) :: VA.1, VA.2))).2).2,
              path.length + p.length ≤ tm.single_moves.length := by
          intro p s2 D2 hseq hdead
          cases p with
          | nil =>
            exfalso
            obtain ⟨hs2, hD2⟩ := Seq_nil_inv Z s _ s2 D2 hseq
            obtain ⟨die, hdie, hgm⟩ := anyMoveLeft_true s diceLeft hb
            apply hgm
            rw [hs2, hD2] at hdead
            exact hdead die (Multiset.mem_coe.mpr hdie)
          | cons sm p' =>
            obtain ⟨die, hdieD, hsm, hrest⟩ := Seq_cons_inv Z s _ sm p' s2 D2 hseq
            have hdie : die ∈ diceLeft := Multiset.mem_coe.mp hdieD
            obtain ⟨idx, hidx, hgetel⟩ := List.getElem_of_mem hdie
            have hget : diceLeft.getD idx 0 = die := by
              rw [List.getD_eq_getElem?_getD, List.getElem?_eq_getElem hidx]
              exact hgetel
            have hlenE : (diceLeft.eraseIdx idx).length = diceLeft.length - 1 :=
              length_eraseIdx_of_lt diceLeft idx hidx
            have henum : (idx, die) ∈ diceLeft.enum := by
              have h0 := enum_mem_intro diceLeft idx hidx
              rw [hget] at h0
              exact h0
            obtain ⟨E1, E2, hdecomp⟩ := List.append_of_mem henum
            have hrest' : Seq Z (applySM Z sm s)
                ((diceLeft.eraseIdx idx : List Nat) : Multiset Nat) p' s2 D2 := by
              rw [mset_eraseIdx diceLeft idx hidx, hget]
              exact hrest
            rw [hdecomp, List.foldl_append, List.foldl_cons]
            have hQ1 : DfsQ Z R N s diceLeft VA
                (E1.foldl (dfsDie Z (dfs Z fuel) diceLeft path)
                  (s, ((s.zhash, sortNat diceLeft) :: VA.1, VA.2))) :=
              foldl_inv (DfsQ Z R N s diceLeft VA) _ E1 _ hQ0
                (fun x a ha hx => hstepQ x a
                  (by rw [hdecomp]; exact List.mem_append_left _ ha) hx)
            have heq1 : dfsDie Z (dfs Z fuel) diceLeft path
                (E1.foldl (dfsDie Z (dfs Z fuel) diceLeft path)
                  (s, ((s.zhash, sortNat diceLeft) :: VA.1, VA.2))) (idx, die)
              = (generateMoves s die).foldl
                  (dfsChild Z (dfs Z fuel) (diceLeft.eraseIdx idx) path)
                  (E1.foldl (dfsDie Z (dfs Z fuel) diceLeft path)
                    (s, ((s.zhash, sortNat diceLeft) :: VA.1, VA.2))) := by
              simp only [dfsDie]
              rw [hQ1.1]
            rw [heq1]
            obtain ⟨M1, M2, hmdecomp⟩ := List.append_of_mem hsm
            rw [hmdecomp, List.foldl_append, List.foldl_cons]
            have hQ2 : DfsQ Z R N s diceLeft VA
                (M1.foldl (dfsChild Z (dfs Z fuel) (diceLeft.eraseIdx idx) path)
                  (E1.foldl (dfsDie Z (dfs Z fuel) diceLeft path)
                    (s, ((s.zhash, sortNat diceLeft) :: VA.1, VA.2)))) :=
              foldl_inv (DfsQ Z R N s diceLeft VA) _ M1 _ hQ1
                (fun x a ha hx => hstepQin idx die hidx hget x a
                  (by rw [hmdecomp]; exact List.mem_append_left _ ha) hx)
            generalize hA2 : M1.foldl (dfsChild Z (dfs Z fuel)
                (diceLeft.eraseIdx idx) path)
              (E1.foldl (dfsDie Z (dfs Z fuel) diceLeft path)
                (s, ((s.zhash, sortNat diceLeft) :: VA.1, VA.2))) = ACC2
            rw [hA2] at hQ2
            have hchild := hIHchild idx die hidx hget sm hsm ACC2.2
              (by rw [hlenE]; exact hQvis ACC2 hQ2)
            obtain ⟨tm, htm, hlentm⟩ := hchild.2 p' s2 D2 hrest' hdead
              (fun _ => by simp)
            have hkeepChild : ∀ (rem : List Nat) (pth : List SingleMove)
                (a : State × (List (Nat × List Nat) × List TurnMove)) (smx : SingleMove),
                tm ∈ a.2.2 → tm ∈ (dfsChild Z (dfs Z fuel) rem pth a smx).2.2 := by
              intro rem pth a smx h
              show tm ∈ (dfs Z fuel (applySM Z smx a.1) rem (pth ++ [smx]) a.2).2
              exact (dfs_mono Z fuel _ _ _ _).2 tm h
            have hkeepDie : ∀ (a : State × (List (Nat × List Nat) × List TurnMove))
                (idxd : Nat × Nat), tm ∈ a.2.2 →
                tm ∈ (dfsDie Z (dfs Z fuel) diceLeft path a idxd).2.2 := by
              intro a idxd h
              show tm ∈ ((generateMoves a.1 idxd.2).foldl
                (dfsChild Z (dfs Z fuel) (diceLeft.eraseIdx idxd.1) path) a).2.2
              exact foldl_inv (fun x => tm ∈ x.2.2) _ _ a h
                (fun x smx _ hx => hkeepChild _ _ x smx hx)
            have hbase : tm ∈ (dfsChild Z (dfs Z fuel) (diceLeft.eraseIdx idx) path
                ACC2 sm).2.2 := by
              show tm ∈ (dfs Z fuel (applySM Z sm ACC2.1) (diceLeft.eraseIdx idx)
                (path ++ [sm]) ACC2.2).2
              rw [hQ2.1]
              exact htm
            have h1 := foldl_inv (fun (x : State × (List (Nat × List Nat) × List TurnMove))
                => tm ∈ x.2.2)
              (dfsChild Z (dfs Z fuel) (diceLeft.eraseIdx idx) path) M2 _ hbase
              (fun x a _ hx => hkeepChild _ _ x a hx)
            refine ⟨tm, ?_, ?_⟩
            · exact foldl_inv (fun (x : State × (List (Nat × List Nat) × List TurnMove))
                  => tm ∈ x.2.2)
                (dfsDie Z (dfs Z fuel) diceLeft path) E2 _ h1
                (fun x a _ hx => hkeepDie x a hx)
            · simp only [List.length_append, List.length_singleton,
                List.length_cons] at hlentm ⊢
              omega
        refine ⟨?_, fun p s2 D2 hs hd _ => hcomplete p s2 D2 hs hd⟩
        have hQfin : DfsQ Z R N s diceLeft VA
            (diceLeft.enum.foldl (dfsDie Z (dfs Z fuel) diceLeft path)
              (s, ((s.zhash, sortNat diceLeft) :: VA.1, VA.2))) :=
          foldl_inv (DfsQ Z R N s diceLeft VA) _ _ _ hQ0
            (fun x a ha hx => hstepQ x a ha hx)
        intro k hk hklen
        rcases hQfin.2.2 k hk with h1 | h2
        · rcases List.mem_cons.mp h1 with hk2 | hk2
          · subst hk2
            intro t ht htz p s2 D2 hseqk hdeadk
            have htz' : t.zhash = s.zhash := htz
            have hts : t = s := hinj t ht s hsR htz'
            subst hts
            have hseq2 : Seq Z t ((sortNat diceLeft : List Nat) : Multiset Nat) p s2 D2 :=
              hseqk
            rw [mset_sortNat diceLeft] at hseq2
            obtain ⟨tm, htm, hlen2⟩ := hcomplete p s2 D2 hseq2 hdeadk
            refine ⟨tm, htm, ?_⟩
            have hsl : ((t.zhash, sortNat diceLeft) : Nat × List Nat).2.length
                = diceLeft.length := by
              show (sortNat diceLeft).length = diceLeft.length
              exact sortNat_length diceLeft
            omega
          · exact Oblig_mono Z R N k VA.2 _ hQfin.2.1 (hVis k hk2 hklen)
        · exact h2.2

/-- A legal single move that dead-ends the remaining dice is always
recorded: the root node is never pruned, and a child with no move left
records its path before the memo check. -/
theorem root_single_recorded (Z : ZTable) (s : State) (dice : List Nat) (hInv : Inv s)
    (sm : SingleMove) (die : Nat) (hdie : die ∈ dice) (hsm : sm ∈ generateMoves s die)
    (hdead : DeadEnd (applySM Z sm s) (((dice : List Nat) : Multiset Nat).erase die)) :
    (⟨[sm]⟩ : TurnMove) ∈ generateAllTurnMoves Z s dice := by
  obtain ⟨idx, hidx, hgetel⟩ := List.getElem_of_mem hdie
  have hget : dice.getD idx 0 = die := by
    rw [List.getD_eq_getElem?_getD, List.getElem?_eq_getElem hidx]
    exact hgetel
  have hmv : anyMoveLeft s dice = true :=
    List.any_eq_true.mpr ⟨die, hdie,
      by rw [isEmpty_false_of_mem (generateMoves s die) sm hsm]; rfl⟩
  have hstepR : ∀ (acc : State × (List (Nat × List Nat) × List TurnMove))
      (idxd : Nat × Nat), acc.1 = s →
      (dfsDie Z (dfs Z dice.length) dice [] acc idxd).1 = s := by
    intro acc idxd h1
    have heq : dfsDie Z (dfs Z dice.length) dice [] acc idxd
        = (generateMoves s idxd.2).foldl
          (dfsChild Z (dfs Z dice.length) (dice.eraseIdx idxd.1) []) acc := by
      simp only [dfsDie]
      rw [h1]
    rw [heq]
    exact foldl_inv (fun (x : State × (List (Nat × List Nat) × List TurnMove)) => x.1 = s)
      _ _ acc h1 (fun x smx hsmx hx => by
        show undoSM Z smx (applySM Z smx x.1) = s
        rw [hx]
        exact undoSM_applySM Z smx s hInv.1 hInv.2.2.2.2.2 hInv.2.2.2.1
          (generateMoves_applicable s idxd.2 smx hInv.2.2.2.2.2 hInv.2.2.2.1
            hInv.2.1 hsmx).1)
  show (⟨[sm]⟩ : TurnMove) ∈ (dfs Z (dice.length + 1) s dice []
    (([], []) : List (Nat × List Nat) × List TurnMove)).2
  have hre : dfs Z (dice.length + 1) s dice []
      (([], []) : List (Nat × List Nat) × List TurnMove)
      = ((dice.enum.foldl (dfsDie Z (dfs Z dice.length) dice [])
          (s, ((s.zhash, sortNat dice) :: ([] : List (Nat × List Nat)),
            ([] : List TurnMove)))).2) := by
    show dfsStep Z (dfs Z dice.length) s dice [] ([], []) = _
    simp only [dfsStep]
    rw [if_neg (by rw [hmv]; decide), if_neg (List.not_mem_nil _)]
  rw [hre]
  have henum : (idx, die) ∈ dice.enum := by
    have h0 := enum_mem_intro dice idx hidx
    rw [hget] at h0
    exact h0
  obtain ⟨E1, E2, hdecomp⟩ := List.append_of_mem henum
  rw [hdecomp, List.foldl_append, List.foldl_cons]
  have hacc1 : (E1.foldl (dfsDie Z (dfs Z dice.length) dice [])
      (s, ((s.zhash, sortNat dice) :: ([] : List (Nat × List Nat)),
        ([] : List TurnMove)))).1 = s :=
    foldl_inv (fun (x : State × (List (Nat × List Nat) × List TurnMove)) => x.1 = s)
      _ E1 _ rfl (fun x a _ hx => hstepR x a hx)
  have heq1 : dfsDie Z (dfs Z dice.length) dice []
      (E1.foldl (dfsDie Z (dfs Z dice.length) dice [])
        (s, ((s.zhash, sortNat dice) :: ([] : List (Nat × List Nat)),
          ([] : List TurnMove)))) (idx, die)
    = (generateMoves s die).foldl
        (dfsChild Z (dfs Z dice.length) (dice.eraseIdx idx) [])
        (E1.foldl (dfsDie Z (dfs Z dice.length) dice [])
          (s, ((s.zhash, sortNat dice) :: ([] : List (Nat × List Nat)),
            ([] : List TurnMove)))) := by
    simp only [dfsDie]
    rw [hacc1]
  rw [heq1]
  obtain ⟨M1, M2, hmdecomp⟩ := List.append_of_mem hsm
  rw [hmdecomp, List.foldl_append, List.foldl_cons]
  have hacc2 : (M1.foldl (dfsChild Z (dfs Z dice.length) (dice.eraseIdx idx) [])
      (E1.foldl (dfsDie Z (dfs Z dice.length) dice [])
        (s, ((s.zhash, sortNat dice) :: ([] : List (Nat × List Nat)),
          ([] : List TurnMove))))).1 = s :=
    foldl_inv (fun (x : State × (List (Nat × List Nat) × List TurnMove)) => x.1 = s)
      _ M1 _ hacc1 (fun x smx hsmx hx => by
        show undoSM Z smx (applySM Z smx x.1) = s
        rw [hx]
        exact undoSM_applySM Z smx s hInv.1 hInv.2.2.2.2.2 hInv.2.2.2.1
          (generateMoves_applicable s die smx hInv.2.2.2.2.2 hInv.2.2.2.1
            hInv.2.1 (by rw [hmdecomp]; exact List.mem_append_left _ hsmx)).1)
  generalize hA2 : M1.foldl (dfsChild Z (dfs Z dice.length) (dice.eraseIdx idx) [])
      (E1.foldl (dfsDie Z (dfs Z dice.length) dice [])
        (s, ((s.zhash, sortNat dice) :: ([] : List (Nat × List Nat)),
          ([] : List TurnMove)))) = ACC2
  rw [hA2] at hacc2
  have hdeadlist : ∀ d2 ∈ dice.eraseIdx idx, generateMoves (applySM Z sm s) d2 = [] := by
    intro d2 hd2
    apply hdead d2
    have hms := mset_eraseIdx dice idx hidx
    rw [hget] at hms
    rw [← hms]
    exact Multiset.mem_coe.mpr hd2
  have hmvchild : anyMoveLeft (applySM Z sm s) (dice.eraseIdx idx) = false :=
    anyMoveLeft_eq_false_of _ _ hdeadlist
  obtain ⟨kf, hkf⟩ : ∃ kf, dice.length = kf + 1 := ⟨dice.length - 1, by omega⟩
  have hrecchild : (dfs Z dice.length (applySM Z sm s) (dice.eraseIdx idx)
      (([] : List SingleMove) ++ [sm]) ACC2.2).2
      = ACC2.2.2 ++ [(⟨([] : List SingleMove) ++ [sm]⟩ : TurnMove)] := by
    rw [hkf]
    show (dfsStep Z (dfs Z kf) (applySM Z sm s) (dice.eraseIdx idx)
      (([] : List SingleMove) ++ [sm]) ACC2.2).2 = _
    simp only [dfsStep]
    rw [if_pos (by rw [hmvchild]; rfl)]
    rw [if_neg (fun h => (nomatch h : False))]
  have hbase : (⟨[sm]⟩ : TurnMove) ∈ (dfsChild Z (dfs Z dice.length)
      (dice.eraseIdx idx) [] ACC2 sm).2.2 := by
    show (⟨[sm]⟩ : TurnMove) ∈ (dfs Z dice.length (applySM Z sm ACC2.1)
      (dice.eraseIdx idx) (([] : List SingleMove) ++ [sm]) ACC2.2).2
    rw [hacc2, hrecchild]
    exact List.mem_append_right _ (List.mem_singleton.mpr rfl)
  have hkeepChild : ∀ (rem : List Nat) (pth : List SingleMove)
      (a : State × (List (Nat × List Nat) × List TurnMove)) (smx : SingleMove),
      (⟨[sm]⟩ : TurnMove) ∈ a.2.2 →
      (⟨[sm]⟩ : TurnMove) ∈ (dfsChild Z (dfs Z dice.length) rem pth a smx).2.2 := by
    intro rem pth a smx h
    show (⟨[sm]⟩ : TurnMove) ∈ (dfs Z dice.length (applySM Z smx a.1) rem
      (pth ++ [smx]) a.2).2
    exact (dfs_mono Z dice.length _ _ _ _).2 _ h
  have hkeepDie : ∀ (a : State × (List (Nat × List Nat) × List TurnMove))
      (idxd : Nat × Nat), (⟨[sm]⟩ : TurnMove) ∈ a.2.2 →
      (⟨[sm]⟩ : TurnMove) ∈ (dfsDie Z (dfs Z dice.length) dice [] a idxd).2.2 := by
    intro a idxd h
    show (⟨[sm]⟩ : TurnMove) ∈ ((generateMoves a.1 idxd.2).foldl
      (dfsChild Z (dfs Z dice.length) (dice.eraseIdx idxd.1) []) a).2.2
    exact foldl_inv (fun (x : State × (List (Nat × List Nat) × List TurnMove)) =>
        (⟨[sm]⟩ : TurnMove) ∈ x.2.2) _ _ a h
      (fun x smx _ hx => hkeepChild _ _ x smx hx)
  have h1 := foldl_inv (fun (x : State × (List (Nat × List Nat) × List TurnMove)) =>
      (⟨[sm]⟩ : TurnMove) ∈ x.2.2)
    (dfsChild Z (dfs Z dice.length) (dice.eraseIdx idx) []) M2 _ hbase
    (fun x a _ hx => hkeepChild _ _ x a hx)
  exact foldl_inv (fun (x : State × (List (Nat × List Nat) × List TurnMove)) =>
      (⟨[sm]⟩ : TurnMove) ∈ x.2.2)
    (dfsDie Z (dfs Z dice.length) dice []) E2 _ h1
    (fun x a _ hx => hkeepDie x a hx)

/-- C4 (amended): provided the Zobrist keys are injective on the states
the turn search can reach (the memoized DFS prunes by position hash, so a
collision could hide sequences), every turn move returned by
`generate_legal_moves` is itself a maximal legal turn sequence for the
roll, and its length equals the maximum achievable among all legal turn
sequences — never shorter; and when every legal turn sequence has length
one, every returned sequence uses the largest playable die — not
necessarily the larger of the two rolled dice. -/
theorem legal_moves_maximal (Z : ZTable) (s : State) (dice : List Nat) (tm : TurnMove)
    (hInv : Inv s) (hinj : HashInjOn (reachStates Z (dice.length + 1) s dice))
    (hmem : tm ∈ generateLegalMoves Z s dice) :
    LegalTurnSeq Z s ((dice : List Nat) : Multiset Nat) tm.single_moves ∧
    (∀ p, LegalTurnSeq Z s ((dice : List Nat) : Multiset Nat) p →
      p.length ≤ tm.single_moves.length) ∧
    ((∀ p, LegalTurnSeq Z s ((dice : List Nat) : Multiset Nat) p → p.length = 1) →
      ∀ p, LegalTurnSeq Z s ((dice : List Nat) : Multiset Nat) p → ∀ sm' ∈ p,
        sm'.die ≤ (tm.single_moves.headD default).die) := by
  obtain ⟨hin, hlen, hdie⟩ := mem_filterTurnMoves (generateAllTurnMoves Z s dice) tm hmem
  have hsound := dfs_sound_seq Z (dice.length + 1) s dice [] ([], []) hInv tm hin
  have hlegal : LegalTurnSeq Z s ((dice : List Nat) : Multiset Nat) tm.single_moves := by
    rcases hsound with h | ⟨suffix, s2, D2, he, hne, hseq, hdead⟩
    · exact absurd h (List.not_mem_nil tm)
    · exact ⟨hne, s2, D2, by rw [he]; exact hseq, hdead⟩
  have hcompl : ∀ p, LegalTurnSeq Z s ((dice : List Nat) : Multiset Nat) p →
      p.length ≤ tm.single_moves.length := by
    intro p hp
    obtain ⟨hpne, s2, D2, hseq, hdead⟩ := hp
    have hdc := dfs_complete Z (reachStates Z (dice.length + 1) s dice) dice.length hinj
      (dice.length + 1) s dice [] ([], []) hInv (Nat.lt_succ_self _) (by simp) 
      (reachStates_head Z (dice.length + 1) s dice (Nat.succ_pos _)) (fun t ht => ht)
      (fun k hk => absurd hk (List.not_mem_nil k))
    obtain ⟨tm', htm', hlen'⟩ := hdc.2 p s2 D2 hseq hdead (fun h0 => absurd h0 hpne)
    have h1 : tm'.single_moves.length ≤ tmsMaxLen (generateAllTurnMoves Z s dice) :=
      mem_le_tmsMaxLen _ tm' htm'
    rw [hlen]
    simp only [List.length_nil, Nat.zero_add] at hlen'
    omega
  refine ⟨hlegal, hcompl, ?_⟩
  intro hall p hp sm' hsm'
  have htm1 : tm.single_moves.length = 1 := hall _ hlegal
  have hml : tmsMaxLen (generateAllTurnMoves Z s dice) = 1 := by
    rw [← hlen]
    exact htm1
  obtain ⟨hne2, hdieq⟩ := hdie hml
  rw [hdieq]
  obtain ⟨hpne, s2, D2, hseq, hdead⟩ := hp
  have hp1 : p.length = 1 := hall p ⟨hpne, s2, D2, hseq, hdead⟩
  cases p with
  | nil => exact absurd hsm' (List.not_mem_nil sm')
  | cons sm0 prest =>
    have hrest0 : prest = [] := by
      rw [List.length_cons] at hp1
      exact List.length_eq_zero.mp (by omega)
    subst hrest0
    have hsmeq : sm' = sm0 := List.mem_singleton.mp hsm'
    subst hsmeq
    obtain ⟨die, hdieD, hsmg, hrest⟩ := Seq_cons_inv Z s _ sm' [] s2 D2 hseq
    obtain ⟨hs2, hD2⟩ := Seq_nil_inv Z _ _ s2 D2 hrest
    have hdead2 : DeadEnd (applySM Z sm' s)
        (((dice : List Nat) : Multiset Nat).erase die) := by
      rw [hs2, hD2] at hdead
      exact hdead
    have hrec := root_single_recorded Z s dice hInv sm' die
      (Multiset.mem_coe.mp hdieD) hsmg hdead2
    refine le_tmsBigDie _ 0 ⟨[sm']⟩ (List.mem_filter.mpr ⟨hrec, ?_⟩) sm' ?_
    · rw [hml]
      rfl
    · show sm' ∈ [sm']
      exact List.mem_singleton.mpr rfl

set_option maxRecDepth 8000 in
theorem legal_moves_maximal_witness :
    Inv c53state ∧
    HashInjOn (reachStates Ztwo (([5, 3] : List Nat).length + 1) c53state [5, 3]) ∧
    (⟨[⟨0, 25, 22, SingleMoveType.NORMAL, 3⟩]⟩ : TurnMove)
        ∈ generateLegalMoves Ztwo c53state [5, 3] ∧
    (LegalTurnSeq Ztwo c53state (([5, 3] : List Nat) : Multiset Nat)
        (⟨[⟨0, 25, 22, SingleMoveType.NORMAL, 3⟩]⟩ : TurnMove).single_moves ∧
      (∀ p, LegalTurnSeq Ztwo c53state (([5, 3] : List Nat) : Multiset Nat) p →
        p.length
          ≤ (⟨[⟨0, 25, 22, SingleMoveType.NORMAL, 3⟩]⟩ : TurnMove).single_moves.length) ∧
      ((∀ p, LegalTurnSeq Ztwo c53state (([5, 3] : List Nat) : Multiset Nat) p →
          p.length = 1) →
        ∀ p, LegalTurnSeq Ztwo c53state (([5, 3] : List Nat) : Multiset Nat) p →
          ∀ sm' ∈ p, sm'.die ≤ ((⟨[⟨0, 25, 22, SingleMoveType.NORMAL, 3⟩]⟩ :
            TurnMove).single_moves.headD default).die)) :=
  ⟨by decide, by decide, by decide,
    legal_moves_maximal Ztwo c53state [5, 3] ⟨[⟨0, 25, 22, SingleMoveType.NORMAL, 3⟩]⟩
      (by decide) (by decide) (by decide)⟩
